import Mathlib

/-!
# Mapbox Vector Tile decoder (`qgsvectortilemvtdecoder.cpp`)

A shallow embedding of `_isExteriorRing` and `QgsVectorTileMVTDecoder::layerFeatures`.

Conventions of the embedding:

* `unsigned` words are natural numbers reduced modulo `2^32` where they are read;
* `int` values are integers; the result of every `int` addition or multiplication and of
  every conversion to `int` is reduced to the two's-complement range `[-2^31, 2^31)` by
  `toInt32`; the loop index `i` is a natural number, as it stays within the stream length,
  which is an `int`;
* `double` values are rational numbers (exact arithmetic); the rounding of binary64
  arithmetic is modelled by `Double`, in which `_isExteriorRing` is embedded a second time
  (`_isExteriorRingDouble`);
* reads that the C++ code performs outside a container (`feature.geometry(k)`,
  `layer.values(k)`, `tmpPoints.first()` on an empty vector) are errors of the
  `Except` monad.
-/

namespace MVT

/-! ## Machine arithmetic -/

/-- Value of a 32-bit two's-complement `int` that holds `z` modulo `2^32`. -/
def toInt32 (z : Int) : Int := (z + 2147483648) % 4294967296 - 2147483648

/-- Value of a 64-bit two's-complement integer that holds `z` modulo `2^64`. -/
def toInt64 (z : Int) : Int :=
  (z + 9223372036854775808) % 18446744073709551616 - 9223372036854775808

/-- Unary minus on a 32-bit `unsigned`. -/
def negU32 (v : Nat) : Nat := (4294967296 - v % 4294967296) % 4294967296

/-- Zig-zag decoding of a parameter word: `int d = ( ( v >> 1 ) ^ ( -( v & 1 ) ) )`. -/
def zigzagDecode (v : Nat) : Int := toInt32 (((v >>> 1) ^^^ negU32 (v &&& 1) : Nat) : Int)

/-! ## Geometry containers -/

/-- Modelled from the spec: `QgsPoint`, a point with two `double` coordinates. -/
structure QgsPoint where
  x : ℚ
  y : ℚ
deriving DecidableEq

/-- Modelled from the spec: `QgsPolygon`, one exterior ring and the interior rings
added to it, in order (`setExteriorRing`, `addInteriorRing`). -/
structure QgsPolygon where
  exteriorRing : List QgsPoint
  interiorRings : List (List QgsPoint)
deriving DecidableEq

/-- Modelled from the spec: `QgsPolygon::addInteriorRing`, appending a hole. -/
def QgsPolygon.addInteriorRing (p : QgsPolygon) (ring : List QgsPoint) : QgsPolygon :=
  { p with interiorRings := p.interiorRings ++ [ring] }

/-- Values of `vector_tile::Tile_GeomType`. -/
inductive GeomType
  | UNKNOWN
  | POINT
  | LINESTRING
  | POLYGON
deriving DecidableEq

/-- Modelled from the spec: the geometry handed to `QgsFeature::setGeometry`;
`null` is the geometry of a feature on which `setGeometry` is never called. -/
inductive Geometry
  | null
  | point (p : QgsPoint)
  | multiPoint (ps : List QgsPoint)
  | lineString (pts : List QgsPoint)
  | multiLineString (ls : List (List QgsPoint))
  | polygon (p : QgsPolygon)
  | multiPolygon (ps : List QgsPolygon)
deriving DecidableEq

/-! ## `_isExteriorRing` -/

/-- The loop of `_isExteriorRing`: `total` after visiting every consecutive pair. -/
def ringTotal : List QgsPoint → ℚ → ℚ
  | p :: q :: rest, total => ringTotal (q :: rest) (total + (q.x - p.x) * (q.y + p.y))
  | _, total => total

/-- The function `_isExteriorRing`: `return total >= 0`. -/
def _isExteriorRing (pts : List QgsPoint) : Bool := decide (ringTotal pts 0 ≥ 0)

/-! ## `_isExteriorRing` in binary64 arithmetic

The same function with every operation rounded as IEEE 754 binary64 does in the default
mode (round to nearest, ties to even), one rounding per operation. -/

/-- A `double`: a finite value, an infinity or NaN. A finite value is the rational number
it stands for; the sign of a zero is not kept, as no operation of `_isExteriorRing`
(`-`, `+`, `*`, `>=`) tells `-0.0` from `0.0`. -/
inductive Double where
  | finite (q : ℚ)
  | posInf
  | negInf
  | nan
deriving DecidableEq

/-- The integer nearest to `q`, the even one of the two when `q` is halfway between. -/
def roundHalfEven (q : ℚ) : Int :=
  if q - (Rat.floor q : ℚ) < 1 / 2 then Rat.floor q
  else if 1 / 2 < q - (Rat.floor q : ℚ) then Rat.floor q + 1
  else if Rat.floor q % 2 = 0 then Rat.floor q
  else Rat.floor q + 1

/-- The power `2^e` for an integer `e`. -/
def pow2 (e : Int) : ℚ :=
  if 0 ≤ e then ((2 ^ e.toNat : Nat) : ℚ) else 1 / ((2 ^ (-e).toNat : Nat) : ℚ)

/-- Halving `n` until it is below 2, counting the steps. -/
def log2Loop : Nat → Nat → Nat
  | 0, _ => 0
  | fuel + 1, n => if 2 ≤ n then log2Loop fuel (n / 2) + 1 else 0

/-- The position of the highest bit of `n > 0`. -/
def floorLog2 (n : Nat) : Nat := log2Loop n n

/-- The binary exponent of `q ≠ 0`: the `e` with `2^e ≤ |q| < 2^(e+1)`. -/
def binaryExponent (q : ℚ) : Int :=
  if pow2 ((floorLog2 q.num.natAbs : Int) - (floorLog2 q.den : Int)) ≤ |q| then
    (floorLog2 q.num.natAbs : Int) - (floorLog2 q.den : Int)
  else (floorLog2 q.num.natAbs : Int) - (floorLog2 q.den : Int) - 1

/-- The exact result `q` rounded to the nearest multiple of `quantum`, ties to even. -/
def roundTo (quantum q : ℚ) : ℚ := (roundHalfEven (q / quantum) : ℚ) * quantum

/-- The `double` that an operation with exact result `q` returns: `q` rounded to 53
significant bits, to a multiple of `2^-1074` below `2^-1022`, and an infinity when the
rounded value reaches `2^1024`. -/
def Double.ofRat (q : ℚ) : Double :=
  if q = 0 then .finite 0
  else if pow2 1024 ≤ roundTo (pow2 (max (binaryExponent q) (-1022) - 52)) q then .posInf
  else if roundTo (pow2 (max (binaryExponent q) (-1022) - 52)) q ≤ -pow2 1024 then .negInf
  else .finite (roundTo (pow2 (max (binaryExponent q) (-1022) - 52)) q)

/-- Negation of a `double`. -/
def Double.neg : Double → Double
  | .finite q => .finite (-q)
  | .posInf => .negInf
  | .negInf => .posInf
  | .nan => .nan

/-- The `double` sum `a + b`. -/
def Double.add : Double → Double → Double
  | .finite a, .finite b => Double.ofRat (a + b)
  | .finite _, .posInf => .posInf
  | .finite _, .negInf => .negInf
  | .posInf, .finite _ => .posInf
  | .posInf, .posInf => .posInf
  | .negInf, .finite _ => .negInf
  | .negInf, .negInf => .negInf
  | _, _ => .nan

/-- The `double` difference `a - b`. -/
def Double.sub (a b : Double) : Double := a.add b.neg

/-- The `double` product `a * b`. -/
def Double.mul : Double → Double → Double
  | .finite a, .finite b => Double.ofRat (a * b)
  | .finite a, .posInf => if a = 0 then .nan else if 0 < a then .posInf else .negInf
  | .finite a, .negInf => if a = 0 then .nan else if 0 < a then .negInf else .posInf
  | .posInf, .finite b => if b = 0 then .nan else if 0 < b then .posInf else .negInf
  | .negInf, .finite b => if b = 0 then .nan else if 0 < b then .negInf else .posInf
  | .posInf, .posInf => .posInf
  | .posInf, .negInf => .negInf
  | .negInf, .posInf => .negInf
  | .negInf, .negInf => .posInf
  | _, _ => .nan

/-- The comparison `a >= 0` of a `double`. -/
def Double.geZero : Double → Bool
  | .finite q => decide (q ≥ 0)
  | .posInf => true
  | .negInf => false
  | .nan => false

/-- The value `val` of one iteration of `_isExteriorRing` in `double`, for the points
`pts[i]` and `pts[i + 1]`. -/
def ringVal (p q : QgsPoint) : Double :=
  ((Double.finite q.x).sub (.finite p.x)).mul ((Double.finite q.y).add (.finite p.y))

/-- The loop of `_isExteriorRing` in `double`: `total` after visiting every consecutive
pair. -/
def ringTotalDouble : List QgsPoint → Double → Double
  | p :: q :: rest, total => ringTotalDouble (q :: rest) (total.add (ringVal p q))
  | _, total => total

/-- The function `_isExteriorRing` in `double`: `return total >= 0`. -/
def _isExteriorRingDouble (pts : List QgsPoint) : Bool :=
  (ringTotalDouble pts (.finite 0)).geZero

/-! ## Tile bounds and the tile-to-world mapping -/

/-- Modelled from the spec: `QgsTileXYZ`, the tile id. -/
structure QgsTileXYZ where
  column : Int
  row : Int
  zoomLevel : Nat
deriving DecidableEq

/-- The constant `z0xMin = -20037508.3427892`. -/
def z0xMin : ℚ := -200375083427892 / 10000000

/-- The constant `z0yMin = -20037508.3427892`. -/
def z0yMin : ℚ := -200375083427892 / 10000000

/-- The constant `z0xMax = 20037508.3427892`. -/
def z0xMax : ℚ := 200375083427892 / 10000000

/-- The constant `z0yMax = 20037508.3427892`. -/
def z0yMax : ℚ := 200375083427892 / 10000000

/-- The tile count `static_cast<int>( pow( 2, zoomLevel ) )`; the source assumes at most
30 zoom levels, for which the conversion is exact. -/
def numTiles (t : QgsTileXYZ) : Int := 2 ^ t.zoomLevel

/-- The tile width `( z0xMax - z0xMin ) / numTiles`. -/
def tileDX (t : QgsTileXYZ) : ℚ := (z0xMax - z0xMin) / (numTiles t : ℚ)

/-- The tile height `( z0yMax - z0yMin ) / numTiles`. -/
def tileDY (t : QgsTileXYZ) : ℚ := (z0yMax - z0yMin) / (numTiles t : ℚ)

/-- The western bound `z0xMin + mTileID.column() * tileDX`. -/
def tileXMin (t : QgsTileXYZ) : ℚ := z0xMin + (t.column : ℚ) * tileDX t

/-- The northern bound `z0yMax - mTileID.row() * tileDY`. -/
def tileYMax (t : QgsTileXYZ) : ℚ := z0yMax - (t.row : ℚ) * tileDY t

/-- The point `QgsPoint( px, py )` for cursor `(cursorx, cursory)`. -/
def worldPoint (t : QgsTileXYZ) (extent : Int) (cursorx cursory : Int) : QgsPoint :=
  { x := tileXMin t + tileDX t * (cursorx : ℚ) / (extent : ℚ)
    y := tileYMax t - tileDY t * (cursory : ℚ) / (extent : ℚ) }

/-! ## The geometry command loop -/

/-- The reads of the C++ code that have no defined result: `feature.geometry( k )` and
`layer.values( k )` with `k` outside the container, `tmpPoints.first()` on an empty vector.
`fuel` is the error of a command loop that is cut off by its iteration bound. -/
inductive DecodeError
  | geometryIndex
  | emptyRingFirst
  | valueIndex
  | fuel
deriving DecidableEq

deriving instance DecidableEq for Except

/-- The local variables of the geometry part of the feature loop. `closedRings` is a
history variable that is not in the source: it records every ring closed by ClosePath and
is never read by the interpreter. -/
structure GeomState where
  cursorx : Int
  cursory : Int
  outputPoints : List QgsPoint
  outputLinestrings : List (List QgsPoint)
  outputPolygons : List QgsPolygon
  tmpPoints : List QgsPoint
  closedRings : List (List QgsPoint)
deriving DecidableEq

/-- The state at `int cursorx = 0, cursory = 0;` with empty output vectors. -/
def GeomState.init : GeomState :=
  { cursorx := 0, cursory := 0, outputPoints := [], outputLinestrings := [],
    outputPolygons := [], tmpPoints := [], closedRings := [] }

/-- The read `feature.geometry( k )` of an `unsigned` word. -/
def geometryAt (g : List Nat) (k : Nat) : Except DecodeError Nat :=
  match g.get? k with
  | some w => .ok (w % 4294967296)
  | none => .error .geometryIndex

/-- The part of a MoveTo repetition after the two reads: `v` and `w` are the words read at
`i + 1` and `i + 2`. -/
def moveToEmit (t : QgsTileXYZ) (extent : Int) (ty : GeomType) (st : GeomState) (v w : Nat) :
    GeomState :=
  let dx := zigzagDecode v
  let dy := zigzagDecode w
  let cx := toInt32 (st.cursorx + dx)
  let cy := toInt32 (st.cursory + dy)
  let p := worldPoint t extent cx cy
  let st1 := { st with cursorx := cx, cursory := cy }
  match ty with
  | .POINT => { st1 with outputPoints := st1.outputPoints ++ [p] }
  | .LINESTRING =>
    if st1.tmpPoints.length > 0 then
      { st1 with outputLinestrings := st1.outputLinestrings ++ [st1.tmpPoints], tmpPoints := [p] }
    else
      { st1 with tmpPoints := st1.tmpPoints ++ [p] }
  | .POLYGON => { st1 with tmpPoints := st1.tmpPoints ++ [p] }
  | .UNKNOWN => st1

/-- One repetition of the MoveTo loop body at loop index `i`. -/
def moveToRep (t : QgsTileXYZ) (extent : Int) (ty : GeomType) (g : List Nat) (i : Nat)
    (st : GeomState) : Except DecodeError GeomState := do
  let v ← geometryAt g (i + 1)
  let w ← geometryAt g (i + 2)
  pure (moveToEmit t extent ty st v w)

/-- The part of a LineTo repetition after the two reads. -/
def lineToEmit (t : QgsTileXYZ) (extent : Int) (st : GeomState) (v w : Nat) : GeomState :=
  let dx := zigzagDecode v
  let dy := zigzagDecode w
  let cx := toInt32 (st.cursorx + dx)
  let cy := toInt32 (st.cursory + dy)
  let p := worldPoint t extent cx cy
  { st with cursorx := cx, cursory := cy, tmpPoints := st.tmpPoints ++ [p] }

/-- One repetition of the LineTo loop body at loop index `i`. -/
def lineToRep (t : QgsTileXYZ) (extent : Int) (g : List Nat) (i : Nat)
    (st : GeomState) : Except DecodeError GeomState := do
  let v ← geometryAt g (i + 1)
  let w ← geometryAt g (i + 2)
  pure (lineToEmit t extent st v w)

/-- The loop `for ( unsigned j = 0; j < cmdCount; j++ ) { ...; i += 2; }` around a
repetition body; returns the index `i` and the state at loop exit. -/
def repLoop (body : Nat → GeomState → Except DecodeError GeomState) :
    Nat → Nat → GeomState → Except DecodeError (Nat × GeomState)
  | 0, i, st => pure (i, st)
  | c + 1, i, st => do
    let st1 ← body i st
    repLoop body c (i + 2) st1

/-- The ClosePath branch for a polygon feature. -/
def closePath (st : GeomState) : Except DecodeError GeomState :=
  match st.tmpPoints.head? with
  | none => .error .emptyRingFirst
  | some first =>
    let ring := st.tmpPoints ++ [first]
    if _isExteriorRing ring then
      pure { st with outputPolygons := st.outputPolygons ++ [{ exteriorRing := ring, interiorRings := [] }],
                     tmpPoints := [], closedRings := st.closedRings ++ [ring] }
    else
      match st.outputPolygons.getLast? with
      | some last =>
        pure { st with outputPolygons := st.outputPolygons.dropLast ++ [last.addInteriorRing ring],
                       tmpPoints := [], closedRings := st.closedRings ++ [ring] }
      | none =>
        pure { st with tmpPoints := [], closedRings := st.closedRings ++ [ring] }

/-- How the body of the command loop is left: by `break`, or by reaching its end with
loop index `i` (the `i ++` of the loop header is still to come). -/
inductive Flow
  | brk (st : GeomState)
  | next (i : Nat) (st : GeomState)
deriving DecidableEq

/-- The bounds test `i + static_cast<int>( cmdCount ) * 2 >= feature.geometry_size()`. -/
def overruns (g : List Nat) (i cmdCount : Nat) : Bool :=
  decide (toInt32 ((i : Int) + toInt32 (toInt32 (cmdCount : Int) * 2)) ≥ (g.length : Int))

/-- The body of the command loop at index `i`. -/
def command (t : QgsTileXYZ) (extent : Int) (ty : GeomType) (g : List Nat) (i : Nat)
    (st : GeomState) : Except DecodeError Flow := do
  let w ← geometryAt g i
  let cmdId := w &&& 7
  let cmdCount := w >>> 3
  if cmdId = 1 then
    if overruns g i cmdCount then
      pure (.brk st)
    else do
      let r ← repLoop (moveToRep t extent ty g) cmdCount i st
      pure (.next r.1 r.2)
  else if cmdId = 2 then
    if overruns g i cmdCount then
      pure (.brk st)
    else do
      let r ← repLoop (lineToRep t extent g) cmdCount i st
      pure (.next r.1 r.2)
  else if cmdId = 7 then
    if ty = .POLYGON then do
      let st1 ← closePath st
      pure (.next i st1)
    else
      pure (.next i st)
  else
    pure (.next i st)

/-- The loop `for ( int i = 0; i < feature.geometry_size(); i ++ )`, started at index
`i`; `fuel` bounds the number of iterations. -/
def geometryLoop (t : QgsTileXYZ) (extent : Int) (ty : GeomType) (g : List Nat) :
    Nat → Nat → GeomState → Except DecodeError GeomState
  | fuel, i, st =>
    if i < g.length then
      match fuel with
      | 0 => .error .fuel
      | fuel + 1 => do
        match ← command t extent ty g i st with
        | .brk st1 => pure st1
        | .next i1 st1 => geometryLoop t extent ty g fuel (i1 + 1) st1
    else
      pure st

/-- The command loop of one feature, from `i = 0` and the initial state. Every iteration
advances `i`, so `g.length` iterations suffice. -/
def runGeometry (t : QgsTileXYZ) (extent : Int) (ty : GeomType) (g : List Nat) :
    Except DecodeError GeomState :=
  geometryLoop t extent ty g g.length 0 GeomState.init

/-- The assembly of the feature geometry after the command loop. -/
def assemble (ty : GeomType) (st : GeomState) : Geometry :=
  match ty with
  | .POINT =>
    match st.outputPoints with
    | [p] => .point p
    | ps => .multiPoint ps
  | .LINESTRING =>
    match st.outputLinestrings ++ [st.tmpPoints] with
    | [l] => .lineString l
    | ls => .multiLineString ls
  | .POLYGON =>
    match st.outputPolygons with
    | [p] => .polygon p
    | ps => .multiPolygon ps
  | .UNKNOWN => .null

/-- The geometry of a feature before the CRS transform. -/
def featureGeometry (t : QgsTileXYZ) (extent : Int) (ty : GeomType) (g : List Nat) :
    Except DecodeError Geometry := do
  let st ← runGeometry t extent ty g
  pure (assemble ty st)

/-! ## Attributes -/

/-- Modelled from the spec: `vector_tile::Tile_Value`, a message with one optional field
per variant (`has_string_value()` is `string_value.isSome`, and so on). `float` and
`double` payloads are rationals. -/
structure Tile_Value where
  string_value : Option String
  float_value : Option ℚ
  double_value : Option ℚ
  int_value : Option Int
  uint_value : Option Nat
  sint_value : Option Int
  bool_value : Option Bool
deriving DecidableEq

/-- Modelled from the spec: `QVariant`, the attribute value of an output feature;
`null` is the value of an attribute that was never set. -/
inductive QVariant
  | null
  | string (s : String)
  | double (d : ℚ)
  | int (n : Int)
  | bool (b : Bool)
deriving DecidableEq

/-- Modelled from the spec: `QgsFields::indexOf`, the position of the field named `name`
in the schema, `-1` when there is none. A schema is the list of its field names. -/
def fieldsIndexOf (fields : List String) (name : String) : Int :=
  if fields.indexOf name < fields.length then (fields.indexOf name : Int) else -1

/-- The loop that fills `tagKeyIndexToFieldIndex`, started at key index `i`. -/
def tagKeyIndexToFieldIndex (fields : List String) : List String → Nat → List (Int × Int)
  | [], _ => []
  | key :: keys, i =>
    let fieldIndex := fieldsIndexOf fields key
    if fieldIndex ≠ -1 then
      ((i : Int), fieldIndex) :: tagKeyIndexToFieldIndex fields keys (i + 1)
    else
      tagKeyIndexToFieldIndex fields keys (i + 1)

/-- Modelled from the spec: `QHash::value( key, defaultValue )`. -/
def hashValue (m : List (Int × Int)) (key : Int) (defaultValue : Int) : Int :=
  match m.find? (fun e => e.1 = key) with
  | some e => e.2
  | none => defaultValue

/-- Modelled from the spec: `QgsFeature::setAttribute( int, QVariant )`, which ignores an
index outside the attribute vector. -/
def setAttribute (attrs : List QVariant) (fieldIndex : Int) (value : QVariant) : List QVariant :=
  if 0 ≤ fieldIndex then attrs.set fieldIndex.toNat value else attrs

/-- The read `layer.values( k )`. -/
def valuesAt (values : List Tile_Value) (k : Int) : Except DecodeError Tile_Value :=
  if 0 ≤ k then
    match values.get? k.toNat with
    | some v => .ok v
    | none => .error .valueIndex
  else
    .error .valueIndex

/-- The dispatch on the variant of a value; `none` is the branch that only logs. -/
def variantOf (value : Tile_Value) : Option QVariant :=
  match value.string_value with
  | some s => some (.string s)
  | none =>
  match value.float_value with
  | some x => some (.double x)
  | none =>
  match value.double_value with
  | some x => some (.double x)
  | none =>
  match value.int_value with
  | some n => some (.int (toInt32 n))
  | none =>
  match value.uint_value with
  | some n => some (.int (toInt32 (n : Int)))
  | none =>
  match value.sint_value with
  | some n => some (.int (toInt32 n))
  | none =>
  match value.bool_value with
  | some b => some (.bool b)
  | none => none

/-- The body of the attribute loop for the pair `(feature.tags( tagNum ),
feature.tags( tagNum + 1 ))`. -/
def tagPair (m : List (Int × Int)) (values : List Tile_Value) (k v : Nat)
    (attrs : List QVariant) : Except DecodeError (List QVariant) :=
  let keyIndex := toInt32 ((k % 4294967296 : Nat) : Int)
  let fieldIndex := hashValue m keyIndex (-1)
  if fieldIndex = -1 then
    pure attrs
  else
    let valueIndex := toInt32 ((v % 4294967296 : Nat) : Int)
    if valueIndex ≥ (values.length : Int) then
      pure attrs
    else do
      let value ← valuesAt values valueIndex
      match variantOf value with
      | some q => pure (setAttribute attrs fieldIndex q)
      | none => pure attrs

/-- The loop `for ( int tagNum = 0; tagNum + 1 < feature.tags_size(); tagNum += 2 )` over
the tags not yet visited. -/
def attributeLoop (m : List (Int × Int)) (values : List Tile_Value) :
    List Nat → List QVariant → Except DecodeError (List QVariant)
  | k :: v :: rest, attrs => do
    let attrs1 ← tagPair m values k v attrs
    attributeLoop m values rest attrs1
  | _, attrs => pure attrs

/-! ## Features and layers -/

/-- Modelled from the spec: `vector_tile::Tile_Feature`. -/
structure Tile_Feature where
  id : Nat
  type : GeomType
  tags : List Nat
  geometry : List Nat
deriving DecidableEq

/-- Modelled from the spec: `vector_tile::Tile_Layer`. -/
structure Tile_Layer where
  name : String
  extent : Nat
  keys : List String
  values : List Tile_Value
  features : List Tile_Feature
deriving DecidableEq

/-- Modelled from the spec: `QgsFeature`, the output feature. -/
structure QgsFeature where
  id : Int
  attributes : List QVariant
  geometry : Geometry
deriving DecidableEq

/-- The string `geomType` of a feature. -/
def geomTypeName : GeomType → String
  | .POINT => "Point"
  | .LINESTRING => "LineString"
  | .POLYGON => "Polygon"
  | .UNKNOWN => ""

/-- The body of the feature loop up to `f.setAttribute( "_geom_type", geomType )`: the
output feature before the CRS transform. -/
def decodeFeature (t : QgsTileXYZ) (layerFields : List String) (layer : Tile_Layer)
    (feature : Tile_Feature) : Except DecodeError QgsFeature := do
  let m := tagKeyIndexToFieldIndex layerFields layer.keys 0
  let attrs0 := List.replicate layerFields.length QVariant.null
  let attrs ← attributeLoop m layer.values feature.tags attrs0
  let extent := toInt32 ((layer.extent % 4294967296 : Nat) : Int)
  let geom ← featureGeometry t extent feature.type feature.geometry
  let attrs1 := setAttribute attrs (fieldsIndexOf layerFields "_geom_type")
    (.string (geomTypeName feature.type))
  pure { id := toInt64 (feature.id : Int), attributes := attrs1, geometry := geom }

/-- The loop over the features of a layer; `layerFeatures` is the vector built so far.
Modelled from the spec: `f.geometry().transform( ct )` transforms the geometry of the
feature in place, `ct` being a function on geometries. -/
def featureLoop (t : QgsTileXYZ) (layerFields : List String) (ct : Geometry → Geometry)
    (layer : Tile_Layer) : List Tile_Feature → List QgsFeature → Except DecodeError (List QgsFeature)
  | [], layerFeatures => pure layerFeatures
  | feature :: rest, layerFeatures => do
    let f ← decodeFeature t layerFields layer feature
    featureLoop t layerFields ct layer rest (layerFeatures ++ [{ f with geometry := ct f.geometry }])

/-- The features decoded for one layer. -/
def decodeLayer (t : QgsTileXYZ) (layerFields : List String) (ct : Geometry → Geometry)
    (layer : Tile_Layer) : Except DecodeError (List QgsFeature) :=
  featureLoop t layerFields ct layer layer.features []

/-! ## Tiles -/

/-- Modelled from the spec: `vector_tile::Tile`, the parsed tile message. -/
structure Tile where
  layers : List Tile_Layer
deriving DecidableEq

/-- Modelled from the spec: the assignment `features[layerName] = layerFeatures` on a
`QMap`, which replaces the entry of an existing key. A map is the list of its entries, with
at most one entry per key. -/
def mapInsert (features : List (String × List QgsFeature)) (layerName : String)
    (layerFeatures : List QgsFeature) : List (String × List QgsFeature) :=
  (layerName, layerFeatures) :: features.filter (fun entry => entry.1 ≠ layerName)

/-- Modelled from the spec: the features stored in a `QMap` under `layerName`, if any. -/
def mapValue (features : List (String × List QgsFeature)) (layerName : String) :
    Option (List QgsFeature) :=
  (features.find? (fun entry => entry.1 = layerName)).map (fun entry => entry.2)

/-- The loop over the layers of the tile; `features` is the map built so far.
`perLayerFields` gives the field schema of a layer name (the empty schema for a name that
is not in the caller's map). -/
def layerLoop (t : QgsTileXYZ) (perLayerFields : String → List String)
    (ct : Geometry → Geometry) :
    List Tile_Layer → List (String × List QgsFeature) →
      Except DecodeError (List (String × List QgsFeature))
  | [], features => pure features
  | layer :: rest, features => do
    let layerFeatures ← decodeLayer t (perLayerFields layer.name) ct layer
    layerLoop t perLayerFields ct rest (mapInsert features layer.name layerFeatures)

/-- The function `QgsVectorTileMVTDecoder::layerFeatures` for the tile id `t` stored by
`decode` and the parsed tile `tile`. -/
def layerFeatures (t : QgsTileXYZ) (tile : Tile) (perLayerFields : String → List String)
    (ct : Geometry → Geometry) : Except DecodeError (List (String × List QgsFeature)) :=
  layerLoop t perLayerFields ct tile.layers []


/-! ## Definitions used to state the properties -/

/-- The state carried by a `Flow`. -/
def Flow.state : Flow → GeomState
  | .brk st => st
  | .next _ st => st

/-- A ring is closed: it is non-empty and its first point equals its last point. -/
def IsClosedRing (ring : List QgsPoint) : Prop :=
  ring ≠ [] ∧ ring.head? = ring.getLast?

instance (ring : List QgsPoint) : Decidable (IsClosedRing ring) := by
  unfold IsClosedRing
  infer_instance

/-- The rings of a polygon: the exterior ring and every interior ring. -/
def QgsPolygon.rings (p : QgsPolygon) : List (List QgsPoint) :=
  p.exteriorRing :: p.interiorRings

/-- The polygons of a geometry. -/
def Geometry.polygons : Geometry → List QgsPolygon
  | .polygon p => [p]
  | .multiPolygon ps => ps
  | _ => []

/-- The attachment rule in the words of the specification: an exterior ring appends a new
polygon with that ring and no holes; an interior ring becomes the last hole of the most
recently appended polygon; an interior ring met while there is no polygon is dropped. -/
def attachRing (polygons : List QgsPolygon) (ring : List QgsPoint) : List QgsPolygon :=
  if _isExteriorRing ring then
    polygons ++ [{ exteriorRing := ring, interiorRings := [] }]
  else
    match polygons.reverse with
    | [] => polygons
    | last :: earlier =>
      earlier.reverse ++ [{ exteriorRing := last.exteriorRing, interiorRings := last.interiorRings ++ [ring] }]

/-- The polygons of a ring sequence, by grouping: every exterior ring gives one polygon,
whose holes are the interior rings that follow it up to the next exterior ring; interior
rings before the first exterior ring belong to no polygon. -/
def polygonsOfRings : List (List QgsPoint) → List QgsPolygon
  | [] => []
  | ring :: rest =>
    if _isExteriorRing ring then
      { exteriorRing := ring, interiorRings := rest.takeWhile (fun r => !_isExteriorRing r) }
        :: polygonsOfRings rest
    else
      polygonsOfRings rest

/-- The shoelace sum `Σ (x_i * y_{i+1} - x_{i+1} * y_i)` over the consecutive vertices of a
list of tile-local integer points. -/
def shoelace : List (Int × Int) → Int
  | p :: q :: rest => (p.1 * q.2 - q.1 * p.2) + shoelace (q :: rest)
  | _ => 0

/-- A MoveTo (`id = 1`) or LineTo (`id = 2`) command together with the parameter pairs of
its repetitions (raw zig-zag words). -/
structure PathCommand where
  id : Nat
  params : List (Nat × Nat)
deriving DecidableEq

/-- The parameter words of a list of pairs. -/
def paramWords : List (Nat × Nat) → List Nat
  | [] => []
  | p :: ps => p.1 :: p.2 :: paramWords ps

/-- The words of a command: the command word (id in the low 3 bits, repetition count above)
followed by its parameter words. -/
def PathCommand.words (c : PathCommand) : List Nat :=
  (c.id + 8 * c.params.length) :: paramWords c.params

/-- The geometry stream that consists of the given commands. -/
def encodeCommands : List PathCommand → List Nat
  | [] => []
  | c :: cs => c.words ++ encodeCommands cs

/-- All parameter pairs of a command list, in stream order. -/
def allParams : List PathCommand → List (Nat × Nat)
  | [] => []
  | c :: cs => c.params ++ allParams cs

/-- The cursor after one more repetition with parameter pair `p`. -/
def advance (cursor : Int × Int) (p : Nat × Nat) : Int × Int :=
  (toInt32 (cursor.1 + zigzagDecode (p.1 % 4294967296)),
   toInt32 (cursor.2 + zigzagDecode (p.2 % 4294967296)))

/-- The state of line building in the words of the specification: the cursor, the finished
lines in the order they were finished, and the current line. -/
structure LineBuilder where
  cursor : Int × Int
  finished : List (List QgsPoint)
  current : List QgsPoint
deriving DecidableEq

/-- The interpreter state and the line builder describe the same lines. -/
def LineSim (st : GeomState) (b : LineBuilder) : Prop :=
  st.cursorx = b.cursor.1 ∧ st.cursory = b.cursor.2 ∧
    st.outputLinestrings = b.finished ∧ st.tmpPoints = b.current

/-- A MoveTo repetition: flush the current line if it holds any point, start a new line
holding only the moved-to point. -/
def LineBuilder.moveTo (t : QgsTileXYZ) (extent : Int) (b : LineBuilder) (p : Nat × Nat) :
    LineBuilder :=
  { cursor := advance b.cursor p
    finished := if b.current = [] then b.finished else b.finished ++ [b.current]
    current := [worldPoint t extent (advance b.cursor p).1 (advance b.cursor p).2] }

/-- A LineTo repetition: append the new cursor point to the current line. -/
def LineBuilder.lineTo (t : QgsTileXYZ) (extent : Int) (b : LineBuilder) (p : Nat × Nat) :
    LineBuilder :=
  { cursor := advance b.cursor p
    finished := b.finished
    current := b.current ++ [worldPoint t extent (advance b.cursor p).1 (advance b.cursor p).2] }

/-- All repetitions of one command. -/
def LineBuilder.command (t : QgsTileXYZ) (extent : Int) (b : LineBuilder) (c : PathCommand) :
    LineBuilder :=
  if c.id = 1 then c.params.foldl (LineBuilder.moveTo t extent) b
  else c.params.foldl (LineBuilder.lineTo t extent) b

/-- The lines of a command list: the finished lines followed by the trailing line. -/
def linesOf (t : QgsTileXYZ) (extent : Int) (cmds : List PathCommand) : List (List QgsPoint) :=
  (cmds.foldl (LineBuilder.command t extent) { cursor := (0, 0), finished := [], current := [] }).finished
    ++ [(cmds.foldl (LineBuilder.command t extent)
          { cursor := (0, 0), finished := [], current := [] }).current]

/-- The sum of the zig-zag-decoded pairs, as integers. -/
def deltaSum : List (Nat × Nat) → Int × Int
  | [] => (0, 0)
  | p :: ps => (zigzagDecode (p.1 % 4294967296) + (deltaSum ps).1,
                zigzagDecode (p.2 % 4294967296) + (deltaSum ps).2)

/-- The effect of all repetitions of one command on the interpreter state. -/
def commandEffect (t : QgsTileXYZ) (e : Int) (ty : GeomType) (st : GeomState)
    (c : PathCommand) : GeomState :=
  if c.id = 1 then
    c.params.foldl (fun s p => moveToEmit t e ty s (p.1 % 4294967296) (p.2 % 4294967296)) st
  else
    c.params.foldl (fun s p => lineToEmit t e s (p.1 % 4294967296) (p.2 % 4294967296)) st

/-- The points a POINT feature collects from the parameter pairs `ps`: the `k`-th is the
world image of the sum of the first `k` decoded pairs, each coordinate reduced to the range
of `int`. -/
def pointsOf (t : QgsTileXYZ) (e : Int) (ps : List (Nat × Nat)) : List QgsPoint :=
  (List.range ps.length).map (fun k =>
    worldPoint t e (toInt32 (deltaSum (ps.take (k + 1))).1) (toInt32 (deltaSum (ps.take (k + 1))).2))

/-- The points collected from `ps` when the cursor starts at `c`. -/
def pointsFrom (t : QgsTileXYZ) (e : Int) : Int × Int → List (Nat × Nat) → List QgsPoint
  | _, [] => []
  | c, p :: ps => worldPoint t e (advance c p).1 (advance c p).2 :: pointsFrom t e (advance c p) ps

/-- The lines of a geometry. -/
def Geometry.lines : Geometry → List (List QgsPoint)
  | .lineString l => [l]
  | .multiLineString ls => ls
  | _ => []

/-- Zig-zag encoding in the words of the specification, `(n << 1) XOR (n >> 31)` on a
32-bit signed `n` with arithmetic right shift, the result taken modulo `2^32`. -/
def zigzagEncode (n : Int) : Nat :=
  ((n * 2) % 4294967296).toNat ^^^ ((n >>> (31 : Nat)) % 4294967296).toNat

/-- A value whose only variant is `int_value`. -/
def intValue (v : Int) : Tile_Value :=
  { string_value := none, float_value := none, double_value := none, int_value := some v,
    uint_value := none, sint_value := none, bool_value := none }

/-- A value whose only variant is `uint_value`. -/
def uintValue (v : Nat) : Tile_Value :=
  { string_value := none, float_value := none, double_value := none, int_value := none,
    uint_value := some v, sint_value := none, bool_value := none }

/-- A value whose only variant is `sint_value`. -/
def sintValue (v : Int) : Tile_Value :=
  { string_value := none, float_value := none, double_value := none, int_value := none,
    uint_value := none, sint_value := some v, bool_value := none }

/-- The values `val` that `_isExteriorRing` adds up in `double`, in the order of the loop. -/
def ringVals : List QgsPoint → List Double
  | p :: q :: rest => ringVal p q :: ringVals (q :: rest)
  | _ => []


/-! ## Basic facts about the embedding -/

theorem toInt32_of_range (z : Int) (h1 : -2147483648 ≤ z) (h2 : z < 2147483648) :
    toInt32 z = z := by
  unfold toInt32
  omega

theorem toInt32_range (z : Int) : -2147483648 ≤ toInt32 z ∧ toInt32 z < 2147483648 := by
  unfold toInt32
  omega

theorem cmdCount_lt (w : Nat) : (w % 4294967296) >>> 3 < 536870912 := by
  rw [Nat.shiftRight_eq_div_pow]
  have h : w % 4294967296 < 4294967296 := Nat.mod_lt _ (by decide)
  omega

theorem geometryAt_lt {g : List Nat} {k w : Nat} (h : geometryAt g k = .ok w) :
    k < g.length := by
  unfold geometryAt at h
  cases hg : g.get? k with
  | none => rw [hg] at h; cases h
  | some v => exact (List.get?_eq_some.mp hg).1

theorem geometryAt_of_lt {g : List Nat} {k : Nat} (h : k < g.length) :
    geometryAt g k = .ok (g.get ⟨k, h⟩ % 4294967296) := by
  unfold geometryAt
  rw [List.get?_eq_get h]

theorem geometryAt_of_ge {g : List Nat} {k : Nat} (h : g.length ≤ k) :
    geometryAt g k = .error .geometryIndex := by
  unfold geometryAt
  rw [List.get?_eq_none.mpr h]

/-- The bounds test is exact as long as `i + 2 * cmdCount` is representable as `int`. -/
theorem overruns_iff (g : List Nat) (i c : Nat) (hc : c < 536870912)
    (h : i + 2 * c < 2147483648) : overruns g i c = true ↔ g.length ≤ i + 2 * c := by
  unfold overruns
  rw [decide_eq_true_iff, toInt32_of_range (c : Int) (by omega) (by omega),
    toInt32_of_range ((c : Int) * 2) (by omega) (by omega),
    toInt32_of_range _ (by omega) (by omega)]
  omega

theorem geometryLoop_done (t : QgsTileXYZ) (e : Int) (ty : GeomType) (g : List Nat)
    (fuel i : Nat) (st : GeomState) (h : g.length ≤ i) :
    geometryLoop t e ty g fuel i st = .ok st := by
  unfold geometryLoop
  rw [if_neg (by omega)]
  rfl

theorem geometryLoop_succ (t : QgsTileXYZ) (e : Int) (ty : GeomType) (g : List Nat)
    (fuel i : Nat) (st : GeomState) (h : i < g.length) :
    geometryLoop t e ty g (fuel + 1) i st =
      match command t e ty g i st with
      | .error err => .error err
      | .ok (.brk st1) => .ok st1
      | .ok (.next i1 st1) => geometryLoop t e ty g fuel (i1 + 1) st1 := by
  rw [geometryLoop, if_pos h]
  cases hc : command t e ty g i st with
  | error err => rfl
  | ok fl => cases fl <;> rfl

theorem command_unknown (t : QgsTileXYZ) (e : Int) (ty : GeomType) (g : List Nat) (i : Nat)
    (st : GeomState) (w : Nat) (hw : geometryAt g i = .ok w) (h1 : w &&& 7 ≠ 1)
    (h2 : w &&& 7 ≠ 2) (h7 : w &&& 7 ≠ 7) :
    command t e ty g i st = .ok (.next i st) := by
  unfold command
  rw [hw]
  simp only [bind, Except.bind, if_neg h1, if_neg h2, if_neg h7]
  rfl

theorem command_moveTo (t : QgsTileXYZ) (e : Int) (ty : GeomType) (g : List Nat) (i : Nat)
    (st : GeomState) (w : Nat) (hw : geometryAt g i = .ok w) (h1 : w &&& 7 = 1) :
    command t e ty g i st =
      if overruns g i (w >>> 3) then .ok (.brk st)
      else match repLoop (moveToRep t e ty g) (w >>> 3) i st with
        | .ok r => .ok (.next r.1 r.2)
        | .error err => .error err := by
  unfold command
  rw [hw]
  simp only [bind, Except.bind, if_pos h1]
  split
  · rfl
  · cases repLoop (moveToRep t e ty g) (w >>> 3) i st <;> rfl

theorem command_lineTo (t : QgsTileXYZ) (e : Int) (ty : GeomType) (g : List Nat) (i : Nat)
    (st : GeomState) (w : Nat) (hw : geometryAt g i = .ok w) (h2 : w &&& 7 = 2) :
    command t e ty g i st =
      if overruns g i (w >>> 3) then .ok (.brk st)
      else match repLoop (lineToRep t e g) (w >>> 3) i st with
        | .ok r => .ok (.next r.1 r.2)
        | .error err => .error err := by
  have h1 : w &&& 7 ≠ 1 := by omega
  unfold command
  rw [hw]
  simp only [bind, Except.bind, if_neg h1, if_pos h2]
  split
  · rfl
  · cases repLoop (lineToRep t e g) (w >>> 3) i st <;> rfl

theorem command_closePath (t : QgsTileXYZ) (e : Int) (ty : GeomType) (g : List Nat) (i : Nat)
    (st : GeomState) (w : Nat) (hw : geometryAt g i = .ok w) (h7 : w &&& 7 = 7) :
    command t e ty g i st =
      if ty = .POLYGON then
        match closePath st with
        | .ok st1 => .ok (.next i st1)
        | .error err => .error err
      else .ok (.next i st) := by
  have h1 : w &&& 7 ≠ 1 := by omega
  have h2 : w &&& 7 ≠ 2 := by omega
  unfold command
  rw [hw]
  simp only [bind, Except.bind, if_neg h1, if_neg h2, if_pos h7]
  split
  · cases closePath st <;> rfl
  · rfl


/-! ## Invariants of the command loop -/

theorem moveToRep_ok {t : QgsTileXYZ} {e : Int} {ty : GeomType} {g : List Nat} {i : Nat}
    {st st' : GeomState} (h : moveToRep t e ty g i st = .ok st') :
    ∃ v w, geometryAt g (i + 1) = .ok v ∧ geometryAt g (i + 2) = .ok w ∧
      st' = moveToEmit t e ty st v w := by
  unfold moveToRep at h
  cases hv : geometryAt g (i + 1) with
  | error err => rw [hv] at h; cases h
  | ok v =>
    cases hw : geometryAt g (i + 2) with
    | error err => rw [hv, hw] at h; cases h
    | ok w =>
      rw [hv, hw] at h
      refine ⟨v, w, rfl, rfl, ?_⟩
      cases h
      rfl

theorem lineToRep_ok {t : QgsTileXYZ} {e : Int} {g : List Nat} {i : Nat}
    {st st' : GeomState} (h : lineToRep t e g i st = .ok st') :
    ∃ v w, geometryAt g (i + 1) = .ok v ∧ geometryAt g (i + 2) = .ok w ∧
      st' = lineToEmit t e st v w := by
  unfold lineToRep at h
  cases hv : geometryAt g (i + 1) with
  | error err => rw [hv] at h; cases h
  | ok v =>
    cases hw : geometryAt g (i + 2) with
    | error err => rw [hv, hw] at h; cases h
    | ok w =>
      rw [hv, hw] at h
      refine ⟨v, w, rfl, rfl, ?_⟩
      cases h
      rfl

theorem repLoop_succ (body : Nat → GeomState → Except DecodeError GeomState) (c i : Nat)
    (st : GeomState) :
    repLoop body (c + 1) i st =
      match body i st with
      | .ok st1 => repLoop body c (i + 2) st1
      | .error err => .error err := by
  rw [repLoop]
  cases body i st <;> rfl

theorem repLoop_index (body : Nat → GeomState → Except DecodeError GeomState) :
    ∀ (c i : Nat) (st : GeomState) (r : Nat × GeomState),
      repLoop body c i st = .ok r → r.1 = i + 2 * c := by
  intro c
  induction c with
  | zero =>
    intro i st r h
    cases h
    rfl
  | succ c ih =>
    intro i st r h
    rw [repLoop_succ] at h
    cases hb : body i st with
    | error err => rw [hb] at h; cases h
    | ok st1 =>
      rw [hb] at h
      have := ih (i + 2) st1 r h
      omega

theorem repLoop_inv (P : GeomState → Prop)
    (body : Nat → GeomState → Except DecodeError GeomState)
    (hbody : ∀ i st st', P st → body i st = .ok st' → P st') :
    ∀ (c i : Nat) (st : GeomState) (r : Nat × GeomState),
      P st → repLoop body c i st = .ok r → P r.2 := by
  intro c
  induction c with
  | zero =>
    intro i st r hP h
    cases h
    exact hP
  | succ c ih =>
    intro i st r hP h
    rw [repLoop_succ] at h
    cases hb : body i st with
    | error err => rw [hb] at h; cases h
    | ok st1 =>
      rw [hb] at h
      exact ih (i + 2) st1 r (hbody i st st1 hP hb) h

/-- A predicate kept by every MoveTo repetition, every LineTo repetition and every
ClosePath is kept by the body of the command loop. -/
theorem command_inv (P : GeomState → Prop) (t : QgsTileXYZ) (e : Int) (ty : GeomType)
    (g : List Nat)
    (hmove : ∀ st v w, P st → P (moveToEmit t e ty st v w))
    (hline : ∀ st v w, P st → P (lineToEmit t e st v w))
    (hclose : ∀ st st', ty = .POLYGON → P st → closePath st = .ok st' → P st')
    (i : Nat) (st : GeomState) (fl : Flow) (hP : P st)
    (h : command t e ty g i st = .ok fl) : P fl.state := by
  cases hw : geometryAt g i with
  | error err =>
    unfold command at h
    rw [hw] at h
    cases h
  | ok w =>
    by_cases h1 : w &&& 7 = 1
    · rw [command_moveTo t e ty g i st w hw h1] at h
      split at h
      · cases h
        exact hP
      · cases hr : repLoop (moveToRep t e ty g) (w >>> 3) i st with
        | error err => rw [hr] at h; cases h
        | ok r =>
          rw [hr] at h
          cases h
          refine repLoop_inv P _ ?_ _ _ _ _ hP hr
          intro j s s' hs hb
          obtain ⟨v, w', _, _, rfl⟩ := moveToRep_ok hb
          exact hmove s v w' hs
    · by_cases h2 : w &&& 7 = 2
      · rw [command_lineTo t e ty g i st w hw h2] at h
        split at h
        · cases h
          exact hP
        · cases hr : repLoop (lineToRep t e g) (w >>> 3) i st with
          | error err => rw [hr] at h; cases h
          | ok r =>
            rw [hr] at h
            cases h
            refine repLoop_inv P _ ?_ _ _ _ _ hP hr
            intro j s s' hs hb
            obtain ⟨v, w', _, _, rfl⟩ := lineToRep_ok hb
            exact hline s v w' hs
      · by_cases h7 : w &&& 7 = 7
        · rw [command_closePath t e ty g i st w hw h7] at h
          split at h
          · rename_i hty
            cases hcp : closePath st with
            | error err => rw [hcp] at h; cases h
            | ok st1 =>
              rw [hcp] at h
              cases h
              exact hclose st st1 hty hP hcp
          · cases h
            exact hP
        · rw [command_unknown t e ty g i st w hw h1 h2 h7] at h
          cases h
          exact hP

/-- A predicate kept by every repetition and every ClosePath holds at the end of the
command loop. -/
theorem geometryLoop_inv (P : GeomState → Prop) (t : QgsTileXYZ) (e : Int) (ty : GeomType)
    (g : List Nat)
    (hmove : ∀ st v w, P st → P (moveToEmit t e ty st v w))
    (hline : ∀ st v w, P st → P (lineToEmit t e st v w))
    (hclose : ∀ st st', ty = .POLYGON → P st → closePath st = .ok st' → P st') :
    ∀ (fuel i : Nat) (st st' : GeomState),
      P st → geometryLoop t e ty g fuel i st = .ok st' → P st' := by
  intro fuel
  induction fuel with
  | zero =>
    intro i st st' hP h
    by_cases hi : i < g.length
    · rw [geometryLoop, if_pos hi] at h
      cases h
    · rw [geometryLoop_done t e ty g 0 i st (by omega)] at h
      cases h
      exact hP
  | succ fuel ih =>
    intro i st st' hP h
    by_cases hi : i < g.length
    · rw [geometryLoop_succ t e ty g fuel i st hi] at h
      cases hc : command t e ty g i st with
      | error err => rw [hc] at h; cases h
      | ok fl =>
        have hfl := command_inv P t e ty g hmove hline hclose i st fl hP hc
        rw [hc] at h
        cases fl with
        | brk st1 =>
          cases h
          exact hfl
        | next i1 st1 => exact ih (i1 + 1) st1 st' hfl h
    · rw [geometryLoop_done t e ty g (fuel + 1) i st (by omega)] at h
      cases h
      exact hP


/-! ## The ClosePath branch and the polygon accumulator -/

theorem moveToEmit_outputPolygons (t : QgsTileXYZ) (e : Int) (ty : GeomType) (st : GeomState)
    (v w : Nat) :
    (moveToEmit t e ty st v w).outputPolygons = st.outputPolygons ∧
    (moveToEmit t e ty st v w).closedRings = st.closedRings := by
  cases ty
  · exact ⟨rfl, rfl⟩
  · exact ⟨rfl, rfl⟩
  · unfold moveToEmit
    dsimp only
    split <;> exact ⟨rfl, rfl⟩
  · exact ⟨rfl, rfl⟩

theorem lineToEmit_outputPolygons (t : QgsTileXYZ) (e : Int) (st : GeomState) (v w : Nat) :
    (lineToEmit t e st v w).outputPolygons = st.outputPolygons ∧
    (lineToEmit t e st v w).closedRings = st.closedRings :=
  ⟨rfl, rfl⟩

/-- The code's handling of an interior ring (`getLast?`, `dropLast`) is the attachment
rule. -/
theorem attachRing_interior (polygons : List QgsPolygon) (ring : List QgsPoint)
    (h : _isExteriorRing ring = false) :
    attachRing polygons ring =
      match polygons.getLast? with
      | some last => polygons.dropLast ++ [last.addInteriorRing ring]
      | none => polygons := by
  unfold attachRing
  rw [h]
  rcases List.eq_nil_or_concat polygons with rfl | ⟨L, b, rfl⟩
  · rfl
  · simp [QgsPolygon.addInteriorRing]

/-- What a successful ClosePath does: the ring is `tmpPoints` followed by a copy of its
first point; it is recorded, attached by the attachment rule, and `tmpPoints` is cleared. -/
theorem closePath_ok {st st' : GeomState} (h : closePath st = .ok st') :
    ∃ first, st.tmpPoints.head? = some first ∧
      st' = { st with outputPolygons := attachRing st.outputPolygons (st.tmpPoints ++ [first]),
                      tmpPoints := [],
                      closedRings := st.closedRings ++ [st.tmpPoints ++ [first]] } := by
  unfold closePath at h
  cases hh : st.tmpPoints.head? with
  | none => rw [hh] at h; cases h
  | some first =>
    rw [hh] at h
    refine ⟨first, rfl, ?_⟩
    dsimp only at h
    cases hext : _isExteriorRing (st.tmpPoints ++ [first]) with
    | true =>
      rw [hext] at h
      simp only [if_true] at h
      cases h
      simp [attachRing, hext]
    | false =>
      rw [hext] at h
      rw [attachRing_interior _ _ hext]
      cases hl : st.outputPolygons.getLast? with
      | none =>
        rw [hl] at h
        cases h
        rfl
      | some last =>
        rw [hl] at h
        cases h
        rfl

theorem closePath_of_head {st : GeomState} {first : QgsPoint}
    (hh : st.tmpPoints.head? = some first) :
    closePath st =
      .ok { st with outputPolygons := attachRing st.outputPolygons (st.tmpPoints ++ [first]),
                    tmpPoints := [],
                    closedRings := st.closedRings ++ [st.tmpPoints ++ [first]] } := by
  cases h : closePath st with
  | error err =>
    unfold closePath at h
    rw [hh] at h
    dsimp only at h
    split at h
    · cases h
    · split at h <;> cases h
  | ok st' =>
    obtain ⟨f, hf, rfl⟩ := closePath_ok h
    rw [hh] at hf
    cases hf
    rfl

theorem isClosedRing_close (pts : List QgsPoint) (first : QgsPoint)
    (h : pts.head? = some first) : IsClosedRing (pts ++ [first]) := by
  refine ⟨by simp, ?_⟩
  cases pts with
  | nil => cases h
  | cons a rest =>
    simp only [List.head?_cons, Option.some.injEq] at h
    subst h
    rw [List.cons_append, List.head?_cons, ← List.cons_append, List.getLast?_concat]

theorem attachRing_length (polygons : List QgsPolygon) (ring : List QgsPoint) :
    (attachRing polygons ring).length =
      polygons.length + if _isExteriorRing ring then 1 else 0 := by
  unfold attachRing
  cases hext : _isExteriorRing ring with
  | true => simp
  | false =>
    rcases List.eq_nil_or_concat polygons with rfl | ⟨L, b, rfl⟩
    · simp
    · simp

theorem foldl_attachRing_length (rings : List (List QgsPoint)) :
    ∀ polygons : List QgsPolygon,
      (rings.foldl attachRing polygons).length =
        polygons.length + rings.countP _isExteriorRing := by
  induction rings with
  | nil => intro polygons; simp
  | cons r rest ih =>
    intro polygons
    rw [List.foldl_cons, ih, attachRing_length, List.countP_cons]
    cases _isExteriorRing r <;> simp
    omega

theorem polygonsOfRings_eq_nil (rings : List (List QgsPoint))
    (h : ∀ r ∈ rings, _isExteriorRing r = false) : polygonsOfRings rings = [] := by
  induction rings with
  | nil => rfl
  | cons r rest ih =>
    rw [polygonsOfRings, h r (List.mem_cons_self _ _)]
    exact ih (fun r' hr' => h r' (List.mem_cons_of_mem _ hr'))

theorem polygonsOfRings_ne_nil (rings : List (List QgsPoint)) (r : List QgsPoint)
    (hr : r ∈ rings) (h : _isExteriorRing r = true) : polygonsOfRings rings ≠ [] := by
  induction rings with
  | nil => cases hr
  | cons a rest ih =>
    rw [polygonsOfRings]
    cases ha : _isExteriorRing a with
    | true => simp
    | false =>
      rcases List.mem_cons.mp hr with rfl | hmem
      · rw [ha] at h; cases h
      · simpa using ih hmem

theorem attachRing_cons_interior (p : QgsPolygon) (polygons : List QgsPolygon)
    (ring : List QgsPoint) (h : _isExteriorRing ring = false) (hne : polygons ≠ []) :
    attachRing (p :: polygons) ring = p :: attachRing polygons ring := by
  unfold attachRing
  rw [h]
  rcases List.eq_nil_or_concat polygons with rfl | ⟨L, b, rfl⟩
  · exact absurd rfl hne
  · simp

/-- Grouping and the attachment rule agree when a ring is added at the end. -/
theorem polygonsOfRings_concat (rings : List (List QgsPoint)) (ring : List QgsPoint) :
    polygonsOfRings (rings ++ [ring]) = attachRing (polygonsOfRings rings) ring := by
  induction rings with
  | nil =>
    cases hext : _isExteriorRing ring <;> simp [polygonsOfRings, attachRing, hext]
  | cons a rest ih =>
    rw [List.cons_append, polygonsOfRings, polygonsOfRings]
    cases ha : _isExteriorRing a with
    | false => simpa using ih
    | true =>
      simp only [if_true]
      rw [ih]
      cases hext : _isExteriorRing ring with
      | true =>
        have htw : (rest ++ [ring]).takeWhile (fun r => !_isExteriorRing r) =
            rest.takeWhile (fun r => !_isExteriorRing r) := by
          clear ih
          induction rest with
          | nil => simp [List.takeWhile, hext]
          | cons b rest' ihb =>
            rw [List.cons_append, List.takeWhile_cons, List.takeWhile_cons, ihb]
        rw [htw]
        simp [attachRing, hext]
      | false =>
        by_cases hall : ∀ r ∈ rest, _isExteriorRing r = false
        · have htw : (rest ++ [ring]).takeWhile (fun r => !_isExteriorRing r) = rest ++ [ring] := by
            rw [List.takeWhile_eq_self_iff]
            intro r hr
            rcases List.mem_append.mp hr with h1 | h1
            · simp [hall r h1]
            · rw [List.mem_singleton] at h1
              subst h1
              simp [hext]
          have htw' : rest.takeWhile (fun r => !_isExteriorRing r) = rest := by
            rw [List.takeWhile_eq_self_iff]
            intro r hr
            simp [hall r hr]
          rw [htw, htw', polygonsOfRings_eq_nil rest hall]
          simp [attachRing, hext]
        · have hex : ∃ r ∈ rest, _isExteriorRing r = true := by
            by_contra hcon
            apply hall
            intro r hr
            cases hr' : _isExteriorRing r with
            | false => rfl
            | true => exact absurd ⟨r, hr, hr'⟩ hcon
          obtain ⟨r, hr, hrext⟩ := hex
          have htw : (rest ++ [ring]).takeWhile (fun r => !_isExteriorRing r) =
              rest.takeWhile (fun r => !_isExteriorRing r) := by
            clear ih hall
            induction rest with
            | nil => cases hr
            | cons b rest' ihb =>
              rw [List.cons_append, List.takeWhile_cons, List.takeWhile_cons]
              cases hb : _isExteriorRing b with
              | true => simp
              | false =>
                rcases List.mem_cons.mp hr with rfl | hmem
                · rw [hb] at hrext; cases hrext
                · simp only [Bool.not_false, if_true]
                  rw [ihb hmem]
          rw [htw, attachRing_cons_interior _ _ _ hext (polygonsOfRings_ne_nil rest r hr hrext)]

theorem foldl_attachRing_eq_polygonsOfRings (rings : List (List QgsPoint)) :
    rings.foldl attachRing [] = polygonsOfRings rings := by
  induction rings using List.reverseRecOn with
  | nil => rfl
  | append_singleton rs r ih =>
    rw [List.foldl_append, List.foldl_cons, List.foldl_nil, ih, polygonsOfRings_concat]


/-! ## Unknown command ids -/

/-- C2, as the code has it: a command word whose id is not 1, 2 or 7 is skipped alone. The
word changes neither the cursor nor any output, and the loop goes on with the next word of
the stream, which it interprets as a command word. -/
theorem unknown_command_skips_one_word (t : QgsTileXYZ) (e : Int) (ty : GeomType)
    (g : List Nat) (i : Nat) (st : GeomState) (w : Nat) (hw : geometryAt g i = .ok w)
    (h1 : w &&& 7 ≠ 1) (h2 : w &&& 7 ≠ 2) (h7 : w &&& 7 ≠ 7) :
    command t e ty g i st = .ok (.next i st) ∧
    ∀ fuel, geometryLoop t e ty g (fuel + 1) i st = geometryLoop t e ty g fuel (i + 1) st := by
  have hc := command_unknown t e ty g i st w hw h1 h2 h7
  refine ⟨hc, fun fuel => ?_⟩
  rw [geometryLoop_succ t e ty g fuel i st (geometryAt_lt hw), hc]

/-- C2, witness: the word `0` (id 0) at the head of `[0, 9, 2, 2]`. -/
theorem unknown_command_skips_one_word_witness :
    command ⟨0, 0, 0⟩ 4096 .POINT [0, 9, 2, 2] 0 GeomState.init = .ok (.next 0 GeomState.init) ∧
    ∀ fuel, geometryLoop ⟨0, 0, 0⟩ 4096 .POINT [0, 9, 2, 2] (fuel + 1) 0 GeomState.init =
      geometryLoop ⟨0, 0, 0⟩ 4096 .POINT [0, 9, 2, 2] fuel 1 GeomState.init :=
  unknown_command_skips_one_word ⟨0, 0, 0⟩ 4096 .POINT [0, 9, 2, 2] 0 GeomState.init 0
    (by rfl) (by decide) (by decide) (by decide)

/-- C2, counterexample: in the POINT stream `[0, 9, 2, 2]` the word after the unknown
command `0` is interpreted as MoveTo and emits a point, so decoding did not stop with what
was emitted before the unknown command (nothing). -/
theorem unknown_command_does_not_stop :
    runGeometry ⟨0, 0, 0⟩ 4096 .POINT [0, 9, 2, 2] ≠ .ok GeomState.init ∧
    featureGeometry ⟨0, 0, 0⟩ 4096 .POINT [0, 9, 2, 2] =
      .ok (.point (worldPoint ⟨0, 0, 0⟩ 4096 1 1)) ∧
    featureGeometry ⟨0, 0, 0⟩ 4096 .POINT [0, 9, 2, 2] ≠ .ok (assemble .POINT GeomState.init) := by
  refine ⟨?_, ?_, ?_⟩
  · decide!
  · rfl
  · decide!

/-! ## Scenario 1: a single point at zoom 0 -/

/-- C9, as the code has it: the POINT feature with geometry `[9, 8192, 8192]` in a layer of
extent 4096 of tile (0, 0, 0) decodes to exactly one feature, whose geometry before the CRS
transform is the Point at world (20037508.3427892, -20037508.3427892), the south-east corner
of the tile. -/
theorem single_point_zoom0 (layerFields : List String) (ct : Geometry → Geometry)
    (name : String) (keys : List String) (values : List Tile_Value) (id : Nat) :
    decodeFeature ⟨0, 0, 0⟩ layerFields ⟨name, 4096, keys, values, [⟨id, .POINT, [], [9, 8192, 8192]⟩]⟩
        ⟨id, .POINT, [], [9, 8192, 8192]⟩ =
      .ok { id := toInt64 (id : Int)
            attributes := setAttribute (List.replicate layerFields.length QVariant.null)
              (fieldsIndexOf layerFields "_geom_type") (.string "Point")
            geometry := .point ⟨200375083427892 / 10000000, -200375083427892 / 10000000⟩ } ∧
    decodeLayer ⟨0, 0, 0⟩ layerFields ct ⟨name, 4096, keys, values, [⟨id, .POINT, [], [9, 8192, 8192]⟩]⟩ =
      .ok [{ id := toInt64 (id : Int)
             attributes := setAttribute (List.replicate layerFields.length QVariant.null)
               (fieldsIndexOf layerFields "_geom_type") (.string "Point")
             geometry := ct (.point ⟨200375083427892 / 10000000, -200375083427892 / 10000000⟩) }] := by
  have hg : featureGeometry ⟨0, 0, 0⟩ (toInt32 ((4096 % 4294967296 : Nat) : Int)) .POINT [9, 8192, 8192]
      = .ok (.point ⟨200375083427892 / 10000000, -200375083427892 / 10000000⟩) := by decide!
  constructor
  · simp only [decodeFeature, attributeLoop, bind, Except.bind, pure, Except.pure, hg]
    rfl
  · simp only [decodeLayer, featureLoop, decodeFeature, attributeLoop, bind, Except.bind, pure,
      Except.pure, hg, List.nil_append]
    rfl

/-- C9, counterexample: the decoded point is not the world origin. -/
theorem single_point_zoom0_not_origin :
    featureGeometry ⟨0, 0, 0⟩ (toInt32 ((4096 % 4294967296 : Nat) : Int)) .POINT [9, 8192, 8192]
      ≠ .ok (.point ⟨0, 0⟩) := by
  decide!

/-! ## Polygon assembly -/

theorem featureGeometry_eq (t : QgsTileXYZ) (e : Int) (ty : GeomType) (g : List Nat) :
    featureGeometry t e ty g =
      match runGeometry t e ty g with
      | .ok st => .ok (assemble ty st)
      | .error err => .error err := by
  unfold featureGeometry
  cases runGeometry t e ty g <;> rfl

theorem assemble_polygons (st : GeomState) :
    (assemble .POLYGON st).polygons = st.outputPolygons := by
  unfold assemble
  dsimp only
  split
  · rename_i p hp
    rw [hp]
    rfl
  · rfl

theorem attachRing_rings_closed (polygons : List QgsPolygon) (ring : List QgsPoint)
    (hring : IsClosedRing ring)
    (h : ∀ p ∈ polygons, ∀ r ∈ p.rings, IsClosedRing r) :
    ∀ p ∈ attachRing polygons ring, ∀ r ∈ p.rings, IsClosedRing r := by
  unfold attachRing
  cases hext : _isExteriorRing ring with
  | true =>
    intro p hp r hr
    simp only [if_true, List.mem_append, List.mem_singleton] at hp
    rcases hp with hp | rfl
    · exact h p hp r hr
    · simp only [QgsPolygon.rings, List.mem_cons, List.not_mem_nil, or_false] at hr
      rw [hr]
      exact hring
  | false =>
    rcases List.eq_nil_or_concat polygons with rfl | ⟨L, b, hL⟩
    · intro p hp
      simp at hp
    · rw [List.concat_eq_append] at hL
      subst hL
      intro p hp r hr
      simp only [Bool.false_eq_true, if_false, List.reverse_append, List.reverse_cons,
        List.reverse_nil, List.nil_append, List.singleton_append, List.reverse_reverse,
        List.mem_append, List.mem_singleton] at hp
      rcases hp with hp | rfl
      · exact h p (List.mem_append_left _ hp) r hr
      · simp only [QgsPolygon.rings, List.mem_cons, List.mem_append, List.not_mem_nil,
          or_false] at hr
        have hb := h b (List.mem_append_right _ (List.mem_singleton_self b))
        rcases hr with rfl | hr | rfl
        · exact hb _ (List.mem_cons_self _ _)
        · exact hb _ (List.mem_cons_of_mem _ hr)
        · exact hring

/-- C6: every ring of every polygon produced for a POLYGON feature, the exterior ring and
each interior ring, is non-empty and has its first point equal to its last point. -/
theorem polygon_rings_closed (t : QgsTileXYZ) (e : Int) (g : List Nat) (geom : Geometry)
    (h : featureGeometry t e .POLYGON g = .ok geom) :
    ∀ p ∈ geom.polygons, ∀ r ∈ p.rings, IsClosedRing r := by
  rw [featureGeometry_eq] at h
  cases hrun : runGeometry t e .POLYGON g with
  | error err => rw [hrun] at h; cases h
  | ok st =>
    rw [hrun] at h
    cases h
    rw [assemble_polygons]
    refine geometryLoop_inv (fun s => ∀ p ∈ s.outputPolygons, ∀ r ∈ p.rings, IsClosedRing r)
      t e .POLYGON g ?_ ?_ ?_ g.length 0 GeomState.init st ?_ hrun
    · intro s v w hs
      rw [(moveToEmit_outputPolygons t e .POLYGON s v w).1]
      exact hs
    · intro s v w hs
      exact hs
    · intro s s' _ hs hcp
      obtain ⟨first, hfirst, rfl⟩ := closePath_ok hcp
      exact attachRing_rings_closed _ _ (isClosedRing_close _ _ hfirst) hs
    · intro p hp
      cases hp

/-- C6, witness: the ring of the triangle (0,0), (5,0), (5,5) closed by ClosePath. -/
theorem polygon_rings_closed_witness :
    IsClosedRing [worldPoint ⟨0, 0, 0⟩ 4096 0 0, worldPoint ⟨0, 0, 0⟩ 4096 5 0,
      worldPoint ⟨0, 0, 0⟩ 4096 5 5, worldPoint ⟨0, 0, 0⟩ 4096 0 0] :=
  polygon_rings_closed ⟨0, 0, 0⟩ 4096 [9, 0, 0, 18, 10, 0, 0, 10, 15]
    (.polygon
      { exteriorRing := [worldPoint ⟨0, 0, 0⟩ 4096 0 0, worldPoint ⟨0, 0, 0⟩ 4096 5 0,
          worldPoint ⟨0, 0, 0⟩ 4096 5 5, worldPoint ⟨0, 0, 0⟩ 4096 0 0]
        interiorRings := [] })
    (by decide!) _ (List.mem_singleton_self _) _ (List.mem_cons_self _ _)

/-- C5: for a POLYGON feature, what a ClosePath does and what the command loop ends with.
A ClosePath that succeeds closes the ring `tmpPoints ++ [first]`, records it as the next
closed ring and attaches it by the attachment rule. At the end of the loop the polygon list
is the attachment rule folded over the closed rings in stream order; it is the grouping of
these rings (each exterior ring with the interior rings that follow it, leading interior
rings dropped); it has as many polygons as there are exterior rings; it is what the feature
geometry is built from; and two closed rings that are both exterior give a MultiPolygon of
two polygons without holes. -/
theorem polygon_assembly (t : QgsTileXYZ) (e : Int) (g : List Nat) (st : GeomState)
    (h : runGeometry t e .POLYGON g = .ok st) :
    (∀ s s' : GeomState, closePath s = .ok s' →
      ∃ first, s.tmpPoints.head? = some first ∧
        s'.closedRings = s.closedRings ++ [s.tmpPoints ++ [first]] ∧
        s'.outputPolygons = attachRing s.outputPolygons (s.tmpPoints ++ [first])) ∧
    st.outputPolygons = st.closedRings.foldl attachRing [] ∧
    st.outputPolygons = polygonsOfRings st.closedRings ∧
    st.outputPolygons.length = st.closedRings.countP _isExteriorRing ∧
    featureGeometry t e .POLYGON g =
      .ok (match st.outputPolygons with
           | [p] => .polygon p
           | ps => .multiPolygon ps) ∧
    (∀ r1 r2 : List QgsPoint, st.closedRings = [r1, r2] → _isExteriorRing r1 = true →
      _isExteriorRing r2 = true →
      featureGeometry t e .POLYGON g =
        .ok (.multiPolygon [{ exteriorRing := r1, interiorRings := [] },
                            { exteriorRing := r2, interiorRings := [] }])) := by
  have hfold : st.outputPolygons = st.closedRings.foldl attachRing [] := by
    refine geometryLoop_inv (fun s => s.outputPolygons = s.closedRings.foldl attachRing [])
      t e .POLYGON g ?_ ?_ ?_ g.length 0 GeomState.init st rfl h
    · intro s v w hs
      rw [(moveToEmit_outputPolygons t e .POLYGON s v w).1,
        (moveToEmit_outputPolygons t e .POLYGON s v w).2]
      exact hs
    · intro s v w hs
      exact hs
    · intro s s' _ hs hcp
      obtain ⟨first, _, rfl⟩ := closePath_ok hcp
      show attachRing s.outputPolygons _ = List.foldl attachRing [] (s.closedRings ++ [_])
      rw [List.foldl_append, List.foldl_cons, List.foldl_nil, hs]
  have hgeom : featureGeometry t e .POLYGON g =
      .ok (match st.outputPolygons with
           | [p] => .polygon p
           | ps => .multiPolygon ps) := by
    rw [featureGeometry_eq, h]
    rfl
  refine ⟨?_, hfold, ?_, ?_, hgeom, ?_⟩
  · intro s s' hcp
    obtain ⟨first, hfirst, rfl⟩ := closePath_ok hcp
    exact ⟨first, hfirst, rfl, rfl⟩
  · rw [hfold, foldl_attachRing_eq_polygonsOfRings]
  · rw [hfold, foldl_attachRing_length]
    simp
  · intro r1 r2 hrings h1 h2
    rw [hgeom, hfold, hrings]
    simp [attachRing, h1, h2]


/-- C5, witness: two triangles of the same orientation, each closed by ClosePath, give a
MultiPolygon of two polygons without holes. -/
theorem polygon_assembly_witness :
    featureGeometry ⟨0, 0, 0⟩ 4096 .POLYGON
        [9, 0, 0, 18, 10, 0, 0, 10, 15, 9, 20, 0, 18, 10, 0, 0, 10, 15] =
      .ok (.multiPolygon
        [{ exteriorRing := [worldPoint ⟨0, 0, 0⟩ 4096 0 0, worldPoint ⟨0, 0, 0⟩ 4096 5 0,
              worldPoint ⟨0, 0, 0⟩ 4096 5 5, worldPoint ⟨0, 0, 0⟩ 4096 0 0]
           interiorRings := [] },
         { exteriorRing := [worldPoint ⟨0, 0, 0⟩ 4096 15 5, worldPoint ⟨0, 0, 0⟩ 4096 20 5,
              worldPoint ⟨0, 0, 0⟩ 4096 20 10, worldPoint ⟨0, 0, 0⟩ 4096 15 5]
           interiorRings := [] }]) :=
  (polygon_assembly ⟨0, 0, 0⟩ 4096
      [9, 0, 0, 18, 10, 0, 0, 10, 15, 9, 20, 0, 18, 10, 0, 0, 10, 15]
      { cursorx := 20, cursory := 10, outputPoints := [], outputLinestrings := [],
        outputPolygons :=
          [{ exteriorRing := [worldPoint ⟨0, 0, 0⟩ 4096 0 0, worldPoint ⟨0, 0, 0⟩ 4096 5 0,
                worldPoint ⟨0, 0, 0⟩ 4096 5 5, worldPoint ⟨0, 0, 0⟩ 4096 0 0]
             interiorRings := [] },
           { exteriorRing := [worldPoint ⟨0, 0, 0⟩ 4096 15 5, worldPoint ⟨0, 0, 0⟩ 4096 20 5,
                worldPoint ⟨0, 0, 0⟩ 4096 20 10, worldPoint ⟨0, 0, 0⟩ 4096 15 5]
             interiorRings := [] }],
        tmpPoints := [],
        closedRings :=
          [[worldPoint ⟨0, 0, 0⟩ 4096 0 0, worldPoint ⟨0, 0, 0⟩ 4096 5 0,
              worldPoint ⟨0, 0, 0⟩ 4096 5 5, worldPoint ⟨0, 0, 0⟩ 4096 0 0],
           [worldPoint ⟨0, 0, 0⟩ 4096 15 5, worldPoint ⟨0, 0, 0⟩ 4096 20 5,
              worldPoint ⟨0, 0, 0⟩ 4096 20 10, worldPoint ⟨0, 0, 0⟩ 4096 15 5]] }
      (by decide!)).2.2.2.2.2 _ _ rfl (by decide!) (by decide!)


/-! ## Ring classification -/

theorem tileDX_pos (t : QgsTileXYZ) : 0 < tileDX t := by
  unfold tileDX z0xMax z0xMin numTiles
  push_cast
  apply div_pos
  · norm_num
  · positivity

theorem tileDY_pos (t : QgsTileXYZ) : 0 < tileDY t := by
  unfold tileDY z0yMax z0yMin numTiles
  push_cast
  apply div_pos
  · norm_num
  · positivity

/-- The total computed by `_isExteriorRing` on the world images of a vertex list, in terms
of the tile-local vertices. -/
theorem ringTotal_world (t : QgsTileXYZ) (e : Int) (he : e ≠ 0) :
    ∀ (cs : List (Int × Int)) (c : Int × Int) (acc : ℚ),
      ringTotal ((c :: cs).map (fun v => worldPoint t e v.1 v.2)) acc =
        acc + 2 * tileYMax t * tileDX t / (e : ℚ) * (((cs.getLastD c).1 : ℚ) - (c.1 : ℚ))
          + tileDX t * tileDY t / ((e : ℚ) * (e : ℚ)) *
            ((shoelace (c :: cs) : ℚ)
              - (((cs.getLastD c).1 : ℚ) * ((cs.getLastD c).2 : ℚ) - (c.1 : ℚ) * (c.2 : ℚ))) := by
  have hE : (e : ℚ) ≠ 0 := by exact_mod_cast he
  intro cs
  induction cs with
  | nil =>
    intro c acc
    simp [ringTotal, shoelace]
  | cons d cs ih =>
    intro c acc
    have h := ih d (acc + ((worldPoint t e d.1 d.2).x - (worldPoint t e c.1 c.2).x) *
      ((worldPoint t e d.1 d.2).y + (worldPoint t e c.1 c.2).y))
    rw [List.map_cons] at h
    rw [List.map_cons, List.map_cons, ringTotal, h, List.getLastD_cons]
    simp only [worldPoint, shoelace]
    push_cast
    field_simp
    ring

/-- On the world images of a closed vertex list, `_isExteriorRing` decides the sign of the
tile-local shoelace sum. -/
theorem isExteriorRing_world (t : QgsTileXYZ) (e : Int) (he : e ≠ 0)
    (c : Int × Int) (cs : List (Int × Int))
    (hclosed : (c :: cs).getLast? = (c :: cs).head?) :
    _isExteriorRing ((c :: cs).map (fun v => worldPoint t e v.1 v.2)) =
      decide (0 ≤ shoelace (c :: cs)) := by
  have hlast : cs.getLastD c = c := by
    rw [List.getLast?_cons, List.head?_cons, ← List.getLastD_eq_getLast?] at hclosed
    exact Option.some.inj hclosed
  have hE : (e : ℚ) ≠ 0 := by exact_mod_cast he
  have hk : 0 < tileDX t * tileDY t / ((e : ℚ) * (e : ℚ)) :=
    div_pos (mul_pos (tileDX_pos t) (tileDY_pos t)) (mul_self_pos.mpr hE)
  unfold _isExteriorRing
  rw [ringTotal_world t e he cs c 0, hlast]
  simp only [sub_self, mul_zero, add_zero, zero_add, sub_zero, ge_iff_le]
  rw [decide_eq_decide, mul_nonneg_iff_of_pos_left hk]
  exact_mod_cast Iff.rfl


theorem toInt32_extent_ne_zero (ext : Nat) (hpos : 0 < ext) (h32 : ext < 4294967296) :
    toInt32 ((ext % 4294967296 : Nat) : Int) ≠ 0 := by
  unfold toInt32
  omega

/-- The points of `tmpPoints` and of every closed ring are world images of integer
cursor positions; the closed rings are images of closed vertex lists. -/
theorem closedRings_world (t : QgsTileXYZ) (e : Int) (g : List Nat) (st : GeomState)
    (h : runGeometry t e .POLYGON g = .ok st) :
    ∀ ring ∈ st.closedRings, ∃ (c : Int × Int) (cs : List (Int × Int)),
      (c :: cs).getLast? = (c :: cs).head? ∧
      ring = (c :: cs).map (fun v => worldPoint t e v.1 v.2) := by
  have hinv := geometryLoop_inv
    (fun s => (∃ vs : List (Int × Int), s.tmpPoints = vs.map (fun v => worldPoint t e v.1 v.2)) ∧
      ∀ ring ∈ s.closedRings, ∃ (c : Int × Int) (cs : List (Int × Int)),
        (c :: cs).getLast? = (c :: cs).head? ∧
        ring = (c :: cs).map (fun v => worldPoint t e v.1 v.2))
    t e .POLYGON g ?_ ?_ ?_ g.length 0 GeomState.init st ?_ h
  · exact hinv.2
  · rintro s v w ⟨⟨vs, hvs⟩, hrings⟩
    refine ⟨⟨vs ++ [(toInt32 (s.cursorx + zigzagDecode v), toInt32 (s.cursory + zigzagDecode w))], ?_⟩,
      hrings⟩
    simp [moveToEmit, hvs]
  · rintro s v w ⟨⟨vs, hvs⟩, hrings⟩
    refine ⟨⟨vs ++ [(toInt32 (s.cursorx + zigzagDecode v), toInt32 (s.cursory + zigzagDecode w))], ?_⟩,
      hrings⟩
    simp [lineToEmit, hvs]
  · rintro s s' _ ⟨⟨vs, hvs⟩, hrings⟩ hcp
    obtain ⟨first, hfirst, rfl⟩ := closePath_ok hcp
    refine ⟨⟨[], rfl⟩, ?_⟩
    intro ring hring
    rcases List.mem_append.mp hring with hring | hring
    · exact hrings ring hring
    · rw [List.mem_singleton] at hring
      subst hring
      cases vs with
      | nil =>
        rw [hvs] at hfirst
        cases hfirst
      | cons c cs =>
        rw [hvs] at hfirst
        simp only [List.map_cons, List.head?_cons, Option.some.injEq] at hfirst
        refine ⟨c, cs ++ [c], ?_, ?_⟩
        · rw [← List.cons_append, List.getLast?_concat, List.cons_append, List.head?_cons]
        · rw [hvs, ← hfirst]
          simp
  · exact ⟨⟨[], rfl⟩, fun ring hring => by cases hring⟩

/-- C4: for a POLYGON feature of a layer with extent > 0 in a tile of zoom at most 30, in
exact arithmetic, a ring whose tile-local cursor vertices form the closed list `c :: cs` is
classified by `_isExteriorRing`, which runs on the world-mapped points, as exterior exactly
when the shoelace sum of the tile-local vertices is >= 0 and as interior exactly when it is
< 0. ClosePath closes `tmpPoints` with a copy of its first point and opens a new polygon or
adds a hole according to that sign, and every ring closed during a run is of this kind. -/
theorem ring_classified_by_tile_local_shoelace (t : QgsTileXYZ) (ext : Nat)
    (_hz : t.zoomLevel ≤ 30) (hpos : 0 < ext) (h32 : ext < 4294967296) :
    (∀ (c : Int × Int) (cs : List (Int × Int)),
      (c :: cs).getLast? = (c :: cs).head? →
      (_isExteriorRing ((c :: cs).map
          (fun v => worldPoint t (toInt32 ((ext % 4294967296 : Nat) : Int)) v.1 v.2)) = true
        ↔ 0 ≤ shoelace (c :: cs)) ∧
      (_isExteriorRing ((c :: cs).map
          (fun v => worldPoint t (toInt32 ((ext % 4294967296 : Nat) : Int)) v.1 v.2)) = false
        ↔ shoelace (c :: cs) < 0)) ∧
    (∀ (s : GeomState) (c : Int × Int) (cs : List (Int × Int)),
      s.tmpPoints = (c :: cs).map
        (fun v => worldPoint t (toInt32 ((ext % 4294967296 : Nat) : Int)) v.1 v.2) →
      closePath s = .ok
        { s with
          outputPolygons :=
            if 0 ≤ shoelace (c :: (cs ++ [c])) then
              s.outputPolygons ++ [{ exteriorRing := s.tmpPoints ++
                [worldPoint t (toInt32 ((ext % 4294967296 : Nat) : Int)) c.1 c.2], interiorRings := [] }]
            else
              match s.outputPolygons.getLast? with
              | some last => s.outputPolygons.dropLast ++ [last.addInteriorRing (s.tmpPoints ++
                  [worldPoint t (toInt32 ((ext % 4294967296 : Nat) : Int)) c.1 c.2])]
              | none => s.outputPolygons
          tmpPoints := []
          closedRings := s.closedRings ++ [s.tmpPoints ++
            [worldPoint t (toInt32 ((ext % 4294967296 : Nat) : Int)) c.1 c.2]] }) ∧
    (∀ (g : List Nat) (st : GeomState),
      runGeometry t (toInt32 ((ext % 4294967296 : Nat) : Int)) .POLYGON g = .ok st →
      ∀ ring ∈ st.closedRings, ∃ (c : Int × Int) (cs : List (Int × Int)),
        (c :: cs).getLast? = (c :: cs).head? ∧
        ring = (c :: cs).map
          (fun v => worldPoint t (toInt32 ((ext % 4294967296 : Nat) : Int)) v.1 v.2) ∧
        (_isExteriorRing ring = true ↔ 0 ≤ shoelace (c :: cs)) ∧
        (_isExteriorRing ring = false ↔ shoelace (c :: cs) < 0)) := by
  have he := toInt32_extent_ne_zero ext hpos h32
  have hcls : ∀ (c : Int × Int) (cs : List (Int × Int)),
      (c :: cs).getLast? = (c :: cs).head? →
      (_isExteriorRing ((c :: cs).map
          (fun v => worldPoint t (toInt32 ((ext % 4294967296 : Nat) : Int)) v.1 v.2)) = true
        ↔ 0 ≤ shoelace (c :: cs)) ∧
      (_isExteriorRing ((c :: cs).map
          (fun v => worldPoint t (toInt32 ((ext % 4294967296 : Nat) : Int)) v.1 v.2)) = false
        ↔ shoelace (c :: cs) < 0) := by
    intro c cs hclosed
    rw [isExteriorRing_world t _ he c cs hclosed]
    constructor
    · exact decide_eq_true_iff
    · rw [decide_eq_false_iff_not]
      omega
  refine ⟨hcls, ?_, ?_⟩
  · intro s c cs hs
    have hhead : s.tmpPoints.head? =
        some (worldPoint t (toInt32 ((ext % 4294967296 : Nat) : Int)) c.1 c.2) := by
      rw [hs]
      rfl
    have hclosed : (c :: (cs ++ [c])).getLast? = (c :: (cs ++ [c])).head? := by
      rw [← List.cons_append, List.getLast?_concat, List.cons_append, List.head?_cons]
    have hring : s.tmpPoints ++ [worldPoint t (toInt32 ((ext % 4294967296 : Nat) : Int)) c.1 c.2]
        = (c :: (cs ++ [c])).map
          (fun v => worldPoint t (toInt32 ((ext % 4294967296 : Nat) : Int)) v.1 v.2) := by
      rw [hs]
      simp
    rw [closePath_of_head hhead]
    congr 2
    by_cases hsign : 0 ≤ shoelace (c :: (cs ++ [c]))
    · rw [if_pos hsign]
      have hext := (hcls c (cs ++ [c]) hclosed).1.mpr hsign
      rw [← hring] at hext
      unfold attachRing
      rw [if_pos hext]
    · rw [if_neg hsign]
      have hext := (hcls c (cs ++ [c]) hclosed).2.mpr (by omega)
      rw [← hring] at hext
      exact attachRing_interior _ _ hext
  · intro g st hrun ring hring
    obtain ⟨c, cs, hclosed, rfl⟩ := closedRings_world t _ g st hrun ring hring
    exact ⟨c, cs, hclosed, rfl, hcls c cs hclosed⟩

/-- C4, witness: the triangle (0,0), (5,0), (5,5), (0,0) in tile (0,0,0) with extent 4096
has shoelace sum 25 and is exterior. -/
theorem ring_classified_by_tile_local_shoelace_witness :
    _isExteriorRing (([(0, 0), (5, 0), (5, 5), (0, 0)] : List (Int × Int)).map
        (fun v => worldPoint ⟨0, 0, 0⟩ (toInt32 ((4096 % 4294967296 : Nat) : Int)) v.1 v.2)) = true
      ↔ 0 ≤ shoelace [(0, 0), (5, 0), (5, 5), (0, 0)] :=
  ((ring_classified_by_tile_local_shoelace ⟨0, 0, 0⟩ 4096 (by decide) (by decide)
    (by decide)).1 (0, 0) [(5, 0), (5, 5), (0, 0)] (by rfl)).1


/-! ## Streams that consist of MoveTo and LineTo commands -/

theorem and_seven (x : Nat) : x &&& 7 = x % 8 := by
  have h := Nat.and_pow_two_sub_one_eq_mod x 3
  simpa using h

theorem shiftRight_three (x : Nat) : x >>> 3 = x / 8 := by
  rw [Nat.shiftRight_eq_div_pow]

theorem paramWords_length (ps : List (Nat × Nat)) : (paramWords ps).length = 2 * ps.length := by
  induction ps with
  | nil => rfl
  | cons p ps ih =>
    simp only [paramWords, List.length_cons, ih]
    omega

theorem words_length (c : PathCommand) : c.words.length = 1 + 2 * c.params.length := by
  simp only [PathCommand.words, List.length_cons, paramWords_length]
  omega

theorem geometryAt_append (pre post : List Nat) (w : Nat) (k : Nat) (hk : k = pre.length) :
    geometryAt (pre ++ w :: post) k = .ok (w % 4294967296) := by
  subst hk
  unfold geometryAt
  rw [List.get?_eq_getElem?, List.getElem?_append_right (le_refl _)]
  simp

/-- The repetition loop over parameter words that are present: it ends at index
`i + 2 * count` and has applied the repetition to each pair in order. -/
theorem repLoop_paramWords (g : List Nat)
    (body : Nat → GeomState → Except DecodeError GeomState)
    (emit : GeomState → Nat → Nat → GeomState)
    (hbody : ∀ i st v w, geometryAt g (i + 1) = .ok v → geometryAt g (i + 2) = .ok w →
      body i st = .ok (emit st v w)) :
    ∀ (ps : List (Nat × Nat)) (pre post : List Nat) (i : Nat) (st : GeomState),
      g = pre ++ (paramWords ps ++ post) → i + 1 = pre.length →
      repLoop body ps.length i st =
        .ok (i + 2 * ps.length,
             ps.foldl (fun s p => emit s (p.1 % 4294967296) (p.2 % 4294967296)) st) := by
  intro ps
  induction ps with
  | nil =>
    intro pre post i st _ _
    rfl
  | cons p ps ih =>
    intro pre post i st hg hi
    have hv : geometryAt g (i + 1) = .ok (p.1 % 4294967296) := by
      rw [hg]
      exact geometryAt_append pre _ p.1 (i + 1) hi
    have hw : geometryAt g (i + 2) = .ok (p.2 % 4294967296) := by
      have hg' : g = (pre ++ [p.1]) ++ p.2 :: (paramWords ps ++ post) := by
        rw [hg]
        simp [paramWords]
      rw [hg']
      exact geometryAt_append _ _ p.2 (i + 2) (by simp; omega)
    rw [List.length_cons, repLoop_succ, hbody i st _ _ hv hw]
    have hg' : g = (pre ++ [p.1, p.2]) ++ (paramWords ps ++ post) := by
      rw [hg]
      simp [paramWords]
    dsimp only
    rw [ih (pre ++ [p.1, p.2]) post (i + 2) _ hg' (by simp; omega)]
    simp only [List.foldl_cons]
    congr 2
    omega

theorem moveToRep_of_reads (t : QgsTileXYZ) (e : Int) (ty : GeomType) (g : List Nat) (i : Nat)
    (st : GeomState) (v w : Nat) (hv : geometryAt g (i + 1) = .ok v)
    (hw : geometryAt g (i + 2) = .ok w) :
    moveToRep t e ty g i st = .ok (moveToEmit t e ty st v w) := by
  unfold moveToRep
  rw [hv, hw]
  rfl

theorem lineToRep_of_reads (t : QgsTileXYZ) (e : Int) (g : List Nat) (i : Nat)
    (st : GeomState) (v w : Nat) (hv : geometryAt g (i + 1) = .ok v)
    (hw : geometryAt g (i + 2) = .ok w) :
    lineToRep t e g i st = .ok (lineToEmit t e st v w) := by
  unfold lineToRep
  rw [hv, hw]
  rfl

/-- The command loop on a stream that consists of MoveTo and LineTo commands, started at
the first of the remaining commands: every command passes the bounds test and the loop ends
with the effect of every repetition, in stream order. -/
theorem geometryLoop_encodeCommands (t : QgsTileXYZ) (e : Int) (ty : GeomType)
    (g : List Nat) (hlen : g.length < 2147483648) :
    ∀ (cmds : List PathCommand) (pre : List Nat) (fuel : Nat) (st : GeomState),
      (∀ c ∈ cmds, (c.id = 1 ∨ c.id = 2) ∧ c.params.length < 536870912) →
      g = pre ++ encodeCommands cmds →
      (encodeCommands cmds).length ≤ fuel →
      geometryLoop t e ty g fuel pre.length st = .ok (cmds.foldl (commandEffect t e ty) st) := by
  intro cmds
  induction cmds with
  | nil =>
    intro pre fuel st _ hg _
    rw [geometryLoop_done]
    · rfl
    · rw [hg]
      simp [encodeCommands]
  | cons c cs ih =>
    intro pre fuel st hwf hg hfuel
    obtain ⟨hid, hcount⟩ := hwf c (List.mem_cons_self _ _)
    have hglen : g.length = pre.length + (1 + 2 * c.params.length) + (encodeCommands cs).length := by
      rw [hg]
      simp only [encodeCommands, List.length_append, words_length]
      omega
    have hfuel' : 1 + 2 * c.params.length + (encodeCommands cs).length ≤ fuel := by
      simpa only [encodeCommands, List.length_append, words_length] using hfuel
    obtain ⟨fuel', rfl⟩ : ∃ f, fuel = f + 1 := ⟨fuel - 1, by omega⟩
    have hw : geometryAt g pre.length = .ok (c.id + 8 * c.params.length) := by
      have h := geometryAt_append pre (paramWords c.params ++ encodeCommands cs)
        (c.id + 8 * c.params.length) pre.length rfl
      have hg' : g = pre ++ (c.id + 8 * c.params.length) ::
          (paramWords c.params ++ encodeCommands cs) := by
        rw [hg]
        simp [encodeCommands, PathCommand.words]
      rw [← hg'] at h
      rw [h, Nat.mod_eq_of_lt (by omega)]
    have hcount' : (c.id + 8 * c.params.length) >>> 3 = c.params.length := by
      rw [shiftRight_three]
      omega
    have hover : overruns g pre.length c.params.length = false := by
      cases hov : overruns g pre.length c.params.length with
      | false => rfl
      | true =>
        have := (overruns_iff g pre.length c.params.length hcount (by omega)).mp hov
        omega
    have hgsplit : g = (pre ++ [c.id + 8 * c.params.length]) ++
        (paramWords c.params ++ encodeCommands cs) := by
      rw [hg]
      simp [encodeCommands, PathCommand.words]
    have hnext : g = (pre ++ c.words) ++ encodeCommands cs := by
      rw [hg]
      simp [encodeCommands]
    have hnextlen : (pre ++ c.words).length = pre.length + 2 * c.params.length + 1 := by
      simp only [List.length_append, words_length]
      omega
    rw [geometryLoop_succ t e ty g fuel' pre.length st (by omega)]
    rcases hid with hid | hid
    · have hid' : (c.id + 8 * c.params.length) &&& 7 = 1 := by
        rw [and_seven]
        omega
      rw [command_moveTo t e ty g pre.length st _ hw hid', hcount', hover]
      simp only [Bool.false_eq_true, if_false]
      rw [repLoop_paramWords g (moveToRep t e ty g) (moveToEmit t e ty)
        (fun i st v w hv hw => moveToRep_of_reads t e ty g i st v w hv hw)
        c.params _ _ pre.length st hgsplit (by simp)]
      dsimp only
      rw [← hnextlen, ih (pre ++ c.words) fuel' _
        (fun c' hc' => hwf c' (List.mem_cons_of_mem _ hc')) hnext (by omega)]
      simp [commandEffect, hid]
    · have hid' : (c.id + 8 * c.params.length) &&& 7 = 2 := by
        rw [and_seven]
        omega
      rw [command_lineTo t e ty g pre.length st _ hw hid', hcount', hover]
      simp only [Bool.false_eq_true, if_false]
      rw [repLoop_paramWords g (lineToRep t e g) (lineToEmit t e)
        (fun i st v w hv hw => lineToRep_of_reads t e g i st v w hv hw)
        c.params _ _ pre.length st hgsplit (by simp)]
      dsimp only
      rw [← hnextlen, ih (pre ++ c.words) fuel' _
        (fun c' hc' => hwf c' (List.mem_cons_of_mem _ hc')) hnext (by omega)]
      simp [commandEffect, hid]

theorem runGeometry_encodeCommands (t : QgsTileXYZ) (e : Int) (ty : GeomType)
    (cmds : List PathCommand)
    (hwf : ∀ c ∈ cmds, (c.id = 1 ∨ c.id = 2) ∧ c.params.length < 536870912)
    (hlen : (encodeCommands cmds).length < 2147483648) :
    runGeometry t e ty (encodeCommands cmds) =
      .ok (cmds.foldl (commandEffect t e ty) GeomState.init) :=
  geometryLoop_encodeCommands t e ty (encodeCommands cmds) hlen cmds [] _ GeomState.init hwf
    rfl (le_refl _)


/-! ## LINESTRING features -/

theorem lineSim_moveTo (t : QgsTileXYZ) (e : Int) (st : GeomState) (b : LineBuilder)
    (p : Nat × Nat) (h : LineSim st b) :
    LineSim (moveToEmit t e .LINESTRING st (p.1 % 4294967296) (p.2 % 4294967296))
      (LineBuilder.moveTo t e b p) := by
  obtain ⟨hx, hy, hf, hc⟩ := h
  unfold moveToEmit LineBuilder.moveTo advance
  dsimp only
  by_cases hcur : b.current = []
  · have hlen : ¬ st.tmpPoints.length > 0 := by
      rw [hc, hcur]
      simp
    rw [if_neg hlen, if_pos hcur]
    refine ⟨?_, ?_, hf, ?_⟩
    · rw [hx]
    · rw [hy]
    · show st.tmpPoints ++ _ = _
      rw [hc, hcur, hx, hy]
      rfl
  · have hlen : st.tmpPoints.length > 0 := by
      rw [hc]
      exact List.length_pos.mpr hcur
    rw [if_pos hlen, if_neg hcur]
    refine ⟨?_, ?_, ?_, ?_⟩
    · rw [hx]
    · rw [hy]
    · show st.outputLinestrings ++ [st.tmpPoints] = _
      rw [hf, hc]
    · show [_] = [_]
      rw [hx, hy]

theorem lineSim_lineTo (t : QgsTileXYZ) (e : Int) (st : GeomState) (b : LineBuilder)
    (p : Nat × Nat) (h : LineSim st b) :
    LineSim (lineToEmit t e st (p.1 % 4294967296) (p.2 % 4294967296))
      (LineBuilder.lineTo t e b p) := by
  obtain ⟨hx, hy, hf, hc⟩ := h
  unfold lineToEmit LineBuilder.lineTo advance
  refine ⟨?_, ?_, hf, ?_⟩
  · show toInt32 _ = toInt32 _
    rw [hx]
  · show toInt32 _ = toInt32 _
    rw [hy]
  · show st.tmpPoints ++ _ = _
    rw [hc, hx, hy]

theorem lineSim_foldl_moveTo (t : QgsTileXYZ) (e : Int) (ps : List (Nat × Nat)) :
    ∀ (st : GeomState) (b : LineBuilder), LineSim st b →
      LineSim (ps.foldl (fun s p => moveToEmit t e .LINESTRING s (p.1 % 4294967296)
        (p.2 % 4294967296)) st) (ps.foldl (LineBuilder.moveTo t e) b) := by
  induction ps with
  | nil => intro st b h; exact h
  | cons p ps ih =>
    intro st b h
    exact ih _ _ (lineSim_moveTo t e st b p h)

theorem lineSim_foldl_lineTo (t : QgsTileXYZ) (e : Int) (ps : List (Nat × Nat)) :
    ∀ (st : GeomState) (b : LineBuilder), LineSim st b →
      LineSim (ps.foldl (fun s p => lineToEmit t e s (p.1 % 4294967296)
        (p.2 % 4294967296)) st) (ps.foldl (LineBuilder.lineTo t e) b) := by
  induction ps with
  | nil => intro st b h; exact h
  | cons p ps ih =>
    intro st b h
    exact ih _ _ (lineSim_lineTo t e st b p h)

theorem lineSim_commands (t : QgsTileXYZ) (e : Int) (cmds : List PathCommand) :
    ∀ (st : GeomState) (b : LineBuilder), LineSim st b →
      LineSim (cmds.foldl (commandEffect t e .LINESTRING) st)
        (cmds.foldl (LineBuilder.command t e) b) := by
  induction cmds with
  | nil => intro st b h; exact h
  | cons c cs ih =>
    intro st b h
    refine ih _ _ ?_
    unfold commandEffect LineBuilder.command
    by_cases hid : c.id = 1
    · rw [if_pos hid, if_pos hid]
      exact lineSim_foldl_moveTo t e c.params st b h
    · rw [if_neg hid, if_neg hid]
      exact lineSim_foldl_lineTo t e c.params st b h

theorem linestring_encodeCommands (t : QgsTileXYZ) (e : Int) (cmds : List PathCommand)
    (hwf : ∀ c ∈ cmds, (c.id = 1 ∨ c.id = 2) ∧ c.params.length < 536870912)
    (hlen : (encodeCommands cmds).length < 2147483648) :
    featureGeometry t e .LINESTRING (encodeCommands cmds) =
      .ok (match linesOf t e cmds with
           | [l] => .lineString l
           | ls => .multiLineString ls) := by
  rw [featureGeometry_eq, runGeometry_encodeCommands t e .LINESTRING cmds hwf hlen]
  obtain ⟨_, _, hf, hc⟩ := lineSim_commands t e cmds GeomState.init
    { cursor := (0, 0), finished := [], current := [] } ⟨rfl, rfl, rfl, rfl⟩
  unfold linesOf
  rw [← hf, ← hc]
  rfl

/-- C7: for a LINESTRING feature whose stream consists of MoveTo and LineTo commands with
their parameter pairs (so that every command passes the bounds test), the geometry is
built from the lines of the line builder: each MoveTo repetition flushes the current line,
if it holds a point, and starts a new line with the moved-to point; each LineTo repetition
appends the new cursor point; the trailing line is flushed at the end; the lines keep
stream order; one line gives a LineString and several give a MultiLineString. The stream
`[9, 0, 0, 18, 10, 0, 0, 10]` gives the LineString of the world images of (0,0), (5,0),
(5,5). The stream length is an `int`, hence the bound on it. -/
theorem linestring_commands (t : QgsTileXYZ) (e : Int) (cmds : List PathCommand)
    (hwf : ∀ c ∈ cmds, (c.id = 1 ∨ c.id = 2) ∧ c.params.length < 536870912)
    (hlen : (encodeCommands cmds).length < 2147483648) :
    featureGeometry t e .LINESTRING (encodeCommands cmds) =
      .ok (match linesOf t e cmds with
           | [l] => .lineString l
           | ls => .multiLineString ls) ∧
    featureGeometry t e .LINESTRING [9, 0, 0, 18, 10, 0, 0, 10] =
      .ok (.lineString [worldPoint t e 0 0, worldPoint t e 5 0, worldPoint t e 5 5]) := by
  refine ⟨linestring_encodeCommands t e cmds hwf hlen, ?_⟩
  have h := linestring_encodeCommands t e [⟨1, [(0, 0)]⟩, ⟨2, [(10, 0), (0, 10)]⟩]
    (by decide) (by decide)
  exact h

/-- C7, witness: the commands MoveTo (0,0) and LineTo (+5,0), (0,+5), whose stream is
`[9, 0, 0, 18, 10, 0, 0, 10]`. -/
theorem linestring_commands_witness :
    featureGeometry ⟨0, 0, 0⟩ 4096 .LINESTRING
        (encodeCommands [⟨1, [(0, 0)]⟩, ⟨2, [(10, 0), (0, 10)]⟩]) =
      .ok (match linesOf ⟨0, 0, 0⟩ 4096 [⟨1, [(0, 0)]⟩, ⟨2, [(10, 0), (0, 10)]⟩] with
           | [l] => .lineString l
           | ls => .multiLineString ls) :=
  (linestring_commands ⟨0, 0, 0⟩ 4096 [⟨1, [(0, 0)]⟩, ⟨2, [(10, 0), (0, 10)]⟩]
    (by decide) (by decide)).1


/-! ## POINT features -/

theorem toInt32_add_toInt32 (a b : Int) : toInt32 (toInt32 a + b) = toInt32 (a + b) := by
  unfold toInt32
  omega

theorem foldl_moveToEmit_point (t : QgsTileXYZ) (e : Int) (ps : List (Nat × Nat)) :
    ∀ st : GeomState,
      (ps.foldl (fun s p => moveToEmit t e .POINT s (p.1 % 4294967296) (p.2 % 4294967296))
        st).outputPoints = st.outputPoints ++ pointsFrom t e (st.cursorx, st.cursory) ps := by
  induction ps with
  | nil =>
    intro st
    simp [pointsFrom]
  | cons p ps ih =>
    intro st
    rw [List.foldl_cons, ih]
    simp [moveToEmit, pointsFrom, advance]

theorem pointsFrom_eq (t : QgsTileXYZ) (e : Int) (ps : List (Nat × Nat)) :
    ∀ c : Int × Int,
      pointsFrom t e c ps = (List.range ps.length).map (fun k =>
        worldPoint t e (toInt32 (c.1 + (deltaSum (ps.take (k + 1))).1))
          (toInt32 (c.2 + (deltaSum (ps.take (k + 1))).2))) := by
  induction ps with
  | nil =>
    intro c
    rfl
  | cons p ps ih =>
    intro c
    rw [pointsFrom, ih, List.length_cons, List.range_succ_eq_map, List.map_cons, List.map_map]
    refine congrArg₂ List.cons ?_ ?_
    · simp [deltaSum, advance]
    · apply List.map_congr_left
      intro k _
      simp only [Function.comp, advance, Nat.succ_eq_add_one, List.take_succ_cons, deltaSum,
        toInt32_add_toInt32]
      rw [add_assoc, add_assoc]

theorem pointsFrom_zero (t : QgsTileXYZ) (e : Int) (ps : List (Nat × Nat)) :
    pointsFrom t e (0, 0) ps = pointsOf t e ps := by
  rw [pointsFrom_eq]
  unfold pointsOf
  simp

theorem commandEffect_moveTo_foldl (t : QgsTileXYZ) (e : Int) (ty : GeomType)
    (cmds : List PathCommand) (hid : ∀ c ∈ cmds, c.id = 1) :
    ∀ st : GeomState,
      cmds.foldl (commandEffect t e ty) st =
        (allParams cmds).foldl
          (fun s p => moveToEmit t e ty s (p.1 % 4294967296) (p.2 % 4294967296)) st := by
  induction cmds with
  | nil => intro st; rfl
  | cons c cs ih =>
    intro st
    rw [List.foldl_cons, ih (fun c' hc' => hid c' (List.mem_cons_of_mem _ hc')), allParams,
      List.foldl_append]
    unfold commandEffect
    rw [if_pos (hid c (List.mem_cons_self _ _))]

theorem pointsOf_length (t : QgsTileXYZ) (e : Int) (ps : List (Nat × Nat)) :
    (pointsOf t e ps).length = ps.length := by
  simp [pointsOf]

/-- C8, as the code has it: for a POINT feature whose stream consists of MoveTo commands
with their parameter pairs (N pairs in all), the command loop collects exactly N points in
stream order, the k-th being the world image of the sum of the first k zig-zag-decoded
pairs with each coordinate reduced to the 32-bit range of the `int` cursor; this is the
exact sum whenever the sum lies in [-2^31, 2^31). The geometry is the Point for N = 1 and
the MultiPoint of these points in that order for every other N. -/
theorem point_commands (t : QgsTileXYZ) (e : Int) (cmds : List PathCommand)
    (hwf : ∀ c ∈ cmds, c.id = 1 ∧ c.params.length < 536870912)
    (hlen : (encodeCommands cmds).length < 2147483648) :
    (∃ st, runGeometry t e .POINT (encodeCommands cmds) = .ok st ∧
      st.outputPoints = pointsOf t e (allParams cmds)) ∧
    (pointsOf t e (allParams cmds)).length = (allParams cmds).length ∧
    (∀ k, k < (allParams cmds).length →
      (pointsOf t e (allParams cmds))[k]? = some
        (worldPoint t e (toInt32 (deltaSum ((allParams cmds).take (k + 1))).1)
          (toInt32 (deltaSum ((allParams cmds).take (k + 1))).2)) ∧
      (-2147483648 ≤ (deltaSum ((allParams cmds).take (k + 1))).1 →
        (deltaSum ((allParams cmds).take (k + 1))).1 < 2147483648 →
        -2147483648 ≤ (deltaSum ((allParams cmds).take (k + 1))).2 →
        (deltaSum ((allParams cmds).take (k + 1))).2 < 2147483648 →
        (pointsOf t e (allParams cmds))[k]? = some
          (worldPoint t e (deltaSum ((allParams cmds).take (k + 1))).1
            (deltaSum ((allParams cmds).take (k + 1))).2))) ∧
    featureGeometry t e .POINT (encodeCommands cmds) =
      .ok (match pointsOf t e (allParams cmds) with
           | [p] => .point p
           | ps => .multiPoint ps) ∧
    ((allParams cmds).length ≠ 1 →
      featureGeometry t e .POINT (encodeCommands cmds) =
        .ok (.multiPoint (pointsOf t e (allParams cmds)))) := by
  have hwf' : ∀ c ∈ cmds, (c.id = 1 ∨ c.id = 2) ∧ c.params.length < 536870912 :=
    fun c hc => ⟨Or.inl (hwf c hc).1, (hwf c hc).2⟩
  have hrun := runGeometry_encodeCommands t e .POINT cmds hwf' hlen
  have hpts : (cmds.foldl (commandEffect t e .POINT) GeomState.init).outputPoints =
      pointsOf t e (allParams cmds) := by
    rw [commandEffect_moveTo_foldl t e .POINT cmds (fun c hc => (hwf c hc).1),
      foldl_moveToEmit_point]
    show [] ++ pointsFrom t e (0, 0) (allParams cmds) = _
    rw [List.nil_append, pointsFrom_zero]
  have hgeom : featureGeometry t e .POINT (encodeCommands cmds) =
      .ok (match pointsOf t e (allParams cmds) with
           | [p] => .point p
           | ps => .multiPoint ps) := by
    rw [featureGeometry_eq, hrun, ← hpts]
    rfl
  have hk : ∀ k, k < (allParams cmds).length →
      (pointsOf t e (allParams cmds))[k]? = some
        (worldPoint t e (toInt32 (deltaSum ((allParams cmds).take (k + 1))).1)
          (toInt32 (deltaSum ((allParams cmds).take (k + 1))).2)) := by
    intro k hk
    unfold pointsOf
    rw [List.getElem?_map, List.getElem?_range hk]
    rfl
  refine ⟨⟨_, hrun, hpts⟩, pointsOf_length t e _, ?_, hgeom, ?_⟩
  · intro k hklt
    refine ⟨hk k hklt, ?_⟩
    intro h1 h2 h3 h4
    rw [hk k hklt, toInt32_of_range _ h1 h2, toInt32_of_range _ h3 h4]
  · intro hN
    rw [hgeom]
    have hlen' := pointsOf_length t e (allParams cmds)
    cases hp : pointsOf t e (allParams cmds) with
    | nil => rfl
    | cons a rest =>
      cases rest with
      | nil =>
        rw [hp] at hlen'
        exact absurd hlen'.symm hN
      | cons b rest' => rfl

/-- C8, witness: one MoveTo with the two pairs (+1, +1), (+2, +2), stream
`[17, 2, 2, 4, 4]`. -/
theorem point_commands_witness :
    featureGeometry ⟨0, 0, 0⟩ 4096 .POINT (encodeCommands [⟨1, [(2, 2), (4, 4)]⟩]) =
      .ok (.multiPoint (pointsOf ⟨0, 0, 0⟩ 4096 (allParams [⟨1, [(2, 2), (4, 4)]⟩]))) :=
  (point_commands ⟨0, 0, 0⟩ 4096 [⟨1, [(2, 2), (4, 4)]⟩] (by decide) (by decide)).2.2.2.2
    (by decide)

/-- C8, counterexample: in the POINT stream `[17, 4294967294, 0, 4294967294, 0]` both
MoveTo repetitions decode to (+2147483647, 0); the sum of the two pairs is (4294967294, 0),
but the second point collected is the world image of (-2, 0), which is a different point. -/
theorem point_sum_wraps :
    zigzagDecode 4294967294 = 2147483647 ∧ zigzagDecode 0 = 0 ∧
    featureGeometry ⟨0, 0, 0⟩ 4096 .POINT [17, 4294967294, 0, 4294967294, 0] =
      .ok (.multiPoint [worldPoint ⟨0, 0, 0⟩ 4096 2147483647 0, worldPoint ⟨0, 0, 0⟩ 4096 (-2) 0]) ∧
    worldPoint ⟨0, 0, 0⟩ 4096 (-2) 0 ≠
      worldPoint ⟨0, 0, 0⟩ 4096 (2147483647 + 2147483647) (0 + 0) := by
  refine ⟨by decide, by decide, by rfl, by decide!⟩


/-! ## The bounds test of MoveTo and LineTo -/

theorem command_overrun (t : QgsTileXYZ) (e : Int) (ty : GeomType) (g : List Nat) (i : Nat)
    (st : GeomState) (w : Nat) (hw : geometryAt g i = .ok w)
    (hid : w &&& 7 = 1 ∨ w &&& 7 = 2) :
    (overruns g i (w >>> 3) = true → command t e ty g i st = .ok (.brk st)) ∧
    (overruns g i (w >>> 3) = false →
      ∀ st1, command t e ty g i st ≠ .ok (.brk st1)) := by
  constructor
  · intro hov
    rcases hid with hid | hid
    · rw [command_moveTo t e ty g i st w hw hid, if_pos hov]
    · rw [command_lineTo t e ty g i st w hw hid, if_pos hov]
  · intro hov st1
    rcases hid with hid | hid
    · rw [command_moveTo t e ty g i st w hw hid, hov]
      simp only [Bool.false_eq_true, if_false]
      cases repLoop (moveToRep t e ty g) (w >>> 3) i st <;> simp
    · rw [command_lineTo t e ty g i st w hw hid, hov]
      simp only [Bool.false_eq_true, if_false]
      cases repLoop (lineToRep t e g) (w >>> 3) i st <;> simp

/-- The repetition loop succeeds when all its parameter words are in the stream. -/
theorem repLoop_ok_of_fit (g : List Nat)
    (body : Nat → GeomState → Except DecodeError GeomState)
    (emit : GeomState → Nat → Nat → GeomState)
    (hbody : ∀ i st v w, geometryAt g (i + 1) = .ok v → geometryAt g (i + 2) = .ok w →
      body i st = .ok (emit st v w)) :
    ∀ (c i : Nat) (st : GeomState), i + 2 * c < g.length →
      ∃ st1, repLoop body c i st = .ok (i + 2 * c, st1) := by
  intro c
  induction c with
  | zero =>
    intro i st _
    exact ⟨st, rfl⟩
  | succ c ih =>
    intro i st hfit
    have hv := geometryAt_of_lt (g := g) (k := i + 1) (by omega)
    have hw := geometryAt_of_lt (g := g) (k := i + 2) (by omega)
    rw [repLoop_succ, hbody i st _ _ hv hw]
    dsimp only
    obtain ⟨st1, h1⟩ := ih (i + 2) (emit st _ _) (by omega)
    refine ⟨st1, ?_⟩
    rw [h1]
    congr 2
    omega

/-- The bounds test on the domain where `i + 2 * cmdCount` fits an `int` (every stream of
at most 2^30 words): a MoveTo or LineTo command at index `i` with count `c` is aborted
exactly when `i + 2 * c >= n`; the abort leaves the state as it was before the command and
ends the loop with it; otherwise all `c` repetitions are carried out and the loop index
ends at `i + 2 * c`. -/
theorem bounds_check_exact (t : QgsTileXYZ) (e : Int) (ty : GeomType) (g : List Nat) (i : Nat)
    (st : GeomState) (w : Nat) (hw : geometryAt g i = .ok w)
    (hid : w &&& 7 = 1 ∨ w &&& 7 = 2) (hfit : i + 2 * (w >>> 3) < 2147483648) :
    (command t e ty g i st = .ok (.brk st) ↔ g.length ≤ i + 2 * (w >>> 3)) ∧
    (g.length ≤ i + 2 * (w >>> 3) →
      ∀ fuel, geometryLoop t e ty g (fuel + 1) i st = .ok st) ∧
    (i + 2 * (w >>> 3) < g.length →
      ∃ st1, command t e ty g i st = .ok (.next (i + 2 * (w >>> 3)) st1)) := by
  have hwlt : w < 4294967296 := by
    unfold geometryAt at hw
    cases hg : g.get? i with
    | none => rw [hg] at hw; cases hw
    | some v =>
      rw [hg] at hw
      cases hw
      exact Nat.mod_lt _ (by decide)
  have hc : w >>> 3 < 536870912 := by
    rw [shiftRight_three]
    omega
  have hiff := overruns_iff g i (w >>> 3) hc hfit
  have hcmd := command_overrun t e ty g i st w hw hid
  refine ⟨⟨?_, fun h => hcmd.1 (hiff.mpr h)⟩, ?_, ?_⟩
  · intro hbrk
    cases hov : overruns g i (w >>> 3) with
    | true => exact hiff.mp hov
    | false => exact absurd hbrk (hcmd.2 hov st)
  · intro hge fuel
    rw [geometryLoop_succ t e ty g fuel i st (geometryAt_lt hw), hcmd.1 (hiff.mpr hge)]
  · intro hlt
    have hov : overruns g i (w >>> 3) = false := by
      cases hov : overruns g i (w >>> 3) with
      | false => rfl
      | true =>
        have := hiff.mp hov
        omega
    rcases hid with hid | hid
    · obtain ⟨st1, h1⟩ := repLoop_ok_of_fit g (moveToRep t e ty g) (moveToEmit t e ty)
        (fun i st v w hv hw => moveToRep_of_reads t e ty g i st v w hv hw) (w >>> 3) i st hlt
      refine ⟨st1, ?_⟩
      rw [command_moveTo t e ty g i st w hw hid, hov, h1]
      rfl
    · obtain ⟨st1, h1⟩ := repLoop_ok_of_fit g (lineToRep t e g) (lineToEmit t e)
        (fun i st v w hv hw => lineToRep_of_reads t e g i st v w hv hw) (w >>> 3) i st hlt
      refine ⟨st1, ?_⟩
      rw [command_lineTo t e ty g i st w hw hid, hov, h1]
      rfl

/-- Scenario 6: a LINESTRING with MoveTo(1) followed by a LineTo that declares 10
repetitions with only 2 pairs present keeps just the moved-to point. -/
theorem malformed_count_scenario (t : QgsTileXYZ) (e : Int) :
    featureGeometry t e .LINESTRING [9, 2, 2, 82, 2, 2, 2, 2] =
      .ok (.lineString [worldPoint t e 1 1]) := by
  have h0 : command t e .LINESTRING [9, 2, 2, 82, 2, 2, 2, 2] 0 GeomState.init =
      .ok (.next 2 { GeomState.init with cursorx := 1, cursory := 1,
                                          tmpPoints := [worldPoint t e 1 1] }) := by
    rfl
  have h3 := (bounds_check_exact t e .LINESTRING [9, 2, 2, 82, 2, 2, 2, 2] 3
    { GeomState.init with cursorx := 1, cursory := 1, tmpPoints := [worldPoint t e 1 1] } 82
    (by rfl) (Or.inr (by decide)) (by decide)).2.1 (by decide)
  have hloop : ∀ fuel, geometryLoop t e .LINESTRING [9, 2, 2, 82, 2, 2, 2, 2] (fuel + 1 + 1) 0
      GeomState.init = .ok { GeomState.init with cursorx := 1, cursory := 1,
                                                 tmpPoints := [worldPoint t e 1 1] } := by
    intro fuel
    rw [geometryLoop_succ t e .LINESTRING _ (fuel + 1) 0 _ (by decide), h0]
    exact h3 fuel
  have hrun : runGeometry t e .LINESTRING [9, 2, 2, 82, 2, 2, 2, 2] =
      .ok { GeomState.init with cursorx := 1, cursory := 1,
                                tmpPoints := [worldPoint t e 1 1] } := hloop 6
  rw [featureGeometry_eq, hrun]
  rfl

theorem repLoop_first_error (body : Nat → GeomState → Except DecodeError GeomState)
    (c i : Nat) (st : GeomState) (err : DecodeError) (hc : 0 < c)
    (h : body i st = .error err) : repLoop body c i st = .error err := by
  cases c with
  | zero => exact absurd hc (by decide)
  | succ c => rw [repLoop_succ, h]

/-- A run of ClosePath words in a feature that is not a polygon only advances the loop
index. -/
theorem geometryLoop_skip_closePath (t : QgsTileXYZ) (e : Int) (ty : GeomType)
    (hty : ty ≠ .POLYGON) (g : List Nat) (st : GeomState) :
    ∀ (m i fuel : Nat), (∀ j, i ≤ j → j < i + m → geometryAt g j = .ok 7) →
      geometryLoop t e ty g (fuel + m) i st = geometryLoop t e ty g fuel (i + m) st := by
  intro m
  induction m with
  | zero =>
    intro i fuel _
    rfl
  | succ m ih =>
    intro i fuel hall
    have hw := hall i (le_refl _) (by omega)
    have hcmd : command t e ty g i st = .ok (.next i st) := by
      rw [command_closePath t e ty g i st 7 hw (by decide), if_neg hty]
    rw [show fuel + (m + 1) = (fuel + m) + 1 by omega,
      geometryLoop_succ t e ty g (fuel + m) i st (geometryAt_lt hw), hcmd]
    dsimp only
    rw [ih (i + 1) fuel (fun j h1 h2 => hall j (by omega) (by omega))]
    congr 1
    omega

/-- The bounds test fails to abort when `i + 2 * cmdCount` does not fit an `int`: after `K`
ClosePath words of a POINT feature, a MoveTo word with count 536870911 at the end of the
stream passes the test and its first repetition reads past the end. -/
theorem bounds_check_wraps (t : QgsTileXYZ) (e : Int) (K : Nat) (h1 : 1073741826 ≤ K)
    (h2 : K < 3221225474) :
    overruns (List.replicate K 7 ++ [4294967289]) K 536870911 = false ∧
    runGeometry t e .POINT (List.replicate K 7 ++ [4294967289]) = .error .geometryIndex := by
  have hlen : (List.replicate K 7 ++ [4294967289]).length = K + 1 := by
    rw [List.length_append, List.length_replicate]
    rfl
  have hov : overruns (List.replicate K 7 ++ [4294967289]) K 536870911 = false := by
    unfold overruns
    rw [hlen, decide_eq_false_iff_not]
    unfold toInt32
    omega
  refine ⟨hov, ?_⟩
  have hall : ∀ j, 0 ≤ j → j < 0 + K →
      geometryAt (List.replicate K 7 ++ [4294967289]) j = .ok 7 := by
    intro j _ hj
    unfold geometryAt
    rw [List.get?_eq_getElem?, List.getElem?_append_left (by rw [List.length_replicate]; omega),
      List.getElem?_replicate, if_pos (by omega)]
  have hw : geometryAt (List.replicate K 7 ++ [4294967289]) K = .ok 4294967289 := by
    have h := geometryAt_append (List.replicate K 7) [] 4294967289 K
      (by rw [List.length_replicate])
    rw [h]
  have hread : moveToRep t e .POINT (List.replicate K 7 ++ [4294967289]) K GeomState.init =
      .error .geometryIndex := by
    unfold moveToRep
    rw [geometryAt_of_ge (by rw [hlen])]
    rfl
  have hcount : (4294967289 : Nat) >>> 3 = 536870911 := by decide
  have hrep := repLoop_first_error (moveToRep t e .POINT (List.replicate K 7 ++ [4294967289]))
    536870911 K GeomState.init .geometryIndex (by decide) hread
  have hcmd : command t e .POINT (List.replicate K 7 ++ [4294967289]) K GeomState.init =
      .error .geometryIndex := by
    rw [command_moveTo t e .POINT _ K GeomState.init 4294967289 hw (by decide), hcount,
      if_neg (by rw [hov]; decide), hrep]
  unfold runGeometry
  rw [hlen, show K + 1 = 1 + K by omega,
    geometryLoop_skip_closePath t e .POINT (by decide) _ GeomState.init K 0 1 hall,
    Nat.zero_add, geometryLoop_succ t e .POINT _ 0 K GeomState.init (by rw [hlen]; omega),
    hcmd]

/-- C1, the failing input: a POINT stream of 1073741826 ClosePath words followed by the
MoveTo word 4294967289 (count 536870911). None of the parameter pairs of the MoveTo is in
the stream, `i + 2 * c = 2^31 >= n`, yet the bounds test does not abort the command, and
the command loop reads the stream out of range. -/
theorem bounds_check_overflow :
    (List.replicate 1073741826 7 ++ [4294967289]).length ≤ 1073741826 + 2 * 536870911 ∧
    overruns (List.replicate 1073741826 7 ++ [4294967289]) 1073741826 536870911 = false ∧
    runGeometry ⟨0, 0, 0⟩ 4096 .POINT (List.replicate 1073741826 7 ++ [4294967289]) =
      .error .geometryIndex := by
  refine ⟨?_, bounds_check_wraps ⟨0, 0, 0⟩ 4096 1073741826 (by decide) (by decide)⟩
  rw [List.length_append, List.length_replicate]
  decide


/-! ## Tag pairs whose value index is out of range -/

/-- A value index in `[values.length, 2^31)` is skipped: the pair leaves the attributes as
they are and the value pool is not read. -/
theorem value_index_skipped (m : List (Int × Int)) (values : List Tile_Value) (k v : Nat)
    (attrs : List QVariant) (rest : List Nat) (hv : values.length ≤ v % 4294967296)
    (h31 : v % 4294967296 < 2147483648) :
    tagPair m values k v attrs = .ok attrs ∧
    attributeLoop m values (k :: v :: rest) attrs = attributeLoop m values rest attrs := by
  have hpair : tagPair m values k v attrs = .ok attrs := by
    unfold tagPair
    dsimp only
    split
    · rfl
    · rw [if_pos]
      · rfl
      · rw [toInt32_of_range _ (by omega) (by omega)]
        omega
  refine ⟨hpair, ?_⟩
  rw [attributeLoop, hpair]
  rfl

/-- A value index of 2^31 or more becomes a negative `int`, passes the range test and is
used to read the value pool. -/
theorem value_index_negative (m : List (Int × Int)) (values : List Tile_Value) (k v : Nat)
    (attrs : List QVariant) (rest : List Nat)
    (hkey : hashValue m (toInt32 ((k % 4294967296 : Nat) : Int)) (-1) ≠ -1)
    (h31 : 2147483648 ≤ v % 4294967296) :
    tagPair m values k v attrs = .error .valueIndex ∧
    attributeLoop m values (k :: v :: rest) attrs = .error .valueIndex := by
  have hneg : toInt32 ((v % 4294967296 : Nat) : Int) < 0 := by
    unfold toInt32
    omega
  have hpair : tagPair m values k v attrs = .error .valueIndex := by
    unfold tagPair
    dsimp only
    rw [if_neg hkey, if_neg (by omega)]
    unfold valuesAt
    rw [if_neg (by omega)]
    rfl
  refine ⟨hpair, ?_⟩
  rw [attributeLoop, hpair]
  rfl

/-- C3, the failing input: schema `["a"]`, layer keys `["a"]`, empty value pool, tags
`[0, 2147483648]`. The value index 2^31 is not below `values.length = 0`, yet the pair is
not skipped: the index is cast to the `int` -2^31, passes the test
`valueIndex >= layer.values_size()` and is used to read the value pool out of range.
Without the pair the feature decodes. -/
theorem value_index_cast_overflow :
    toInt32 ((2147483648 % 4294967296 : Nat) : Int) = -2147483648 ∧
    tagPair (tagKeyIndexToFieldIndex ["a"] ["a"] 0) [] 0 2147483648 [QVariant.null] =
      .error .valueIndex ∧
    decodeFeature ⟨0, 0, 0⟩ ["a"] ⟨"layer", 4096, ["a"], [], []⟩
      ⟨1, .POINT, [0, 2147483648], []⟩ = .error .valueIndex ∧
    decodeFeature ⟨0, 0, 0⟩ ["a"] ⟨"layer", 4096, ["a"], [], []⟩ ⟨1, .POINT, [], []⟩ =
      .ok { id := 1, attributes := [QVariant.null], geometry := .multiPoint [] } := by
  refine ⟨by decide, by decide!, by decide!, by decide!⟩


/-! ## Independence of the features of a layer -/

theorem featureLoop_ok (t : QgsTileXYZ) (layerFields : List String) (ct : Geometry → Geometry)
    (layer : Tile_Layer) :
    ∀ (features : List Tile_Feature) (acc out : List QgsFeature),
      featureLoop t layerFields ct layer features acc = .ok out →
      ∃ decoded : List QgsFeature,
        out = acc ++ decoded ∧ decoded.length = features.length ∧
        ∀ (k : Nat) (feature : Tile_Feature), features[k]? = some feature →
          ∃ f, decodeFeature t layerFields layer feature = .ok f ∧
            decoded[k]? = some { f with geometry := ct f.geometry } := by
  intro features
  induction features with
  | nil =>
    intro acc out h
    cases h
    exact ⟨[], by simp, rfl, fun k feature hk => by simp at hk⟩
  | cons feature rest ih =>
    intro acc out h
    rw [featureLoop] at h
    cases hd : decodeFeature t layerFields layer feature with
    | error err =>
      rw [hd] at h
      cases h
    | ok f =>
      rw [hd] at h
      obtain ⟨decoded, hout, hlen, hall⟩ := ih _ out h
      refine ⟨{ f with geometry := ct f.geometry } :: decoded, ?_, ?_, ?_⟩
      · rw [hout]
        simp
      · simp [hlen]
      · intro k feature' hk
        cases k with
        | zero =>
          simp only [List.getElem?_cons_zero, Option.some.injEq] at hk
          subst hk
          exact ⟨f, hd, List.getElem?_cons_zero⟩
        | succ k =>
          simp only [List.getElem?_cons_succ] at hk
          obtain ⟨f', hf', hk'⟩ := hall k feature' hk
          exact ⟨f', hf', by simpa using hk'⟩

/-- The features decoded for a layer are the decoded input features, position by
position. -/
theorem decodeLayer_ok (t : QgsTileXYZ) (layerFields : List String) (ct : Geometry → Geometry)
    (layer : Tile_Layer) (out : List QgsFeature)
    (h : decodeLayer t layerFields ct layer = .ok out) :
    out.length = layer.features.length ∧
    ∀ (k : Nat) (feature : Tile_Feature), layer.features[k]? = some feature →
      ∃ f, decodeFeature t layerFields layer feature = .ok f ∧
        out[k]? = some { f with geometry := ct f.geometry } := by
  obtain ⟨decoded, hout, hlen, hall⟩ := featureLoop_ok t layerFields ct layer _ _ _ h
  rw [List.nil_append] at hout
  subst hout
  exact ⟨hlen, hall⟩

/-- The decoding of a feature reads only the keys, the values and the extent of its
layer. -/
theorem decodeFeature_congr (t : QgsTileXYZ) (layerFields : List String)
    (layer1 layer2 : Tile_Layer) (feature : Tile_Feature)
    (hkeys : layer1.keys = layer2.keys) (hvalues : layer1.values = layer2.values)
    (hextent : layer1.extent = layer2.extent) :
    decodeFeature t layerFields layer1 feature = decodeFeature t layerFields layer2 feature := by
  unfold decodeFeature
  rw [hkeys, hvalues, hextent]

theorem decodeFeature_eq (t : QgsTileXYZ) (layerFields : List String)
    (layer : Tile_Layer) (feature : Tile_Feature) :
    decodeFeature t layerFields layer feature =
      match attributeLoop (tagKeyIndexToFieldIndex layerFields layer.keys 0) layer.values
          feature.tags (List.replicate layerFields.length QVariant.null) with
      | .error err => .error err
      | .ok attrs =>
        match featureGeometry t (toInt32 ((layer.extent % 4294967296 : Nat) : Int))
            feature.type feature.geometry with
        | .error err => .error err
        | .ok geom =>
          .ok { id := toInt64 (feature.id : Int)
                attributes := setAttribute attrs (fieldsIndexOf layerFields "_geom_type")
                  (.string (geomTypeName feature.type))
                geometry := geom } := by
  unfold decodeFeature
  dsimp only
  generalize attributeLoop (tagKeyIndexToFieldIndex layerFields layer.keys 0) layer.values
    feature.tags (List.replicate layerFields.length QVariant.null) = r1
  generalize featureGeometry t (toInt32 ((layer.extent % 4294967296 : Nat) : Int))
    feature.type feature.geometry = r2
  cases r1 with
  | error err => rfl
  | ok attrs => cases r2 <;> rfl

/-- The geometry of a decoded feature is the one its own command loop produces. -/
theorem decodeFeature_geometry (t : QgsTileXYZ) (layerFields : List String)
    (layer : Tile_Layer) (feature : Tile_Feature) (f : QgsFeature)
    (h : decodeFeature t layerFields layer feature = .ok f) :
    featureGeometry t (toInt32 ((layer.extent % 4294967296 : Nat) : Int)) feature.type
      feature.geometry = .ok f.geometry := by
  rw [decodeFeature_eq] at h
  generalize attributeLoop (tagKeyIndexToFieldIndex layerFields layer.keys 0) layer.values
    feature.tags (List.replicate layerFields.length QVariant.null) = r1 at h
  generalize featureGeometry t (toInt32 ((layer.extent % 4294967296 : Nat) : Int))
    feature.type feature.geometry = r2 at h ⊢
  cases r1 with
  | error err => cases h
  | ok attrs =>
    cases r2 with
    | error err => cases h
    | ok geom =>
      have hf := Except.ok.inj h
      rw [← hf]

/-- C10: the command loop of every feature starts at index 0 in the initial state, whose
cursor is (0, 0), and the geometry of the decoded feature is the result of that loop; the
output produced for a feature depends only on the feature, the keys, values and extent of
its layer, the field schema, the tile id and the CRS transform:
if two layers with the same keys, values and extent both decode and contain the same
feature, at positions `k1` and `k2`, then the outputs at these positions are equal, whatever
the other features of the two layers are and wherever the feature stands. -/
theorem feature_output_independent (t : QgsTileXYZ) (layerFields : List String)
    (ct : Geometry → Geometry) (layer1 layer2 : Tile_Layer) (out1 out2 : List QgsFeature)
    (feature : Tile_Feature) (k1 k2 : Nat)
    (hkeys : layer1.keys = layer2.keys) (hvalues : layer1.values = layer2.values)
    (hextent : layer1.extent = layer2.extent)
    (h1 : decodeLayer t layerFields ct layer1 = .ok out1)
    (h2 : decodeLayer t layerFields ct layer2 = .ok out2)
    (hk1 : layer1.features[k1]? = some feature)
    (hk2 : layer2.features[k2]? = some feature) :
    (runGeometry t (toInt32 ((layer1.extent % 4294967296 : Nat) : Int)) feature.type
        feature.geometry =
      geometryLoop t (toInt32 ((layer1.extent % 4294967296 : Nat) : Int)) feature.type
        feature.geometry feature.geometry.length 0 GeomState.init ∧
      GeomState.init.cursorx = 0 ∧ GeomState.init.cursory = 0) ∧
    (∃ f, decodeFeature t layerFields layer1 feature = .ok f ∧
      featureGeometry t (toInt32 ((layer1.extent % 4294967296 : Nat) : Int)) feature.type
        feature.geometry = .ok f.geometry ∧
      out1[k1]? = some { f with geometry := ct f.geometry } ∧
      out2[k2]? = some { f with geometry := ct f.geometry }) ∧
    out1[k1]? = out2[k2]? := by
  obtain ⟨f1, hf1, ho1⟩ := (decodeLayer_ok t layerFields ct layer1 out1 h1).2 k1 feature hk1
  obtain ⟨f2, hf2, ho2⟩ := (decodeLayer_ok t layerFields ct layer2 out2 h2).2 k2 feature hk2
  rw [← decodeFeature_congr t layerFields layer1 layer2 feature hkeys hvalues hextent, hf1]
    at hf2
  cases hf2
  exact ⟨⟨rfl, rfl, rfl⟩,
    ⟨f1, hf1, decodeFeature_geometry t layerFields layer1 feature f1 hf1, ho1, ho2⟩,
    by rw [ho1, ho2]⟩

/-- C10, witness: a feature with a large cursor movement stands first in one layer and
second, after a feature that moves the cursor too, in another layer with the same keys,
values and extent. -/
theorem feature_output_independent_witness :
    (([{ id := 7, attributes := [], geometry := Geometry.point (worldPoint ⟨0, 0, 0⟩ 4096 1 1) }] :
        List QgsFeature))[0]? =
      ([{ id := 8, attributes := [], geometry := Geometry.point (worldPoint ⟨0, 0, 0⟩ 4096 100 50) },
        { id := 7, attributes := [], geometry := Geometry.point (worldPoint ⟨0, 0, 0⟩ 4096 1 1) }] :
        List QgsFeature)[1]? :=
  (feature_output_independent ⟨0, 0, 0⟩ [] (fun geom => geom)
    ⟨"a", 4096, [], [], [⟨7, .POINT, [], [9, 2, 2]⟩]⟩
    ⟨"b", 4096, [], [], [⟨8, .POINT, [], [9, 200, 100]⟩, ⟨7, .POINT, [], [9, 2, 2]⟩]⟩
    _ _ ⟨7, .POINT, [], [9, 2, 2]⟩ 0 1 rfl rfl rfl (by decide!) (by decide!) rfl rfl).2.2


/-! ## Termination and reads of the command loop -/

theorem geometryAt_word_lt {g : List Nat} {k w : Nat} (h : geometryAt g k = .ok w) :
    w < 4294967296 := by
  unfold geometryAt at h
  cases hg : g.get? k with
  | none => rw [hg] at h; cases h
  | some v =>
    rw [hg] at h
    cases h
    exact Nat.mod_lt _ (by decide)

theorem closePath_cases (st : GeomState) :
    (∃ st1, closePath st = .ok st1) ∨ closePath st = .error .emptyRingFirst := by
  cases hh : st.tmpPoints.head? with
  | none =>
    right
    unfold closePath
    rw [hh]
  | some first => exact Or.inl ⟨_, closePath_of_head hh⟩

/-- On a stream of fewer than 2^30 words, the body of the command loop at an index inside
the stream reads only inside the stream: it breaks, or it ends at an index `i1` with
`i <= i1 < n`, or it is a ClosePath of a polygon feature whose ring is empty. -/
theorem command_in_range (t : QgsTileXYZ) (e : Int) (ty : GeomType) (g : List Nat)
    (hn : g.length < 1073741824) (i : Nat) (st : GeomState) (hi : i < g.length) :
    (∃ st1, command t e ty g i st = .ok (.brk st1)) ∨
    (∃ i1 st1, command t e ty g i st = .ok (.next i1 st1) ∧ i ≤ i1 ∧ i1 < g.length) ∨
    (ty = .POLYGON ∧ command t e ty g i st = .error .emptyRingFirst) := by
  have hw := geometryAt_of_lt hi
  generalize g.get ⟨i, hi⟩ % 4294967296 = w at hw
  have hwlt := geometryAt_word_lt hw
  have hc : w >>> 3 < 536870912 := by
    rw [shiftRight_three]
    omega
  by_cases h12 : w &&& 7 = 1 ∨ w &&& 7 = 2
  · have hex := bounds_check_exact t e ty g i st w hw h12 (by omega)
    by_cases hfit : i + 2 * (w >>> 3) < g.length
    · obtain ⟨st1, h1⟩ := hex.2.2 hfit
      exact Or.inr (Or.inl ⟨_, st1, h1, by omega, hfit⟩)
    · exact Or.inl ⟨st, hex.1.mpr (by omega)⟩
  · have h1 : w &&& 7 ≠ 1 := fun h => h12 (Or.inl h)
    have h2 : w &&& 7 ≠ 2 := fun h => h12 (Or.inr h)
    by_cases h7 : w &&& 7 = 7
    · rw [command_closePath t e ty g i st w hw h7]
      by_cases hty : ty = .POLYGON
      · rw [if_pos hty]
        rcases closePath_cases st with ⟨st1, hcp⟩ | hcp
        · rw [hcp]
          exact Or.inr (Or.inl ⟨i, st1, rfl, le_refl _, hi⟩)
        · rw [hcp]
          exact Or.inr (Or.inr ⟨hty, rfl⟩)
      · rw [if_neg hty]
        exact Or.inr (Or.inl ⟨i, st, rfl, le_refl _, hi⟩)
    · rw [command_unknown t e ty g i st w hw h1 h2 h7]
      exact Or.inr (Or.inl ⟨i, st, rfl, le_refl _, hi⟩)

/-- With at least `n - i` iterations allowed, the command loop started at index `i` ends:
with a state, or at a ClosePath of a polygon feature whose ring is empty. -/
theorem geometryLoop_ends (t : QgsTileXYZ) (e : Int) (ty : GeomType) (g : List Nat)
    (hn : g.length < 1073741824) :
    ∀ (fuel i : Nat) (st : GeomState), g.length ≤ i + fuel →
      (∃ st1, geometryLoop t e ty g fuel i st = .ok st1) ∨
      (ty = .POLYGON ∧ geometryLoop t e ty g fuel i st = .error .emptyRingFirst) := by
  intro fuel
  induction fuel with
  | zero =>
    intro i st hfuel
    exact Or.inl ⟨st, geometryLoop_done t e ty g 0 i st (by omega)⟩
  | succ fuel ih =>
    intro i st hfuel
    by_cases hi : i < g.length
    · rw [geometryLoop_succ t e ty g fuel i st hi]
      rcases command_in_range t e ty g hn i st hi with ⟨st1, h⟩ | ⟨i1, st1, h, hle, _⟩ | ⟨hty, h⟩
      · rw [h]
        exact Or.inl ⟨st1, rfl⟩
      · rw [h]
        exact ih (i1 + 1) st1 (by omega)
      · rw [h]
        exact Or.inr ⟨hty, rfl⟩
    · exact Or.inl ⟨st, geometryLoop_done t e ty g (fuel + 1) i st (by omega)⟩

/-- The command loop of a feature: it ends with a state, or, for a polygon feature only,
at a ClosePath whose ring is empty. -/
theorem command_loop_total (t : QgsTileXYZ) (e : Int) (ty : GeomType) (g : List Nat)
    (hn : g.length < 1073741824) :
    ((∃ st, runGeometry t e ty g = .ok st) ∨
      (ty = .POLYGON ∧ runGeometry t e ty g = .error .emptyRingFirst)) ∧
    (ty ≠ .POLYGON → ∃ st, runGeometry t e ty g = .ok st) := by
  have hrun := geometryLoop_ends t e ty g hn g.length 0 GeomState.init (by omega)
  refine ⟨hrun, fun hty => ?_⟩
  rcases hrun with h | ⟨hpoly, _⟩
  · exact h
  · exact absurd hpoly hty

/-- C20: on a geometry stream of n < 2^30 words, for every feature type, the command loop
ends within its n iterations (with a state, or, for a polygon feature only, at a ClosePath
whose ring is empty); no read of the stream is out of range, neither in a run from index 0
nor in the loop body at any index inside the stream from any state; and the loop body
leaves the index at some `i1` with `i <= i1 < n`, so that after the `i ++` of the loop
header the index has strictly increased. -/
theorem command_loop_terminates_in_range (t : QgsTileXYZ) (e : Int) (ty : GeomType)
    (g : List Nat) (hn : g.length < 1073741824) :
    ((∃ st, runGeometry t e ty g = .ok st) ∨
      (ty = .POLYGON ∧ runGeometry t e ty g = .error .emptyRingFirst)) ∧
    (ty ≠ .POLYGON → ∃ st, runGeometry t e ty g = .ok st) ∧
    runGeometry t e ty g ≠ .error .geometryIndex ∧
    runGeometry t e ty g ≠ .error .fuel ∧
    (∀ (i : Nat) (st : GeomState), i < g.length →
      command t e ty g i st ≠ .error .geometryIndex ∧
      ∀ i1 st1, command t e ty g i st = .ok (.next i1 st1) → i < i1 + 1 ∧ i1 < g.length) := by
  have hrun := geometryLoop_ends t e ty g hn g.length 0 GeomState.init (by omega)
  refine ⟨hrun, ?_, ?_, ?_, ?_⟩
  · intro hty
    rcases hrun with h | ⟨hpoly, _⟩
    · exact h
    · exact absurd hpoly hty
  · rcases hrun with ⟨st, h⟩ | ⟨_, h⟩
    · unfold runGeometry
      rw [h]
      exact fun hc => by cases hc
    · unfold runGeometry
      rw [h]
      exact fun hc => by cases hc
  · rcases hrun with ⟨st, h⟩ | ⟨_, h⟩
    · unfold runGeometry
      rw [h]
      exact fun hc => by cases hc
    · unfold runGeometry
      rw [h]
      exact fun hc => by cases hc
  · intro i st hi
    rcases command_in_range t e ty g hn i st hi with ⟨st1, h⟩ | ⟨i1, st1, h, hle, hlt⟩ | ⟨_, h⟩
    · rw [h]
      constructor
      · intro hc
        cases hc
      · intro i1 st1 hc
        cases hc
    · rw [h]
      constructor
      · intro hc
        cases hc
      · intro i2 st2 hc
        cases hc
        exact ⟨by omega, hlt⟩
    · rw [h]
      constructor
      · intro hc
        cases hc
      · intro i1 st1 hc
        cases hc

/-- C20, witness: the LINESTRING stream `[9, 0, 0, 18, 10, 0, 0, 10]`. -/
theorem command_loop_terminates_in_range_witness :
    ∃ st, runGeometry ⟨0, 0, 0⟩ 4096 .LINESTRING [9, 0, 0, 18, 10, 0, 0, 10] = .ok st :=
  (command_loop_terminates_in_range ⟨0, 0, 0⟩ 4096 .LINESTRING [9, 0, 0, 18, 10, 0, 0, 10]
    (by decide)).2.1 (by decide)


/-! ## ClosePath on an empty ring -/

/-- C19, the failing inputs: in a POLYGON feature a ClosePath that is the first command of
the stream, `[15]`, or that directly follows another ClosePath,
`[9, 0, 0, 18, 10, 0, 0, 10, 15, 15]`, is interpreted while `tmpPoints` is empty, and
`tmpPoints.first()` is taken of an empty vector. -/
theorem closePath_on_empty_ring :
    closePath GeomState.init = .error .emptyRingFirst ∧
    runGeometry ⟨0, 0, 0⟩ 4096 .POLYGON [15] = .error .emptyRingFirst ∧
    runGeometry ⟨0, 0, 0⟩ 4096 .POLYGON [9, 0, 0, 18, 10, 0, 0, 10, 15, 15] =
      .error .emptyRingFirst := by
  refine ⟨rfl, by decide!, by decide!⟩

/-- ClosePath fails exactly when the current ring is empty, and it leaves it empty. -/
theorem closePath_error_iff (st : GeomState) :
    (closePath st = .error .emptyRingFirst ↔ st.tmpPoints = []) ∧
    ∀ st1, closePath st = .ok st1 → st1.tmpPoints = [] := by
  constructor
  · constructor
    · intro h
      cases hh : st.tmpPoints with
      | nil => rfl
      | cons a rest =>
        have hhead : st.tmpPoints.head? = some a := by rw [hh]; rfl
        rw [closePath_of_head hhead] at h
        cases h
    · intro h
      unfold closePath
      rw [h]
      rfl
  · intro st1 h
    obtain ⟨first, _, rfl⟩ := closePath_ok h
    rfl

/-! ## MoveTo in a polygon feature -/

/-- C18, as the code has it: in a POLYGON feature a MoveTo repetition appends the moved-to
point to the current ring and leaves everything else but the cursor as it is. Right after
it the ring consists of exactly the moved-to point if and only if the ring was empty
before, as it is at the start of the feature and after every ClosePath. A ring emitted at a
ClosePath is the whole of `tmpPoints`, that is every point appended by MoveTo and LineTo
repetitions since the ring was last empty, followed by a copy of the first of them. -/
theorem polygon_moveTo_appends (t : QgsTileXYZ) (e : Int) (st : GeomState) (v w : Nat) :
    (moveToEmit t e .POLYGON st v w).tmpPoints =
      st.tmpPoints ++ [worldPoint t e (toInt32 (st.cursorx + zigzagDecode v))
        (toInt32 (st.cursory + zigzagDecode w))] ∧
    (moveToEmit t e .POLYGON st v w).outputPolygons = st.outputPolygons ∧
    (moveToEmit t e .POLYGON st v w).closedRings = st.closedRings ∧
    ((moveToEmit t e .POLYGON st v w).tmpPoints =
        [worldPoint t e (toInt32 (st.cursorx + zigzagDecode v))
          (toInt32 (st.cursory + zigzagDecode w))] ↔ st.tmpPoints = []) ∧
    GeomState.init.tmpPoints = [] ∧
    (∀ s s1, closePath s = .ok s1 →
      s1.tmpPoints = [] ∧
      ∃ first, s.tmpPoints.head? = some first ∧
        s1.closedRings = s.closedRings ++ [s.tmpPoints ++ [first]]) := by
  refine ⟨rfl, rfl, rfl, ?_, rfl, ?_⟩
  · show st.tmpPoints ++ [_] = [_] ↔ _
    constructor
    · intro h
      cases hs : st.tmpPoints with
      | nil => rfl
      | cons a rest =>
        rw [hs] at h
        simp at h
    · intro h
      rw [h]
      rfl
  · intro s s1 h
    obtain ⟨first, hfirst, rfl⟩ := closePath_ok h
    exact ⟨rfl, first, hfirst, rfl⟩

/-- C18, counterexample: after the second repetition of the MoveTo of count 2 in the POLYGON
stream `[17, 0, 0, 10, 0]` the current ring holds two points; and in
`[9, 0, 0, 18, 10, 0, 0, 10, 9, 20, 0, 18, 10, 0, 0, 10, 15]`, where the first ring is not closed
before the second MoveTo, the ring emitted at the ClosePath starts at the point of the
first MoveTo and holds the three points that precede the second MoveTo. -/
theorem polygon_moveTo_does_not_seed :
    runGeometry ⟨0, 0, 0⟩ 4096 .POLYGON [17, 0, 0, 10, 0] =
      .ok { GeomState.init with
            cursorx := 5, cursory := 0,
            tmpPoints := [worldPoint ⟨0, 0, 0⟩ 4096 0 0, worldPoint ⟨0, 0, 0⟩ 4096 5 0] } ∧
    (runGeometry ⟨0, 0, 0⟩ 4096 .POLYGON
        [9, 0, 0, 18, 10, 0, 0, 10, 9, 20, 0, 18, 10, 0, 0, 10, 15]).map
        (fun st => st.closedRings) =
      .ok [[worldPoint ⟨0, 0, 0⟩ 4096 0 0, worldPoint ⟨0, 0, 0⟩ 4096 5 0,
            worldPoint ⟨0, 0, 0⟩ 4096 5 5, worldPoint ⟨0, 0, 0⟩ 4096 15 5,
            worldPoint ⟨0, 0, 0⟩ 4096 20 5, worldPoint ⟨0, 0, 0⟩ 4096 20 10,
            worldPoint ⟨0, 0, 0⟩ 4096 0 0]] := by
  refine ⟨by decide!, by decide!⟩

/-! ## Lines with fewer than two points -/

theorem assemble_lines (st : GeomState) :
    (assemble .LINESTRING st).lines = st.outputLinestrings ++ [st.tmpPoints] := by
  unfold assemble
  dsimp only
  split
  · rename_i l hl
    rw [hl]
    rfl
  · rfl

/-- C12, as the code has it: the geometry of a LINESTRING feature is either the single
LineString without points, as for the empty stream, or every LineString in it has at least
one point. A line may have fewer than two points: a stream that holds only a MoveTo gives
a LineString of one point. -/
theorem linestring_point_counts (t : QgsTileXYZ) (e : Int) (g : List Nat) (geom : Geometry)
    (h : featureGeometry t e .LINESTRING g = .ok geom) :
    (geom = .lineString [] ∨ ∀ l ∈ geom.lines, 1 ≤ l.length) ∧
    featureGeometry t e .LINESTRING [] = .ok (.lineString []) ∧
    featureGeometry t e .LINESTRING [9, 2, 2] = .ok (.lineString [worldPoint t e 1 1]) := by
  refine ⟨?_, rfl, rfl⟩
  rw [featureGeometry_eq] at h
  cases hrun : runGeometry t e .LINESTRING g with
  | error err => rw [hrun] at h; cases h
  | ok st =>
    rw [hrun] at h
    have hgeom := Except.ok.inj h
    have hinv := geometryLoop_inv
      (fun s => (∀ l ∈ s.outputLinestrings, l ≠ []) ∧
        (s.tmpPoints = [] → s.outputLinestrings = []))
      t e .LINESTRING g ?_ ?_ ?_ g.length 0 GeomState.init st ?_ hrun
    · obtain ⟨hall, hempty⟩ := hinv
      by_cases htmp : st.tmpPoints = []
      · left
        rw [← hgeom]
        unfold assemble
        rw [hempty htmp, htmp]
        rfl
      · right
        intro l hl
        rw [← hgeom, assemble_lines] at hl
        rcases List.mem_append.mp hl with hl | hl
        · exact List.length_pos.mpr (hall l hl)
        · rw [List.mem_singleton] at hl
          rw [hl]
          exact List.length_pos.mpr htmp
    · rintro s v w ⟨hall, hempty⟩
      unfold moveToEmit
      dsimp only
      by_cases hlen : s.tmpPoints.length > 0
      · rw [if_pos hlen]
        refine ⟨?_, fun hnil => by simp at hnil⟩
        intro l hl
        rcases List.mem_append.mp hl with hl | hl
        · exact hall l hl
        · rw [List.mem_singleton] at hl
          rw [hl]
          exact List.length_pos.mp hlen
      · rw [if_neg hlen]
        exact ⟨hall, fun hnil => by simp at hnil⟩
    · rintro s v w ⟨hall, hempty⟩
      exact ⟨hall, fun hnil => by simp [lineToEmit] at hnil⟩
    · intro s s' hty
      cases hty
    · constructor
      · intro l hl
        cases hl
      · intro _
        rfl

/-- C12, witness: the stream `[9, 0, 0, 18, 10, 0, 0, 10]`, whose LineString has three
points. -/
theorem linestring_point_counts_witness :
    Geometry.lineString [worldPoint ⟨0, 0, 0⟩ 4096 0 0, worldPoint ⟨0, 0, 0⟩ 4096 5 0,
        worldPoint ⟨0, 0, 0⟩ 4096 5 5] = .lineString [] ∨
      ∀ l ∈ (Geometry.lineString [worldPoint ⟨0, 0, 0⟩ 4096 0 0, worldPoint ⟨0, 0, 0⟩ 4096 5 0,
        worldPoint ⟨0, 0, 0⟩ 4096 5 5]).lines, 1 ≤ l.length :=
  (linestring_point_counts ⟨0, 0, 0⟩ 4096 [9, 0, 0, 18, 10, 0, 0, 10] _
    (linestring_encodeCommands ⟨0, 0, 0⟩ 4096 [⟨1, [(0, 0)]⟩, ⟨2, [(10, 0), (0, 10)]⟩]
      (by decide) (by decide))).1

/-- C12, counterexample: the LineString of the empty stream has no point and the
LineString of the stream `[9, 2, 2]`, which holds only a MoveTo, has one point. -/
theorem linestring_with_fewer_than_two_points :
    featureGeometry ⟨0, 0, 0⟩ 4096 .LINESTRING [] = .ok (.lineString []) ∧
    featureGeometry ⟨0, 0, 0⟩ 4096 .LINESTRING [9, 2, 2] =
      .ok (.lineString [worldPoint ⟨0, 0, 0⟩ 4096 1 1]) ∧
    ([] : List QgsPoint).length < 2 ∧ [worldPoint ⟨0, 0, 0⟩ 4096 1 1].length < 2 := by
  refine ⟨rfl, rfl, by decide, by decide⟩


/-! ## Integer values and odd tag lists -/

theorem toInt32_emod (z : Int) : toInt32 z % 4294967296 = z % 4294967296 := by
  unfold toInt32
  omega

theorem toInt32_eq_self_iff (z : Int) :
    toInt32 z = z ↔ -2147483648 ≤ z ∧ z ≤ 2147483647 := by
  unfold toInt32
  omega

/-- The attribute loop body for a pair whose key maps to a field and whose value index is
inside the pool. -/
theorem tagPair_assign (m : List (Int × Int)) (values : List Tile_Value) (k v : Nat)
    (attrs : List QVariant) (value : Tile_Value)
    (hkey : hashValue m (toInt32 ((k % 4294967296 : Nat) : Int)) (-1) ≠ -1)
    (hv : v % 4294967296 < values.length) (h31 : v % 4294967296 < 2147483648)
    (hval : values.get? (v % 4294967296) = some value) :
    tagPair m values k v attrs =
      match variantOf value with
      | some q => .ok (setAttribute attrs (hashValue m (toInt32 ((k % 4294967296 : Nat) : Int)) (-1)) q)
      | none => .ok attrs := by
  have hidx : toInt32 ((v % 4294967296 : Nat) : Int) = ((v % 4294967296 : Nat) : Int) :=
    toInt32_of_range _ (by omega) (by omega)
  unfold tagPair
  dsimp only
  rw [if_neg hkey, hidx, if_neg (by omega)]
  unfold valuesAt
  rw [if_pos (by omega), Int.toNat_ofNat, hval]
  show (match variantOf value with
    | some q => (pure (setAttribute attrs
        (hashValue m (toInt32 ((k % 4294967296 : Nat) : Int)) (-1)) q) :
          Except DecodeError (List QVariant))
    | none => pure attrs) = _
  cases variantOf value <;> rfl

/-- C13: a value whose active variant is int64, uint64 or sint64 with value `v` is
dispatched to the 32-bit signed integer congruent to `v` modulo 2^32, and this is the
attribute assigned to the mapped field; every `v` in [-2^31, 2^31 - 1] is stored unchanged
and every other `v` is stored as a different number. -/
theorem integer_values_truncated (v : Int) (u : Nat) :
    variantOf (intValue v) = some (.int (toInt32 v)) ∧
    variantOf (uintValue u) = some (.int (toInt32 (u : Int))) ∧
    variantOf (sintValue v) = some (.int (toInt32 v)) ∧
    (-2147483648 ≤ toInt32 v ∧ toInt32 v ≤ 2147483647 ∧
      toInt32 v % 4294967296 = v % 4294967296) ∧
    (toInt32 v = v ↔ -2147483648 ≤ v ∧ v ≤ 2147483647) ∧
    (toInt32 (u : Int) = (u : Int) ↔ u ≤ 2147483647) ∧
    (∀ (m : List (Int × Int)) (values : List Tile_Value) (k i : Nat) (attrs : List QVariant)
        (value : Tile_Value) (n : Int),
      hashValue m (toInt32 ((k % 4294967296 : Nat) : Int)) (-1) ≠ -1 →
      i % 4294967296 < values.length → i % 4294967296 < 2147483648 →
      values.get? (i % 4294967296) = some value →
      (value = intValue n ∨ value = sintValue n ∨ (0 ≤ n ∧ value = uintValue n.toNat)) →
      tagPair m values k i attrs =
        .ok (setAttribute attrs (hashValue m (toInt32 ((k % 4294967296 : Nat) : Int)) (-1))
          (.int (toInt32 n)))) := by
  refine ⟨rfl, rfl, rfl, ?_, toInt32_eq_self_iff v, ?_, ?_⟩
  · have h := toInt32_range v
    exact ⟨h.1, by omega, toInt32_emod v⟩
  · rw [toInt32_eq_self_iff]
    omega
  · intro m values k i attrs value n hkey hv h31 hval hvariant
    rw [tagPair_assign m values k i attrs value hkey hv h31 hval]
    rcases hvariant with rfl | rfl | ⟨hn, rfl⟩
    · rfl
    · rfl
    · show Except.ok (setAttribute attrs _ (.int (toInt32 ((n.toNat : Nat) : Int)))) = _
      rw [Int.toNat_of_nonneg hn]

theorem attributeLoop_pair (m : List (Int × Int)) (values : List Tile_Value) (k v : Nat)
    (rest : List Nat) (attrs : List QVariant) :
    attributeLoop m values (k :: v :: rest) attrs =
      match tagPair m values k v attrs with
      | .ok attrs1 => attributeLoop m values rest attrs1
      | .error err => .error err := by
  rw [attributeLoop]
  cases tagPair m values k v attrs <;> rfl

/-- The trailing entry of a tag list of odd length is not visited by the attribute loop. -/
theorem attributeLoop_odd (m : List (Int × Int)) (values : List Tile_Value) (x : Nat) :
    ∀ (n : Nat) (tags : List Nat) (attrs : List QVariant), tags.length = 2 * n →
      attributeLoop m values (tags ++ [x]) attrs = attributeLoop m values tags attrs := by
  intro n
  induction n with
  | zero =>
    intro tags attrs hlen
    have hnil : tags = [] := List.length_eq_zero.mp (by omega)
    subst hnil
    rfl
  | succ n ih =>
    intro tags attrs hlen
    match tags, hlen with
    | k :: v :: rest, hlen =>
      rw [List.cons_append, List.cons_append, attributeLoop_pair, attributeLoop_pair]
      cases tagPair m values k v attrs with
      | error err => rfl
      | ok attrs1 =>
        exact ih rest attrs1 (by simp only [List.length_cons] at hlen; omega)

/-- C14: for a feature whose tag list has odd length 2n + 1 the attribute loop, and with it
the decoded feature, is that of the first 2n entries, whatever the trailing entry is: the
trailing entry is used neither as a key index nor as a value index. -/
theorem odd_trailing_tag_ignored (t : QgsTileXYZ) (layerFields : List String)
    (layer : Tile_Layer) (id : Nat) (ty : GeomType) (g : List Nat) (n : Nat)
    (tags : List Nat) (x : Nat) (hlen : tags.length = 2 * n) :
    (∀ (m : List (Int × Int)) (values : List Tile_Value) (attrs : List QVariant),
      attributeLoop m values (tags ++ [x]) attrs = attributeLoop m values tags attrs) ∧
    decodeFeature t layerFields layer { id := id, type := ty, tags := tags ++ [x], geometry := g } =
      decodeFeature t layerFields layer { id := id, type := ty, tags := tags, geometry := g } := by
  have h := fun (m : List (Int × Int)) (values : List Tile_Value) (attrs : List QVariant) =>
    attributeLoop_odd m values x n tags attrs hlen
  refine ⟨h, ?_⟩
  rw [decodeFeature_eq, decodeFeature_eq]
  dsimp only
  rw [h]

/-- C14, witness: the tag list `[0, 0, 5]` over one key and one value. -/
theorem odd_trailing_tag_ignored_witness :
    decodeFeature ⟨0, 0, 0⟩ ["a"] ⟨"layer", 4096, ["a"], [intValue 7], []⟩
        { id := 1, type := .POINT, tags := [0, 0] ++ [5], geometry := [] } =
      decodeFeature ⟨0, 0, 0⟩ ["a"] ⟨"layer", 4096, ["a"], [intValue 7], []⟩
        { id := 1, type := .POINT, tags := [0, 0], geometry := [] } :=
  (odd_trailing_tag_ignored ⟨0, 0, 0⟩ ["a"] ⟨"layer", 4096, ["a"], [intValue 7], []⟩ 1 .POINT []
    1 [0, 0] 5 rfl).2

/-- C13, witness: the int64 value 4294967297 = 2^32 + 1 under key `a` is stored as 1. -/
theorem integer_values_truncated_witness :
    tagPair (tagKeyIndexToFieldIndex ["a"] ["a"] 0) [intValue 4294967297] 0 0 [QVariant.null] =
      .ok (setAttribute [QVariant.null]
        (hashValue (tagKeyIndexToFieldIndex ["a"] ["a"] 0)
          (toInt32 ((0 % 4294967296 : Nat) : Int)) (-1))
        (.int (toInt32 4294967297))) :=
  (integer_values_truncated 4294967297 0).2.2.2.2.2.2
    (tagKeyIndexToFieldIndex ["a"] ["a"] 0) [intValue 4294967297] 0 0 [QVariant.null]
    (intValue 4294967297) 4294967297 (by decide) (by decide) (by decide) rfl (Or.inl rfl)


/-! ## Zig-zag coding -/

theorem xor_all_ones (k : Nat) (h : k < 4294967296) :
    k ^^^ 4294967295 = 4294967295 - k := by
  have hk : k < 2 ^ 32 := by norm_num; exact h
  apply Nat.eq_of_testBit_eq
  intro i
  have h1 : (4294967295 : Nat) = 2 ^ 32 - 1 := by norm_num
  have h2 : 4294967295 - k = 2 ^ 32 - (k + 1) := by omega
  rw [Nat.testBit_xor, h2, Nat.testBit_two_pow_sub_succ hk, h1, Nat.testBit_two_pow_sub_one]
  by_cases hi : i < 32
  · simp [hi]
  · have hle : 2 ^ 32 ≤ 2 ^ i := Nat.pow_le_pow_right (by norm_num) (by omega)
    have hbit : k.testBit i = false := Nat.testBit_lt_two_pow (lt_of_lt_of_le hk hle)
    simp [hi, hbit]

theorem zigzagDecode_even (u : Nat) (hu : u < 4294967296) (h : u % 2 = 0) :
    zigzagDecode u = ((u / 2 : Nat) : Int) := by
  unfold zigzagDecode negU32
  rw [Nat.and_one_is_mod, h, Nat.shiftRight_eq_div_pow]
  simp only [Nat.zero_mod, Nat.sub_zero, Nat.mod_self, Nat.xor_zero, pow_one]
  exact toInt32_of_range _ (by omega) (by omega)

theorem zigzagDecode_odd (u : Nat) (hu : u < 4294967296) (h : u % 2 = 1) :
    zigzagDecode u = -(((u + 1) / 2 : Nat) : Int) := by
  unfold zigzagDecode negU32
  rw [Nat.and_one_is_mod, h, Nat.shiftRight_eq_div_pow]
  have hx : u / 2 ^ 1 ^^^ (4294967296 - 1 % 4294967296) % 4294967296 = 4294967295 - u / 2 := by
    rw [show (4294967296 - 1 % 4294967296) % 4294967296 = 4294967295 from rfl, pow_one]
    exact xor_all_ones _ (by omega)
  rw [hx]
  unfold toInt32
  omega

theorem zigzagEncode_nonneg (n : Int) (h0 : 0 ≤ n) (h1 : n < 2147483648) :
    zigzagEncode n = (n * 2).toNat := by
  unfold zigzagEncode
  rw [Int.shiftRight_eq_div_pow]
  have ha : ((n * 2) % 4294967296).toNat = (n * 2).toNat := by omega
  have hb : ((n / ((2 ^ 31 : Nat) : Int)) % 4294967296).toNat = 0 := by
    norm_num
    omega
  rw [ha, hb, Nat.xor_zero]

theorem zigzagEncode_neg (n : Int) (h0 : n < 0) (h1 : -2147483648 ≤ n) :
    zigzagEncode n = (-(n * 2) - 1).toNat := by
  unfold zigzagEncode
  rw [Int.shiftRight_eq_div_pow]
  have ha : ((n * 2) % 4294967296).toNat = 4294967295 - (-(n * 2) - 1).toNat := by omega
  have hb : ((n / ((2 ^ 31 : Nat) : Int)) % 4294967296).toNat = 4294967295 := by
    norm_num
    omega
  rw [ha, hb, xor_all_ones _ (by omega)]
  omega

theorem zigzag_encode_decode (u : Nat) (hu : u < 4294967296) :
    zigzagEncode (zigzagDecode u) = u := by
  rcases Nat.mod_two_eq_zero_or_one u with h | h
  · rw [zigzagDecode_even u hu h, zigzagEncode_nonneg _ (by omega) (by omega)]
    omega
  · rw [zigzagDecode_odd u hu h, zigzagEncode_neg _ (by omega) (by omega)]
    omega

/-- C15: zig-zag round trip. For every 32-bit unsigned word `u`, decoding it as the
interpreter does and encoding the result as `(n << 1) XOR (n >> 31)` modulo 2^32 gives back
`u`; the decoded value is a 32-bit signed integer; an even word decodes to `u / 2` and an
odd word to `-(u + 1) / 2`; and decoding is injective on 32-bit words. -/
theorem zigzag_round_trip (u : Nat) (hu : u < 4294967296) :
    zigzagEncode (zigzagDecode u) = u ∧
    (-2147483648 ≤ zigzagDecode u ∧ zigzagDecode u < 2147483648) ∧
    (u % 2 = 0 → zigzagDecode u = ((u / 2 : Nat) : Int)) ∧
    (u % 2 = 1 → zigzagDecode u = -(((u + 1) / 2 : Nat) : Int)) ∧
    (∀ u' : Nat, u' < 4294967296 → zigzagDecode u' = zigzagDecode u → u' = u) := by
  refine ⟨zigzag_encode_decode u hu, toInt32_range _, zigzagDecode_even u hu,
    zigzagDecode_odd u hu, ?_⟩
  intro u' hu' heq
  rw [← zigzag_encode_decode u hu, ← zigzag_encode_decode u' hu', heq]

/-- C15, witness: the word 4294967294 decodes to 2147483647 and encodes back. -/
theorem zigzag_round_trip_witness :
    zigzagEncode (zigzagDecode 4294967294) = 4294967294 :=
  (zigzag_round_trip 4294967294 (by decide)).1


/-! ## Ring orientation law -/

theorem ringTotal_acc (pts : List QgsPoint) :
    ∀ acc : ℚ, ringTotal pts acc = acc + ringTotal pts 0 := by
  induction pts with
  | nil =>
    intro acc
    simp [ringTotal]
  | cons p rest ih =>
    intro acc
    cases rest with
    | nil => simp [ringTotal]
    | cons q rest' =>
      rw [ringTotal, ih, ringTotal, ih (0 + _)]
      ring

theorem ringTotal_cons_cons (p q : QgsPoint) (rest : List QgsPoint) :
    ringTotal (p :: q :: rest) 0 = (q.x - p.x) * (q.y + p.y) + ringTotal (q :: rest) 0 := by
  rw [ringTotal, ringTotal_acc]
  ring

theorem ringTotal_append_pair (pts : List QgsPoint) (b a : QgsPoint) :
    ringTotal (pts ++ [b, a]) 0 = ringTotal (pts ++ [b]) 0 + (a.x - b.x) * (a.y + b.y) := by
  induction pts with
  | nil =>
    rw [List.nil_append, List.nil_append, ringTotal_cons_cons]
    simp [ringTotal]
  | cons p rest ih =>
    cases rest with
    | nil =>
      rw [List.cons_append, List.nil_append, List.cons_append, List.nil_append,
        ringTotal_cons_cons, ringTotal_cons_cons, ringTotal_cons_cons]
      simp [ringTotal]
    | cons q rest' =>
      rw [List.cons_append, List.cons_append] at ih
      rw [List.cons_append, List.cons_append, List.cons_append, List.cons_append,
        ringTotal_cons_cons, ringTotal_cons_cons, ih]
      ring

theorem ringTotal_reverse (pts : List QgsPoint) :
    ringTotal pts.reverse 0 = -ringTotal pts 0 := by
  induction pts with
  | nil => simp [ringTotal]
  | cons p rest ih =>
    cases rest with
    | nil => simp [ringTotal]
    | cons q rest' =>
      have hrev : (p :: q :: rest').reverse = rest'.reverse ++ [q, p] := by simp
      have hrev' : (q :: rest').reverse = rest'.reverse ++ [q] := by simp
      rw [hrev, ringTotal_append_pair, ← hrev', ih, ringTotal_cons_cons]
      ring

/-! ### The sum in binary64 arithmetic -/

theorem roundHalfEven_neg (q : ℚ) : roundHalfEven (-q) = -roundHalfEven q := by
  have hfl : ∀ r : ℚ, Rat.floor r = ⌊r⌋ := fun _ => rfl
  unfold roundHalfEven
  rw [hfl, hfl]
  have h1 : ((⌊q⌋ : Int) : ℚ) ≤ q := Int.floor_le q
  have h2 : q < ((⌊q⌋ : Int) : ℚ) + 1 := Int.lt_floor_add_one q
  by_cases hint : q = ((⌊q⌋ : Int) : ℚ)
  · have hneg : ⌊-q⌋ = -⌊q⌋ := by
      rw [Int.floor_eq_iff]
      push_cast
      constructor <;> linarith
    rw [hneg]
    have e1 : -q - ((-⌊q⌋ : Int) : ℚ) = 0 := by push_cast; linarith
    have e2 : q - ((⌊q⌋ : Int) : ℚ) = 0 := by linarith
    rw [e1, e2]
    norm_num
  · have hlt : ((⌊q⌋ : Int) : ℚ) < q := lt_of_le_of_ne h1 (Ne.symm hint)
    have hneg : ⌊-q⌋ = -⌊q⌋ - 1 := by
      rw [Int.floor_eq_iff]
      push_cast
      constructor <;> linarith
    rw [hneg]
    have e1 : -q - ((-⌊q⌋ - 1 : Int) : ℚ) = 1 - (q - ((⌊q⌋ : Int) : ℚ)) := by
      push_cast
      ring
    rw [e1]
    generalize hfr : q - ((⌊q⌋ : Int) : ℚ) = fr
    generalize ⌊q⌋ = f
    have hfr0 : 0 < fr := by rw [← hfr]; linarith
    rcases lt_trichotomy fr (1 / 2) with hc | hc | hc
    · have n1 : ¬ (1 - fr < 1 / 2) := by intro h; linarith
      have n2 : (1 : ℚ) / 2 < 1 - fr := by linarith
      rw [if_neg n1, if_pos n2, if_pos hc]
      omega
    · subst hc
      have n1 : ¬ ((1 : ℚ) - 1 / 2 < 1 / 2) := by norm_num
      have n2 : ¬ ((1 : ℚ) / 2 < 1 - 1 / 2) := by norm_num
      have n3 : ¬ ((1 : ℚ) / 2 < 1 / 2) := by norm_num
      rw [if_neg n1, if_neg n2, if_neg n3, if_neg n3]
      by_cases hp : f % 2 = 0
      · have hp' : ¬ ((-f - 1) % 2 = 0) := by omega
        rw [if_neg hp', if_pos hp]
        omega
      · have hp' : (-f - 1) % 2 = 0 := by omega
        rw [if_pos hp', if_neg hp]
        omega
    · have n1 : (1 : ℚ) - fr < 1 / 2 := by linarith
      have n2 : ¬ (fr < 1 / 2) := by intro h; linarith
      rw [if_pos n1, if_neg n2, if_pos hc]
      omega

theorem binaryExponent_neg (q : ℚ) : binaryExponent (-q) = binaryExponent q := by
  unfold binaryExponent
  rw [Rat.neg_num, Rat.neg_den, Int.natAbs_neg, abs_neg]

theorem roundTo_neg (quantum q : ℚ) : roundTo quantum (-q) = -roundTo quantum q := by
  unfold roundTo
  rw [neg_div, roundHalfEven_neg]
  push_cast
  ring

theorem pow2_pos (e : Int) : 0 < pow2 e := by
  unfold pow2
  split <;> positivity

/-- Rounding to `double` commutes with negation. -/
theorem Double.ofRat_neg (q : ℚ) : Double.ofRat (-q) = (Double.ofRat q).neg := by
  unfold Double.ofRat
  rw [binaryExponent_neg, roundTo_neg]
  have hP := pow2_pos 1024
  generalize roundTo (pow2 (max (binaryExponent q) (-1022) - 52)) q = r
  generalize pow2 1024 = P at hP
  by_cases hq : q = 0
  · have hq' : -q = 0 := by rw [hq]; simp
    rw [if_pos hq, if_pos hq']
    simp [Double.neg]
  · have hq' : ¬ (-q = 0) := by simpa using hq
    rw [if_neg hq, if_neg hq']
    by_cases h1 : P ≤ r
    · have n1 : ¬ (P ≤ -r) := by intro h; linarith
      have n2 : -r ≤ -P := by linarith
      rw [if_pos h1, if_neg n1, if_pos n2]
      rfl
    · by_cases h2 : r ≤ -P
      · have n1 : P ≤ -r := by linarith
        rw [if_neg h1, if_pos h2, if_pos n1]
        rfl
      · have n1 : ¬ (P ≤ -r) := by intro h; apply h2; linarith
        have n2 : ¬ (-r ≤ -P) := by intro h; apply h1; linarith
        rw [if_neg h1, if_neg h2, if_neg n1, if_neg n2]
        rfl

theorem Double.add_neg_neg (a b : Double) : a.neg.add b.neg = (a.add b).neg := by
  cases a with
  | finite x =>
    cases b with
    | finite y =>
      show Double.ofRat (-x + -y) = (Double.ofRat (x + y)).neg
      rw [← Double.ofRat_neg]
      congr 1
      ring
    | posInf => rfl
    | negInf => rfl
    | nan => rfl
  | posInf => cases b <;> rfl
  | negInf => cases b <;> rfl
  | nan => cases b <;> rfl

theorem Double.sub_swap (a b : ℚ) :
    (Double.finite a).sub (.finite b) = ((Double.finite b).sub (.finite a)).neg := by
  show Double.ofRat (a + -b) = (Double.ofRat (b + -a)).neg
  rw [← Double.ofRat_neg]
  congr 1
  ring

theorem Double.add_swap (a b : Double) : a.add b = b.add a := by
  cases a with
  | finite x =>
    cases b with
    | finite y =>
      show Double.ofRat (x + y) = Double.ofRat (y + x)
      rw [Rat.add_comm]
    | posInf => rfl
    | negInf => rfl
    | nan => rfl
  | posInf => cases b <;> rfl
  | negInf => cases b <;> rfl
  | nan => cases b <;> rfl

theorem Double.mul_sign (x : ℚ) (u v : Double) :
    (if -x = 0 then Double.nan else if 0 < -x then u else v) =
      (if x = 0 then Double.nan else if 0 < x then v else u) := by
  rcases lt_trichotomy x 0 with h | h | h
  · have h0 : ¬ x = 0 := ne_of_lt h
    have h1 : ¬ (0 < x) := not_lt.mpr h.le
    have h2 : ¬ (-x = 0) := by simpa using h0
    have h3 : 0 < -x := by linarith
    rw [if_neg h0, if_neg h1, if_neg h2, if_pos h3]
  · subst h
    simp
  · have h0 : ¬ x = 0 := ne_of_gt h
    have h2 : ¬ (-x = 0) := by simpa using h0
    have h3 : ¬ (0 < -x) := by intro hc; linarith
    rw [if_neg h0, if_pos h, if_neg h2, if_neg h3]

theorem Double.neg_mul (a b : Double) : a.neg.mul b = (a.mul b).neg := by
  cases a with
  | finite x =>
    cases b with
    | finite y =>
      show Double.ofRat (-x * y) = (Double.ofRat (x * y)).neg
      rw [← Double.ofRat_neg]
      congr 1
      ring
    | posInf =>
      show (if -x = 0 then Double.nan else if 0 < -x then Double.posInf else Double.negInf) =
        (if x = 0 then Double.nan else if 0 < x then Double.posInf else Double.negInf).neg
      rw [Double.mul_sign]
      split_ifs <;> rfl
    | negInf =>
      show (if -x = 0 then Double.nan else if 0 < -x then Double.negInf else Double.posInf) =
        (if x = 0 then Double.nan else if 0 < x then Double.negInf else Double.posInf).neg
      rw [Double.mul_sign]
      split_ifs <;> rfl
    | nan => rfl
  | posInf =>
    cases b with
    | finite y =>
      show (if y = 0 then Double.nan else if 0 < y then Double.negInf else Double.posInf) =
        (if y = 0 then Double.nan else if 0 < y then Double.posInf else Double.negInf).neg
      split_ifs <;> rfl
    | posInf => rfl
    | negInf => rfl
    | nan => rfl
  | negInf =>
    cases b with
    | finite y =>
      show (if y = 0 then Double.nan else if 0 < y then Double.posInf else Double.negInf) =
        (if y = 0 then Double.nan else if 0 < y then Double.negInf else Double.posInf).neg
      split_ifs <;> rfl
    | posInf => rfl
    | negInf => rfl
    | nan => rfl
  | nan => cases b <;> rfl

/-- The value of the pair taken in the other direction is the negated value. -/
theorem ringVal_swap (p q : QgsPoint) : ringVal q p = (ringVal p q).neg := by
  unfold ringVal
  rw [Double.sub_swap, Double.neg_mul, Double.add_swap]

theorem ringTotalDouble_eq_foldl (pts : List QgsPoint) :
    ∀ total, ringTotalDouble pts total = (ringVals pts).foldl Double.add total := by
  induction pts with
  | nil => intro total; rfl
  | cons p rest ih =>
    intro total
    cases rest with
    | nil => rfl
    | cons q rest' =>
      rw [ringTotalDouble, ih, ringVals, List.foldl_cons]

theorem ringVals_append_pair (pts : List QgsPoint) (b a : QgsPoint) :
    ringVals (pts ++ [b, a]) = ringVals (pts ++ [b]) ++ [ringVal b a] := by
  induction pts with
  | nil => rfl
  | cons p rest ih =>
    cases rest with
    | nil => rfl
    | cons q rest' =>
      rw [List.cons_append, List.cons_append] at ih
      rw [List.cons_append, List.cons_append, List.cons_append, List.cons_append,
        ringVals, ringVals, ih, List.cons_append]

theorem ringVals_reverse (pts : List QgsPoint) :
    ringVals pts.reverse = ((ringVals pts).map Double.neg).reverse := by
  induction pts with
  | nil => rfl
  | cons p rest ih =>
    cases rest with
    | nil => rfl
    | cons q rest' =>
      have hrev : (p :: q :: rest').reverse = rest'.reverse ++ [q, p] := by simp
      have hrev' : (q :: rest').reverse = rest'.reverse ++ [q] := by simp
      rw [hrev, ringVals_append_pair, ← hrev', ih, ringVals, List.map_cons,
        List.reverse_cons, ringVal_swap]

theorem foldr_add_neg (vals : List Double) :
    (vals.map Double.neg).foldr (fun v acc => Double.add acc v) (.finite 0) =
      (vals.foldr (fun v acc => Double.add acc v) (.finite 0)).neg := by
  induction vals with
  | nil => simp [Double.neg]
  | cons v rest ih =>
    rw [List.map_cons, List.foldr_cons, ih, Double.add_neg_neg, List.foldr_cons]

theorem ringTotalDouble_reverse (pts : List QgsPoint) :
    ringTotalDouble pts.reverse (.finite 0) =
      ((ringVals pts).foldr (fun v acc => Double.add acc v) (.finite 0)).neg := by
  rw [ringTotalDouble_eq_foldl, ringVals_reverse, List.foldl_reverse, foldr_add_neg]

theorem Double.geZero_neg (d : Double) (h0 : d ≠ .finite 0) (hnan : d ≠ .nan) :
    d.neg.geZero = !d.geZero := by
  cases d with
  | finite q =>
    have hq : q ≠ 0 := fun hc => h0 (by rw [hc])
    show decide (-q ≥ 0) = !decide (q ≥ 0)
    rcases lt_or_gt_of_ne hq with h | h
    · have h1 : -q ≥ 0 := by linarith
      have h2 : ¬ (q ≥ 0) := not_le.mpr h
      simp [h1, h2]
    · have h1 : ¬ (-q ≥ 0) := by intro hc; linarith
      have h2 : q ≥ 0 := h.le
      simp [h1, h2]
  | posInf => rfl
  | negInf => rfl
  | nan => exact absurd rfl hnan

/-- C16, as the code has it. In `double` arithmetic each value `val` that `_isExteriorRing`
computes on the reversed list is the negation of the value computed for the same pair of
points on the list, and the sum on the reversed list is the negation of the values of the
list added up from the last pair to the first; it is the negation of the sum on the list
whenever adding the values in that order gives the same `double`, and then a sum that is
neither zero nor NaN gives the reversed list the opposite classification. In exact
arithmetic the order of the additions does not matter: the sum on the reversed list is the
negation of the sum on the list, a non-zero sum gives the reversed list the opposite
classification, and with a zero sum both orders are classified exterior. -/
theorem ring_orientation_law (pts : List QgsPoint) :
    ringVals pts.reverse = ((ringVals pts).map Double.neg).reverse ∧
    ringTotalDouble pts (.finite 0) = (ringVals pts).foldl Double.add (.finite 0) ∧
    ringTotalDouble pts.reverse (.finite 0) =
      ((ringVals pts).foldr (fun v acc => Double.add acc v) (.finite 0)).neg ∧
    ((ringVals pts).foldr (fun v acc => Double.add acc v) (.finite 0) =
        (ringVals pts).foldl Double.add (.finite 0) →
      ringTotalDouble pts.reverse (.finite 0) = (ringTotalDouble pts (.finite 0)).neg ∧
      (ringTotalDouble pts (.finite 0) ≠ .finite 0 → ringTotalDouble pts (.finite 0) ≠ .nan →
        _isExteriorRingDouble pts.reverse = !_isExteriorRingDouble pts)) ∧
    ringTotal pts.reverse 0 = -ringTotal pts 0 ∧
    (ringTotal pts 0 ≠ 0 → _isExteriorRing pts.reverse = !_isExteriorRing pts) ∧
    (ringTotal pts 0 = 0 → _isExteriorRing pts.reverse = true ∧ _isExteriorRing pts = true) := by
  refine ⟨ringVals_reverse pts, ringTotalDouble_eq_foldl pts _, ringTotalDouble_reverse pts,
    ?_, ringTotal_reverse pts, ?_, ?_⟩
  · intro hsame
    have hrev : ringTotalDouble pts.reverse (.finite 0) =
        (ringTotalDouble pts (.finite 0)).neg := by
      rw [ringTotalDouble_reverse, hsame, ← ringTotalDouble_eq_foldl]
    refine ⟨hrev, fun h0 hnan => ?_⟩
    unfold _isExteriorRingDouble
    rw [hrev, Double.geZero_neg _ h0 hnan]
  · intro hne
    unfold _isExteriorRing
    rw [ringTotal_reverse]
    by_cases h : ringTotal pts 0 ≥ 0
    · have hpos : 0 < ringTotal pts 0 := lt_of_le_of_ne h (Ne.symm hne)
      have hneg : ¬ (-ringTotal pts 0 ≥ 0) := by
        intro hc
        linarith
      simp [h, hneg]
    · have hneg : -ringTotal pts 0 ≥ 0 := by
        have := lt_of_not_ge h
        linarith
      simp [h, hneg]
  · intro hzero
    unfold _isExteriorRing
    rw [ringTotal_reverse, hzero]
    simp

/-- C16, witness: the triangle (0,0), (5,0), (5,5), (0,0) has the non-zero sum -25 and is
interior, its reverse is exterior. -/
theorem ring_orientation_law_witness :
    _isExteriorRing ([⟨0, 0⟩, ⟨5, 0⟩, ⟨5, 5⟩, ⟨0, 0⟩] : List QgsPoint).reverse =
      !_isExteriorRing ([⟨0, 0⟩, ⟨5, 0⟩, ⟨5, 5⟩, ⟨0, 0⟩] : List QgsPoint) :=
  (ring_orientation_law [⟨0, 0⟩, ⟨5, 0⟩, ⟨5, 5⟩, ⟨0, 0⟩]).2.2.2.2.2.1 (by decide!)

/-- C16, counterexample: in `double` arithmetic the closed ring (1,0), (2^53,1), (0,2),
(2^53,2), (1,0) has the sum 2 and its reverse the sum 1, not -2, so both orders are
classified exterior although neither sum is zero (the exact sums are 1 and -1); and the
point list (1,0), (0,1), (2^53,1), (0,1) has the sum 0 and its reverse the sum 1. All
coordinates are `double` values. -/
theorem ring_orientation_fails_in_double :
    Double.ofRat 9007199254740992 = .finite 9007199254740992 ∧
    ringTotalDouble [⟨1, 0⟩, ⟨9007199254740992, 1⟩, ⟨0, 2⟩, ⟨9007199254740992, 2⟩, ⟨1, 0⟩]
      (.finite 0) = .finite 2 ∧
    ringTotalDouble
      ([⟨1, 0⟩, ⟨9007199254740992, 1⟩, ⟨0, 2⟩, ⟨9007199254740992, 2⟩, ⟨1, 0⟩] :
        List QgsPoint).reverse (.finite 0) = .finite 1 ∧
    _isExteriorRingDouble
      [⟨1, 0⟩, ⟨9007199254740992, 1⟩, ⟨0, 2⟩, ⟨9007199254740992, 2⟩, ⟨1, 0⟩] = true ∧
    _isExteriorRingDouble
      ([⟨1, 0⟩, ⟨9007199254740992, 1⟩, ⟨0, 2⟩, ⟨9007199254740992, 2⟩, ⟨1, 0⟩] :
        List QgsPoint).reverse = true ∧
    ringTotal [⟨1, 0⟩, ⟨9007199254740992, 1⟩, ⟨0, 2⟩, ⟨9007199254740992, 2⟩, ⟨1, 0⟩] 0 = 1 ∧
    ringTotalDouble [⟨1, 0⟩, ⟨0, 1⟩, ⟨9007199254740992, 1⟩, ⟨0, 1⟩] (.finite 0) = .finite 0 ∧
    ringTotalDouble ([⟨1, 0⟩, ⟨0, 1⟩, ⟨9007199254740992, 1⟩, ⟨0, 1⟩] : List QgsPoint).reverse
      (.finite 0) = .finite 1 ∧
    _isExteriorRingDouble [⟨1, 0⟩, ⟨0, 1⟩, ⟨9007199254740992, 1⟩, ⟨0, 1⟩] = true ∧
    _isExteriorRingDouble
      ([⟨1, 0⟩, ⟨0, 1⟩, ⟨9007199254740992, 1⟩, ⟨0, 1⟩] : List QgsPoint).reverse = true := by
  refine ⟨by decide!, by decide!, by decide!, by decide!, by decide!, by decide!, by decide!,
    by decide!, by decide!, by decide!⟩

/-! ## The tile-to-world mapping -/

/-- The extent of a layer, an unsigned 32-bit number, is the same `int` when it is below
2^31; a larger extent becomes a negative `int`. -/
theorem toInt32_extent (ext : Nat) (h32 : ext < 4294967296) :
    (ext < 2147483648 → toInt32 ((ext % 4294967296 : Nat) : Int) = (ext : Int)) ∧
    (2147483648 ≤ ext → toInt32 ((ext % 4294967296 : Nat) : Int) < 0) := by
  unfold toInt32
  omega

/-- C17, as the code has it: for a tile id of zoom at most 30 and a layer extent with
`0 < extent < 2^31`, which `static_cast<int>` leaves as it is, in exact arithmetic, the
mapping `px = tileXMin + tileDX * cx / extent`, `py = tileYMax - tileDY * cy / extent` is
strictly increasing in `cx`, strictly decreasing in `cy`, `px` does not depend on `cy` nor
`py` on `cx`, and for `0 <= cx, cy <= extent` the point lies in
`[tileXMin, tileXMin + tileDX] x [tileYMax - tileDY, tileYMax]`. -/
theorem world_mapping_monotone (t : QgsTileXYZ) (layerExtent : Nat) (_hz : t.zoomLevel ≤ 30)
    (hpos : 0 < layerExtent) (hint : layerExtent < 2147483648) :
    toInt32 ((layerExtent % 4294967296 : Nat) : Int) = (layerExtent : Int) ∧
    (∀ cx1 cx2 cy : Int, cx1 < cx2 →
      (worldPoint t (toInt32 ((layerExtent % 4294967296 : Nat) : Int)) cx1 cy).x <
        (worldPoint t (toInt32 ((layerExtent % 4294967296 : Nat) : Int)) cx2 cy).x) ∧
    (∀ cx cy1 cy2 : Int, cy1 < cy2 →
      (worldPoint t (toInt32 ((layerExtent % 4294967296 : Nat) : Int)) cx cy1).y >
        (worldPoint t (toInt32 ((layerExtent % 4294967296 : Nat) : Int)) cx cy2).y) ∧
    (∀ cx cy1 cy2 : Int,
      (worldPoint t (toInt32 ((layerExtent % 4294967296 : Nat) : Int)) cx cy1).x =
        (worldPoint t (toInt32 ((layerExtent % 4294967296 : Nat) : Int)) cx cy2).x) ∧
    (∀ cx1 cx2 cy : Int,
      (worldPoint t (toInt32 ((layerExtent % 4294967296 : Nat) : Int)) cx1 cy).y =
        (worldPoint t (toInt32 ((layerExtent % 4294967296 : Nat) : Int)) cx2 cy).y) ∧
    (∀ cx cy : Int, 0 ≤ cx → cx ≤ (layerExtent : Int) → 0 ≤ cy → cy ≤ (layerExtent : Int) →
      tileXMin t ≤ (worldPoint t (toInt32 ((layerExtent % 4294967296 : Nat) : Int)) cx cy).x ∧
      (worldPoint t (toInt32 ((layerExtent % 4294967296 : Nat) : Int)) cx cy).x ≤
        tileXMin t + tileDX t ∧
      tileYMax t - tileDY t ≤
        (worldPoint t (toInt32 ((layerExtent % 4294967296 : Nat) : Int)) cx cy).y ∧
      (worldPoint t (toInt32 ((layerExtent % 4294967296 : Nat) : Int)) cx cy).y ≤
        tileYMax t) := by
  have hcast : toInt32 ((layerExtent % 4294967296 : Nat) : Int) = (layerExtent : Int) :=
    (toInt32_extent layerExtent (by omega)).1 hint
  rw [hcast]
  generalize hext_def : (layerExtent : Int) = extent
  have hext : 0 < extent := by rw [← hext_def]; exact_mod_cast hpos
  have hE : (0 : ℚ) < (extent : ℚ) := by exact_mod_cast hext
  have hX := tileDX_pos t
  have hY := tileDY_pos t
  refine ⟨rfl, ?_, ?_, fun _ _ _ => rfl, fun _ _ _ => rfl, ?_⟩
  · intro cx1 cx2 cy h
    have hc : (cx1 : ℚ) < (cx2 : ℚ) := by exact_mod_cast h
    show tileXMin t + tileDX t * (cx1 : ℚ) / (extent : ℚ) <
      tileXMin t + tileDX t * (cx2 : ℚ) / (extent : ℚ)
    have := div_lt_div_of_pos_right (mul_lt_mul_of_pos_left hc hX) hE
    linarith
  · intro cx cy1 cy2 h
    have hc : (cy1 : ℚ) < (cy2 : ℚ) := by exact_mod_cast h
    show tileYMax t - tileDY t * (cy1 : ℚ) / (extent : ℚ) >
      tileYMax t - tileDY t * (cy2 : ℚ) / (extent : ℚ)
    have := div_lt_div_of_pos_right (mul_lt_mul_of_pos_left hc hY) hE
    linarith
  · intro cx cy hx0 hx1 hy0 hy1
    have hcx0 : (0 : ℚ) ≤ (cx : ℚ) := by exact_mod_cast hx0
    have hcx1 : (cx : ℚ) ≤ (extent : ℚ) := by exact_mod_cast hx1
    have hcy0 : (0 : ℚ) ≤ (cy : ℚ) := by exact_mod_cast hy0
    have hcy1 : (cy : ℚ) ≤ (extent : ℚ) := by exact_mod_cast hy1
    have hx_lo : 0 ≤ tileDX t * (cx : ℚ) / (extent : ℚ) :=
      div_nonneg (mul_nonneg hX.le hcx0) hE.le
    have hx_hi : tileDX t * (cx : ℚ) / (extent : ℚ) ≤ tileDX t := by
      rw [div_le_iff₀ hE]
      exact mul_le_mul_of_nonneg_left hcx1 hX.le
    have hy_lo : 0 ≤ tileDY t * (cy : ℚ) / (extent : ℚ) :=
      div_nonneg (mul_nonneg hY.le hcy0) hE.le
    have hy_hi : tileDY t * (cy : ℚ) / (extent : ℚ) ≤ tileDY t := by
      rw [div_le_iff₀ hE]
      exact mul_le_mul_of_nonneg_left hcy1 hY.le
    refine ⟨?_, ?_, ?_, ?_⟩
    · show tileXMin t ≤ tileXMin t + tileDX t * (cx : ℚ) / (extent : ℚ)
      linarith
    · show tileXMin t + tileDX t * (cx : ℚ) / (extent : ℚ) ≤ tileXMin t + tileDX t
      linarith
    · show tileYMax t - tileDY t ≤ tileYMax t - tileDY t * (cy : ℚ) / (extent : ℚ)
      linarith
    · show tileYMax t - tileDY t * (cy : ℚ) / (extent : ℚ) ≤ tileYMax t
      linarith

/-- C17, witness: tile (0, 0, 0) with layer extent 4096, cursors 0 and 4096. -/
theorem world_mapping_monotone_witness :
    (worldPoint ⟨0, 0, 0⟩ (toInt32 ((4096 % 4294967296 : Nat) : Int)) 0 0).x <
      (worldPoint ⟨0, 0, 0⟩ (toInt32 ((4096 % 4294967296 : Nat) : Int)) 4096 0).x :=
  (world_mapping_monotone ⟨0, 0, 0⟩ 4096 (by decide) (by decide) (by decide)).2.1 0 4096 0
    (by decide)

/-- C17, counterexample: the layer extent 4294967292 is greater than 0 and becomes the
`int` -4. In tile (0, 0, 0) the mapping is then strictly decreasing in `cx` and strictly
increasing in `cy`, and the cursor (2, 2), which lies between 0 and the extent, is mapped
to a point west of `tileXMin` and north of `tileYMax`; this is the point that a POINT
feature with geometry `[9, 4, 4]` in such a layer decodes to. -/
theorem world_mapping_extent_cast :
    toInt32 ((4294967292 % 4294967296 : Nat) : Int) = -4 ∧
    (worldPoint ⟨0, 0, 0⟩ (toInt32 ((4294967292 % 4294967296 : Nat) : Int)) 1 0).x <
      (worldPoint ⟨0, 0, 0⟩ (toInt32 ((4294967292 % 4294967296 : Nat) : Int)) 0 0).x ∧
    (worldPoint ⟨0, 0, 0⟩ (toInt32 ((4294967292 % 4294967296 : Nat) : Int)) 0 1).y >
      (worldPoint ⟨0, 0, 0⟩ (toInt32 ((4294967292 % 4294967296 : Nat) : Int)) 0 0).y ∧
    (worldPoint ⟨0, 0, 0⟩ (toInt32 ((4294967292 % 4294967296 : Nat) : Int)) 2 2).x <
      tileXMin ⟨0, 0, 0⟩ ∧
    (worldPoint ⟨0, 0, 0⟩ (toInt32 ((4294967292 % 4294967296 : Nat) : Int)) 2 2).y >
      tileYMax ⟨0, 0, 0⟩ ∧
    (decodeFeature ⟨0, 0, 0⟩ [] ⟨"layer", 4294967292, [], [], []⟩
        ⟨1, .POINT, [], [9, 4, 4]⟩).map (fun f => f.geometry) =
      .ok (.point (worldPoint ⟨0, 0, 0⟩ (-4) 2 2)) := by
  refine ⟨by decide, by decide!, by decide!, by decide!, by decide!, by decide!⟩


/-! ## The features returned for a tile -/

theorem mapValue_insert_self (features : List (String × List QgsFeature)) (name : String)
    (lf : List QgsFeature) : mapValue (mapInsert features name lf) name = some lf := by
  simp [mapValue, mapInsert]

theorem mapValue_insert_other (features : List (String × List QgsFeature))
    (name key : String) (lf : List QgsFeature) (h : key ≠ name) :
    mapValue (mapInsert features name lf) key = mapValue features key := by
  unfold mapValue mapInsert
  rw [List.find?_cons_of_neg _ (by simpa using fun hc => h hc.symm)]
  congr 1
  induction features with
  | nil => rfl
  | cons entry rest ih =>
    by_cases he : entry.1 = name
    · have hk : ¬ entry.1 = key := fun hc => h (hc.symm.trans he)
      rw [List.filter_cons_of_neg (by simpa using he), ih,
        List.find?_cons_of_neg _ (by simpa using hk)]
    · rw [List.filter_cons_of_pos (by simpa using he)]
      by_cases hk : entry.1 = key
      · rw [List.find?_cons_of_pos _ (by simpa using hk),
          List.find?_cons_of_pos _ (by simpa using hk)]
      · rw [List.find?_cons_of_neg _ (by simpa using hk),
          List.find?_cons_of_neg _ (by simpa using hk), ih]

theorem layerLoop_cons (t : QgsTileXYZ) (perLayerFields : String → List String)
    (ct : Geometry → Geometry) (layer : Tile_Layer) (rest : List Tile_Layer)
    (features : List (String × List QgsFeature)) :
    layerLoop t perLayerFields ct (layer :: rest) features =
      match decodeLayer t (perLayerFields layer.name) ct layer with
      | .ok lf => layerLoop t perLayerFields ct rest (mapInsert features layer.name lf)
      | .error err => .error err := by
  rw [layerLoop]
  cases decodeLayer t (perLayerFields layer.name) ct layer <;> rfl

/-- What the loop over the layers returns: entries of other names are kept, and a layer
whose name no later layer has is stored with its decoded features. -/
theorem layerLoop_ok (t : QgsTileXYZ) (perLayerFields : String → List String)
    (ct : Geometry → Geometry) :
    ∀ (layers : List Tile_Layer) (acc out : List (String × List QgsFeature)),
      layerLoop t perLayerFields ct layers acc = .ok out →
      (∀ key, key ∉ layers.map (fun layer => layer.name) → mapValue out key = mapValue acc key) ∧
      ((layers.map (fun layer => layer.name)).Nodup →
        ∀ layer ∈ layers, ∃ lf, decodeLayer t (perLayerFields layer.name) ct layer = .ok lf ∧
          mapValue out layer.name = some lf) := by
  intro layers
  induction layers with
  | nil =>
    intro acc out h
    cases h
    exact ⟨fun _ _ => rfl, fun _ layer hl => by cases hl⟩
  | cons layer rest ih =>
    intro acc out h
    rw [layerLoop_cons] at h
    cases hd : decodeLayer t (perLayerFields layer.name) ct layer with
    | error err =>
      rw [hd] at h
      cases h
    | ok lf =>
      rw [hd] at h
      obtain ⟨hkeep, hall⟩ := ih _ out h
      constructor
      · intro key hkey
        rw [List.map_cons, List.mem_cons, not_or] at hkey
        rw [hkeep key hkey.2, mapValue_insert_other _ _ _ _ hkey.1]
      · intro hnodup layer' hl
        rw [List.map_cons, List.nodup_cons] at hnodup
        rcases List.mem_cons.mp hl with rfl | hl
        · exact ⟨lf, hd, by rw [hkeep _ hnodup.1, mapValue_insert_self]⟩
        · exact hall hnodup.2 layer' hl

theorem decodeFeature_id (t : QgsTileXYZ) (layerFields : List String)
    (layer : Tile_Layer) (feature : Tile_Feature) (f : QgsFeature)
    (h : decodeFeature t layerFields layer feature = .ok f) :
    f.id = toInt64 (feature.id : Int) := by
  rw [decodeFeature_eq] at h
  generalize attributeLoop (tagKeyIndexToFieldIndex layerFields layer.keys 0) layer.values
    feature.tags (List.replicate layerFields.length QVariant.null) = r1 at h
  generalize featureGeometry t (toInt32 ((layer.extent % 4294967296 : Nat) : Int))
    feature.type feature.geometry = r2 at h
  cases r1 with
  | error err => cases h
  | ok attrs =>
    cases r2 with
    | error err => cases h
    | ok geom =>
      have hf := Except.ok.inj h
      rw [← hf]

/-- When `layerFeatures` returns, it returns for every layer of a tile with pairwise
distinct layer names, under the name of the layer, as many features as the layer has, in
source order, the k-th being the decoding of the k-th input feature and carrying its id
(as the signed 64-bit `QgsFeatureId`). -/
theorem layerFeatures_ok (t : QgsTileXYZ) (tile : Tile) (perLayerFields : String → List String)
    (ct : Geometry → Geometry) (out : List (String × List QgsFeature))
    (hnames : (tile.layers.map (fun layer => layer.name)).Nodup)
    (h : layerFeatures t tile perLayerFields ct = .ok out) :
    ∀ layer ∈ tile.layers, ∃ lf, mapValue out layer.name = some lf ∧
      lf.length = layer.features.length ∧
      ∀ (k : Nat) (feature : Tile_Feature), layer.features[k]? = some feature →
        ∃ f, decodeFeature t (perLayerFields layer.name) layer feature = .ok f ∧
          lf[k]? = some { f with geometry := ct f.geometry } ∧
          f.id = toInt64 (feature.id : Int) := by
  intro layer hl
  obtain ⟨lf, hd, hv⟩ := (layerLoop_ok t perLayerFields ct tile.layers [] out h).2 hnames layer hl
  obtain ⟨hlen, hall⟩ := decodeLayer_ok t (perLayerFields layer.name) ct layer lf hd
  refine ⟨lf, hv, hlen, ?_⟩
  intro k feature hk
  obtain ⟨f, hf, hk'⟩ := hall k feature hk
  exact ⟨f, hf, hk', decodeFeature_id t _ layer feature f hf⟩

theorem featureLoop_returns (t : QgsTileXYZ) (layerFields : List String)
    (ct : Geometry → Geometry) (layer : Tile_Layer) :
    ∀ (features : List Tile_Feature) (acc : List QgsFeature),
      (∀ feature ∈ features, ∃ f, decodeFeature t layerFields layer feature = .ok f) →
      ∃ out, featureLoop t layerFields ct layer features acc = .ok out := by
  intro features
  induction features with
  | nil =>
    intro acc _
    exact ⟨acc, rfl⟩
  | cons feature rest ih =>
    intro acc hall
    obtain ⟨f, hf⟩ := hall feature (List.mem_cons_self _ _)
    obtain ⟨out, hout⟩ := ih (acc ++ [{ f with geometry := ct f.geometry }])
      (fun feature' h' => hall feature' (List.mem_cons_of_mem _ h'))
    refine ⟨out, ?_⟩
    rw [featureLoop, hf]
    exact hout

/-- `layerFeatures` returns when every feature of every layer decodes. -/
theorem layerFeatures_returns (t : QgsTileXYZ) (tile : Tile)
    (perLayerFields : String → List String) (ct : Geometry → Geometry)
    (hall : ∀ layer ∈ tile.layers, ∀ feature ∈ layer.features,
      ∃ f, decodeFeature t (perLayerFields layer.name) layer feature = .ok f) :
    ∃ out, layerFeatures t tile perLayerFields ct = .ok out := by
  unfold layerFeatures
  generalize ([] : List (String × List QgsFeature)) = acc
  generalize tile.layers = layers at hall
  induction layers generalizing acc with
  | nil => exact ⟨acc, rfl⟩
  | cons layer rest ih =>
    obtain ⟨lf, hlf⟩ := featureLoop_returns t (perLayerFields layer.name) ct layer
      layer.features [] (hall layer (List.mem_cons_self _ _))
    obtain ⟨out, hout⟩ := ih (mapInsert acc layer.name lf)
      (fun layer' h' => hall layer' (List.mem_cons_of_mem _ h'))
    refine ⟨out, ?_⟩
    rw [layerLoop_cons]
    unfold decodeLayer
    rw [hlf]
    exact hout

theorem tagPair_returns (m : List (Int × Int)) (values : List Tile_Value) (k v : Nat)
    (attrs : List QVariant) (h31 : v % 4294967296 < 2147483648) :
    ∃ attrs1, tagPair m values k v attrs = .ok attrs1 := by
  by_cases hkey : hashValue m (toInt32 ((k % 4294967296 : Nat) : Int)) (-1) = -1
  · refine ⟨attrs, ?_⟩
    unfold tagPair
    dsimp only
    rw [if_pos hkey]
    rfl
  · by_cases hv : values.length ≤ v % 4294967296
    · exact ⟨attrs, (value_index_skipped m values k v attrs [] hv h31).1⟩
    · have hlt : v % 4294967296 < values.length := by omega
      have hval : values.get? (v % 4294967296) = some (values.get ⟨_, hlt⟩) :=
        List.get?_eq_get hlt
      rw [tagPair_assign m values k v attrs _ hkey hlt h31 hval]
      cases variantOf (values.get ⟨_, hlt⟩) with
      | none => exact ⟨_, rfl⟩
      | some q => exact ⟨_, rfl⟩

theorem attributeLoop_returns (m : List (Int × Int)) (values : List Tile_Value) :
    ∀ (n : Nat) (tags : List Nat) (attrs : List QVariant), tags.length ≤ n →
      (∀ x ∈ tags, x % 4294967296 < 2147483648) →
      ∃ attrs1, attributeLoop m values tags attrs = .ok attrs1 := by
  intro n
  induction n with
  | zero =>
    intro tags attrs hlen _
    have hnil : tags = [] := List.length_eq_zero.mp (by omega)
    subst hnil
    exact ⟨attrs, rfl⟩
  | succ n ih =>
    intro tags attrs hlen hall
    match tags, hlen, hall with
    | [], _, _ => exact ⟨attrs, rfl⟩
    | [_], _, _ => exact ⟨attrs, rfl⟩
    | k :: v :: rest, hlen, hall =>
      obtain ⟨attrs1, h1⟩ := tagPair_returns m values k v attrs
        (hall v (List.mem_cons_of_mem _ (List.mem_cons_self _ _)))
      rw [attributeLoop_pair, h1]
      exact ih rest attrs1 (by simp only [List.length_cons] at hlen; omega)
        (fun x hx => hall x (List.mem_cons_of_mem _ (List.mem_cons_of_mem _ hx)))

/-- A feature decodes when its value indices are below 2^31, its geometry stream has
fewer than 2^30 words and, if it is a polygon, its command loop ends with a state (no
ClosePath on an empty ring). -/
theorem decodeFeature_returns (t : QgsTileXYZ) (layerFields : List String)
    (layer : Tile_Layer) (feature : Tile_Feature)
    (htags : ∀ x ∈ feature.tags, x % 4294967296 < 2147483648)
    (hlen : feature.geometry.length < 1073741824)
    (hpoly : feature.type = .POLYGON →
      ∃ st, runGeometry t (toInt32 ((layer.extent % 4294967296 : Nat) : Int)) .POLYGON
        feature.geometry = .ok st) :
    ∃ f, decodeFeature t layerFields layer feature = .ok f := by
  obtain ⟨attrs, ha⟩ := attributeLoop_returns
    (tagKeyIndexToFieldIndex layerFields layer.keys 0) layer.values feature.tags.length
    feature.tags (List.replicate layerFields.length QVariant.null) (le_refl _) htags
  have hgeo : ∃ st, runGeometry t (toInt32 ((layer.extent % 4294967296 : Nat) : Int))
      feature.type feature.geometry = .ok st := by
    by_cases hty : feature.type = .POLYGON
    · rw [hty]
      exact hpoly hty
    · exact (command_loop_total t _ feature.type feature.geometry hlen).2 hty
  obtain ⟨st, hst⟩ := hgeo
  rw [decodeFeature_eq, ha, featureGeometry_eq, hst]
  exact ⟨_, rfl⟩

/-- Features that are malformed in the ways the loop provides for are kept: a count
overrun, an unknown command id, a value index beyond the pool, a value without a variant
and an interior ring without polygon give six output features for six input features, in
order. -/
theorem malformed_features_kept :
    (layerFeatures ⟨0, 0, 0⟩
        ⟨[⟨"layer", 4096, ["a"],
          [⟨none, none, none, none, none, none, none⟩],
          [⟨1, .LINESTRING, [], [9, 2, 2, 82, 2, 2, 2, 2]⟩,
           ⟨2, .POINT, [], [0, 9, 2, 2]⟩,
           ⟨3, .POINT, [0, 5], [9, 2, 2]⟩,
           ⟨4, .POINT, [0, 0], [9, 2, 2]⟩,
           ⟨5, .POLYGON, [], [9, 0, 0, 18, 10, 10, 0, 9, 15]⟩,
           ⟨6, .POINT, [], [9, 2, 2]⟩]⟩]⟩
        (fun _ => ["a"]) (fun geom => geom)).map
      (fun out => (mapValue out "layer").map (fun lf => lf.map (fun f => (f.id, f.geometry)))) =
    .ok (some [(1, .lineString [worldPoint ⟨0, 0, 0⟩ 4096 1 1]),
               (2, .point (worldPoint ⟨0, 0, 0⟩ 4096 1 1)),
               (3, .point (worldPoint ⟨0, 0, 0⟩ 4096 1 1)),
               (4, .point (worldPoint ⟨0, 0, 0⟩ 4096 1 1)),
               (5, .multiPolygon []),
               (6, .point (worldPoint ⟨0, 0, 0⟩ 4096 1 1))]) := by
  decide!

/-- C11, the failing input: tile (0, 0, 0) with the one layer `layer` (keys `["a"]`, empty
value pool, schema `["a"]`) and two POINT features, the first with tags `[0, 2147483648]`.
The out-of-range value index of the first feature is read as the `int` -2^31 and used to
index the value pool, so `layerFeatures` has no defined result and returns no feature at
all, neither the first nor the well-formed second one. The same happens for a POLYGON
feature whose first command is ClosePath. -/
theorem malformed_feature_stops_layerFeatures :
    layerFeatures ⟨0, 0, 0⟩
        ⟨[⟨"layer", 4096, ["a"], [],
          [⟨1, .POINT, [0, 2147483648], [9, 2, 2]⟩, ⟨2, .POINT, [], [9, 2, 2]⟩]⟩]⟩
        (fun _ => ["a"]) (fun geom => geom) = .error .valueIndex ∧
    layerFeatures ⟨0, 0, 0⟩
        ⟨[⟨"layer", 4096, ["a"], [],
          [⟨1, .POLYGON, [], [15]⟩, ⟨2, .POINT, [], [9, 2, 2]⟩]⟩]⟩
        (fun _ => ["a"]) (fun geom => geom) = .error .emptyRingFirst := by
  refine ⟨by decide!, by decide!⟩


end MVT
